import Mathlib

/-!
Verification development for the watershed-delineation repository.

The file contains a shallow embedding, in Lean 4, of the algorithmic parts of
the repository that the frozen claims are about:

* `src/src/py/fast_dissolve.py` — polygon repair (`buffer`), hole closing
  (`close_holes`), fast dissolve (`dissolve_geopandas`);
* `src/app/hypsometric_curve.py` — bin construction and the hypsometric table
  (`_arcgis_bins`, `_hypsometric_table`);
* `src/app/morphometry.py` — CRS handling (`_ensure_gdf_crs`, `_get_utm_epsg`),
  the stream-network graph pipeline (`_explode_lines`, `_node_streams`,
  `_cluster_endpoints`, `_build_graph`, `_dijkstra`,
  `_network_longest_path_km`) and the main `compute` routine.

Modelling conventions, used throughout:

* Python floats are modelled as exact rationals (`ℚ`); `numpy.nan` is modelled
  by `Option` (`none` = NaN); a Python `ZeroDivisionError` is modelled by the
  `Except` error monad.
* Geometric primitives supplied by the external `shapely`/`geopandas`
  libraries (areas, lengths, buffering, polygon union/noding, eigenvector
  computations) are not code of this repository; they enter the embedding
  either as explicit data (e.g. a segment carries its geometric length),
  as function parameters (e.g. the repair `buffer`, the `unary_union`
  noding oracle), or as set-level semantics (clipping = set intersection).
  Each such point is documented at the definition it concerns.
* Insertion-ordered Python dictionaries are modelled as association lists,
  and `heapq` is modelled by its observable behaviour: popping the
  lexicographically least `(priority, node)` entry.
-/

set_option maxHeartbeats 2000000
set_option maxRecDepth 4000

namespace DelineatorRepo

/-- A planar point with exact rational coordinates. -/
abbrev Pt : Type := ℚ × ℚ

/-! ## Embedding of `src/src/py/fast_dissolve.py` -/

/-- Coordinate sequence of a shapely `LinearRing`. -/
abbrev LinearRing : Type := List Pt

/-- Cross-product sum of the shoelace formula: `p0` is the first point of the
ring, to which the last edge wraps around. -/
def crossSum (p0 : Pt) : List Pt → ℚ
  | [] => 0
  | [p] => p.1 * p0.2 - p0.1 * p.2
  | p :: q :: rest => (p.1 * q.2 - q.1 * p.2) + crossSum p0 (q :: rest)

/-- Area enclosed by a ring, i.e. shapely's `Polygon(hole).area`
(absolute value of the shoelace sum, halved). -/
def ringArea (r : LinearRing) : ℚ :=
  match r with
  | [] => 0
  | p :: _ => |crossSum p r| / 2

/-- A shapely `Polygon`: one exterior ring and a list of interior rings. -/
structure PolyRec where
  ext : LinearRing
  holes : List LinearRing
deriving DecidableEq

/-- A shapely geometry as dispatched on by `close_holes`: a `Polygon`, a
`MultiPolygon`, or any other geometry type (opaque, identified by a tag). -/
inductive Geom where
  | poly (p : PolyRec)
  | multi (ps : List PolyRec)
  | other (tag : ℕ)
deriving DecidableEq

/-- The inner `filter_holes` of `close_holes` (fast_dissolve.py lines 41-46):
with `area_max == 0` rebuild the polygon from its exterior only; otherwise
keep exactly the holes whose enclosed area exceeds `area_max`. -/
def filter_holes (area_max : ℚ) (polygon : PolyRec) : PolyRec :=
  if area_max = 0 then ⟨polygon.ext, []⟩
  else ⟨polygon.ext, polygon.holes.filter (fun hole => area_max < ringArea hole)⟩

/-- `close_holes` (fast_dissolve.py lines 36-55): apply `filter_holes` to a
polygon, to each member of a multipolygon, and return any other geometry
unchanged. -/
def close_holes (poly : Geom) (area_max : ℚ) : Geom :=
  match poly with
  | .poly p => .poly (filter_holes area_max p)
  | .multi ps => .multi (ps.map (filter_holes area_max))
  | .other t => .other t

/-- Least element of a rational list (`0` on the empty list, which the
callers below never hit). -/
def minOf : List ℚ → ℚ
  | [] => 0
  | x :: xs => xs.foldl min x

/-- Greatest element of a rational list (`0` on the empty list). -/
def maxOf : List ℚ → ℚ
  | [] => 0
  | x :: xs => xs.foldl max x

/-- The axis-aligned bounding box, as a point set, of a vertex list. -/
def bboxSet (verts : List Pt) : Set Pt :=
  {p | minOf (verts.map Prod.fst) ≤ p.1 ∧ p.1 ≤ maxOf (verts.map Prod.fst) ∧
       minOf (verts.map Prod.snd) ≤ p.2 ∧ p.2 ≤ maxOf (verts.map Prod.snd)}

/-- A polygon row of a GeoDataFrame, for the dissolve embedding.  The region
covered by the geometry is abstracted as a point set `carrier`; `verts` is the
geometry's coordinate list (what `total_bounds` is computed from).  The field
`sub` records the geometric fact that every point of a shapely geometry lies
inside the bounding box of its coordinates. -/
structure PolyObj where
  verts : List Pt
  carrier : Set Pt
  sub : carrier ⊆ bboxSet verts

/-- All coordinates of all rows of a GeoDataFrame, in row order. -/
def allVerts (df : List PolyObj) : List Pt :=
  df.foldr (fun P acc => P.verts ++ acc) []

/-- The margin-expanded rectangle built by `dissolve_geopandas`
(fast_dissolve.py lines 89-99): the total bounds of `df`, grown by one unit on
every side, realised as the filled rectangle with those corners. -/
def rectOf (df : List PolyObj) : Set Pt :=
  {p | minOf ((allVerts df).map Prod.fst) - 1 ≤ p.1 ∧
       p.1 ≤ maxOf ((allVerts df).map Prod.fst) + 1 ∧
       minOf ((allVerts df).map Prod.snd) - 1 ≤ p.2 ∧
       p.2 ≤ maxOf ((allVerts df).map Prod.snd) + 1}

/-- The union of the regions of all rows of a GeoDataFrame. -/
def unionOf (df : List PolyObj) : Set Pt :=
  {p | ∃ P ∈ df, p ∈ P.carrier}

/-- `geopandas.clip(rect, df)` semantics: clipping the one-row rectangle frame
by the mask `df` intersects the rectangle with the union of the mask
geometries; an empty mask yields an empty (zero-row) result. -/
def gpdClip (rect : Set Pt) (df : List PolyObj) : List (Set Pt) :=
  match df with
  | [] => []
  | _ => [rect ∩ unionOf df]

/-- `dissolve_geopandas` (fast_dissolve.py lines 76-107): build the expanded
bounding rectangle, clip it by the input collection, and apply the repair
`buffer` to each resulting row.  The out-and-back `buffer` repair itself is
external shapely code and is passed in as the parameter `buf`. -/
def dissolve_geopandas (buf : Set Pt → Set Pt) (df : List PolyObj) : List (Set Pt) :=
  (gpdClip (rectOf df) df).map buf

/-! ### Claim C4 -/

theorem unionOf_singleton (P : PolyObj) : unionOf [P] = P.carrier := by
  ext p
  simp [unionOf]

theorem carrier_subset_rectOf (P : PolyObj) : P.carrier ⊆ rectOf [P] := by
  intro p hp
  have hb := P.sub hp
  have hv : allVerts [P] = P.verts := by simp [allVerts]
  obtain ⟨h1, h2, h3, h4⟩ := hb
  refine ⟨?_, ?_, ?_, ?_⟩ <;> rw [hv] <;> linarith

/-- Claim C4: `dissolve_geopandas` applied to an empty collection returns an
empty collection, and applied to a one-polygon collection returns exactly that
polygon's region passed through the repair buffer (identity up to repair). -/
theorem C4_dissolve_identity :
    (∀ buf : Set Pt → Set Pt, dissolve_geopandas buf [] = []) ∧
    (∀ (buf : Set Pt → Set Pt) (P : PolyObj),
      dissolve_geopandas buf [P] = [buf P.carrier]) := by
  constructor
  · intro buf
    rfl
  · intro buf P
    have hclip : rectOf [P] ∩ unionOf [P] = P.carrier := by
      rw [unionOf_singleton]
      exact Set.inter_eq_self_of_subset_right (carrier_subset_rectOf P)
    simp [dissolve_geopandas, gpdClip, hclip]

/-! ### Claim C7 -/

/-- Claim C7 counterexample: at threshold `a = 0`, `close_holes` removes a hole
of area `4`, although the claim ("removes exactly the interior rings whose
enclosed area is ≤ a") requires a hole of positive area to survive `a = 0`. -/
theorem C7_counterexample :
    close_holes
        (Geom.poly ⟨[(0,0),(4,0),(4,4),(0,4)], [[(1,1),(3,1),(3,3),(1,3)]]⟩) 0
      = Geom.poly ⟨[(0,0),(4,0),(4,4),(0,4)], []⟩
    ∧ ¬ ringArea [(1,1),(3,1),(3,3),(1,3)] ≤ 0 := by
  constructor
  · rfl
  · norm_num [ringArea, crossSum]

/-- Claim C7 (amended): for every threshold `a ≥ 0` every hole surviving
`close_holes` has area `> a`; for `a > 0` exactly the holes of area `≤ a` are
removed; for `a = 0` all holes are removed; multipolygon members are processed
independently. -/
theorem C7_close_holes_amended :
    (∀ (a : ℚ) (p : PolyRec), 0 ≤ a →
      ∀ h ∈ (filter_holes a p).holes, a < ringArea h) ∧
    (∀ (a : ℚ) (p : PolyRec), 0 < a →
      (filter_holes a p).holes = p.holes.filter (fun h => a < ringArea h) ∧
      ∀ h ∈ p.holes, (h ∈ (filter_holes a p).holes ↔ ¬ ringArea h ≤ a)) ∧
    (∀ p : PolyRec, (filter_holes 0 p).holes = []) ∧
    (∀ (a : ℚ) (ps : List PolyRec),
      close_holes (Geom.multi ps) a = Geom.multi (ps.map (filter_holes a))) ∧
    (∀ (a : ℚ) (p : PolyRec),
      close_holes (Geom.poly p) a = Geom.poly (filter_holes a p)) := by
  refine ⟨?_, ?_, ?_, ?_, ?_⟩
  · intro a p _ h hh
    by_cases ha : a = 0
    · subst ha
      simp [filter_holes] at hh
    · simp only [filter_holes, if_neg ha, List.mem_filter, decide_eq_true_eq] at hh
      exact hh.2
  · intro a p ha
    have ha' : a ≠ 0 := ne_of_gt ha
    constructor
    · simp [filter_holes, if_neg ha']
    · intro h hh
      simp only [filter_holes, if_neg ha', List.mem_filter, decide_eq_true_eq, not_le]
      tauto
  · intro p
    simp [filter_holes]
  · intro a ps
    rfl
  · intro a p
    rfl

/-- Witness for the amended C7 theorem at the concrete threshold `a = 2` and a
concrete polygon with holes of areas `1` and `4`: the hypotheses `0 ≤ 2` and
`0 < 2` are discharged and the filtering evaluates as stated. -/
theorem C7_close_holes_amended_witness :
    (0:ℚ) < 2 ∧
    (filter_holes 2 ⟨[(0,0),(9,0),(9,9),(0,9)],
        [[(1,1),(2,1),(2,2),(1,2)], [(4,4),(6,4),(6,6),(4,6)]]⟩).holes
      = List.filter (fun h => decide ((2:ℚ) < ringArea h))
          [[(1,1),(2,1),(2,2),(1,2)], [(4,4),(6,4),(6,6),(4,6)]] :=
  ⟨by norm_num,
    (C7_close_holes_amended.2.1 2
      ⟨[(0,0),(9,0),(9,9),(0,9)],
        [[(1,1),(2,1),(2,2),(1,2)], [(4,4),(6,4),(6,6),(4,6)]]⟩ (by norm_num)).1⟩

/-! ### Claim C10 -/

/-- Claim C10: `close_holes` leaves the exterior ring of every member polygon
unchanged (same coordinate sequence, same member order for multipolygons),
only ever removes interior rings (the surviving hole list is a sublist of the
original), and returns non-polygonal input unmodified. -/
theorem C10_close_holes_frame :
    ∀ (a : ℚ) (g : Geom),
      (∀ p, g = Geom.poly p → ∃ q, close_holes g a = Geom.poly q ∧
        q.ext = p.ext ∧ q.holes.Sublist p.holes) ∧
      (∀ ps, g = Geom.multi ps → ∃ qs, close_holes g a = Geom.multi qs ∧
        List.Forall₂ (fun q p => q.ext = p.ext ∧ q.holes.Sublist p.holes) qs ps) ∧
      (∀ t, g = Geom.other t → close_holes g a = g) := by
  intro a g
  have hf : ∀ p : PolyRec, (filter_holes a p).ext = p.ext ∧
      (filter_holes a p).holes.Sublist p.holes := by
    intro p
    by_cases ha : a = 0
    · subst ha
      exact ⟨rfl, by simp [filter_holes]⟩
    · exact ⟨by simp [filter_holes, ha], by simp [filter_holes, ha, List.filter_sublist]⟩
  refine ⟨?_, ?_, ?_⟩
  · rintro p rfl
    exact ⟨filter_holes a p, rfl, hf p⟩
  · rintro ps rfl
    refine ⟨ps.map (filter_holes a), rfl, ?_⟩
    induction ps with
    | nil => constructor
    | cons x xs ih => exact List.Forall₂.cons (hf x) ih
  · rintro t rfl
    rfl

/-- Witness for C10 at a concrete multipolygon and threshold: applies the
theorem at `a = 1` to a two-member multipolygon. -/
theorem C10_close_holes_frame_witness :
    Geom.multi [⟨[(0,0),(3,0),(3,3),(0,3)], [[(1,1),(2,1),(2,2),(1,2)]]⟩,
                ⟨[(5,0),(6,0),(6,1),(5,1)], []⟩]
      = Geom.multi [⟨[(0,0),(3,0),(3,3),(0,3)], [[(1,1),(2,1),(2,2),(1,2)]]⟩,
                    ⟨[(5,0),(6,0),(6,1),(5,1)], []⟩] ∧
    ∃ qs : List PolyRec, close_holes
        (Geom.multi [⟨[(0,0),(3,0),(3,3),(0,3)], [[(1,1),(2,1),(2,2),(1,2)]]⟩,
                     ⟨[(5,0),(6,0),(6,1),(5,1)], []⟩]) 1
      = Geom.multi qs ∧
      List.Forall₂ (fun (q p : PolyRec) => q.ext = p.ext ∧ q.holes.Sublist p.holes) qs
        ([⟨[(0,0),(3,0),(3,3),(0,3)], [[(1,1),(2,1),(2,2),(1,2)]]⟩,
          ⟨[(5,0),(6,0),(6,1),(5,1)], []⟩] : List PolyRec) :=
  ⟨rfl, (C10_close_holes_frame 1 _).2.1 _ rfl⟩

/-! ## Embedding of `src/app/hypsometric_curve.py` -/

/-- `_approx_pixel_area_m2` (hypsometric_curve.py lines 35-41).  The cosine of
the centre latitude, `cos(radians(lat_center))`, is a transcendental value
computed by the Python `math` library; it enters here as the parameter
`cosLat`. -/
def _approx_pixel_area_m2 (ta te cosLat : ℚ) : ℚ :=
  let m_per_deg_lat : ℚ := 111320
  let m_per_deg_lon : ℚ := 111320 * cosLat
  |ta| * m_per_deg_lon * |te| * m_per_deg_lat

/-- The per-pixel area used by `_hypsometric_table` (lines 338-342): the
latitude-corrected degree formula when the DEM CRS is geographic (`geoCosLat =
some c` carries the externally computed cosine), else `|a| * |e|` of the
affine transform. -/
def pixelAreaOf (ta te : ℚ) (geoCosLat : Option ℚ) : ℚ :=
  match geoCosLat with
  | some c => _approx_pixel_area_m2 ta te c
  | none => |ta| * |te|

/-- The `while` loop of `_arcgis_bins` (lines 320-324): emit class upper
bounds in steps of 100 until `zmax_i` is reached. -/
def arcgisLoop (zmax_i : ℤ) (current_low : ℤ) : List ℤ :=
  if h : current_low ≤ zmax_i then
    let upper := min (current_low + 99) zmax_i
    upper :: arcgisLoop zmax_i (upper + 1)
  else []
termination_by (zmax_i + 1 - current_low).toNat
decreasing_by
  omega

/-- `_arcgis_bins` (hypsometric_curve.py lines 311-325): fixed 100-unit
classes aligned so that the first class ends at `...99`.  Python's `//` is
floored division, hence `Int.fdiv`. -/
def _arcgis_bins (zmin zmax : ℚ) : List ℚ :=
  let zmin_i : ℤ := ⌊zmin⌋
  let zmax_i : ℤ := ⌈zmax⌉
  let first_upper : ℤ := (Int.fdiv zmin_i 100) * 100 + 99
  if zmax_i ≤ first_upper then List.map (fun z : ℤ => (z : ℚ)) [zmin_i, zmax_i]
  else List.map (fun z : ℤ => (z : ℚ))
    (zmin_i :: first_upper :: arcgisLoop zmax_i (first_upper + 1))

/-- `np.linspace(a, b, num)` with endpoint, over exact rationals. -/
def npLinspace (a b : ℚ) (num : ℕ) : List ℚ :=
  if num = 0 then []
  else if num = 1 then [a]
  else (List.range num).map (fun i : ℕ => a + (b - a) * (i : ℚ) / ((num : ℚ) - 1))

/-- `np.quantile(l, p)` with the default linear interpolation, over exact
rationals. -/
def npQuantile (l : List ℚ) (p : ℚ) : ℚ :=
  let s := l.insertionSort (· ≤ ·)
  if s = [] then 0
  else
    let n := s.length
    let h : ℚ := p * ((n : ℚ) - 1)
    let i : ℤ := ⌊h⌋
    let lo := s.getD i.toNat 0
    let hi := s.getD (min (i.toNat + 1) (n - 1)) 0
    lo + (hi - lo) * (h - (i : ℚ))

/-- `np.unique`: sort and remove duplicates. -/
def npUnique (l : List ℚ) : List ℚ :=
  (l.insertionSort (· ≤ ·)).dedup

/-- `np.histogram(elev, bins=edges)` bin counts: right-open bins, except the
last bin which also includes its right edge. -/
def histCounts (edges : List ℚ) (elev : List ℚ) : List ℕ :=
  (List.range (edges.length - 1)).map (fun i =>
    elev.countP (fun x =>
      decide (edges.getD i 0 ≤ x) &&
        (decide (x < edges.getD (i + 1) 0) ||
          (decide (i = edges.length - 2) && decide (x ≤ edges.getD (i + 1) 0)))))

/-- `np.cumsum`. -/
def cumsum (l : List ℚ) : List ℚ :=
  (l.scanl (· + ·) 0).tail

/-- One row of the hypsometric table built by `_hypsometric_table`
(lines 369-386). -/
structure HypsRow where
  nClase : ℕ
  limInf : ℚ
  limSup : ℚ
  altMedia : ℚ
  areaM2 : ℚ
  areaKm2 : ℚ
  cumDownKm2 : ℚ
  cumUpKm2 : ℚ
  cumDownPct : ℚ
  cumUpPct : ℚ
  pctClase : ℚ
deriving DecidableEq

/-- Line 390 of `_hypsometric_table`: overwrite the ascending cumulative
percentage of the last row with exactly 100. -/
def pinLastDown : List HypsRow → List HypsRow
  | [] => []
  | [r] => [{ r with cumDownPct := 100 }]
  | r :: s :: rest => r :: pinLastDown (s :: rest)

/-- Line 391 of `_hypsometric_table`: overwrite the descending cumulative
percentage of the first row with exactly 100. -/
def pinFirstUp : List HypsRow → List HypsRow
  | [] => []
  | r :: rest => { r with cumUpPct := 100 } :: rest

/-- The `edges` local of `_hypsometric_table` (lines 344-354): scheme
dispatch on the method string, followed by `np.sort`.  (`z_min`, `z_max` and
the quantile-edge candidate are written inline instead of as `let`s.) -/
def hypsoEdges (elev : List ℚ) (num_clases : ℕ) (method : String) : List ℚ :=
  (if method.startsWith "arcgis" then _arcgis_bins (minOf elev) (maxOf elev)
   else if method = "cuantiles" then
     (if (npUnique ((npLinspace 0 1 (num_clases + 1)).map (npQuantile elev))).length - 1
          < num_clases
      then npLinspace (minOf elev) (maxOf elev) (num_clases + 1)
      else npUnique ((npLinspace 0 1 (num_clases + 1)).map (npQuantile elev)))
   else npLinspace (minOf elev) (maxOf elev) (num_clases + 1)).insertionSort (· ≤ ·)

/-- The `counts` local of `_hypsometric_table` (line 355). -/
def hypsoCounts (elev : List ℚ) (num_clases : ℕ) (method : String) : List ℕ :=
  histCounts (hypsoEdges elev num_clases method) elev

/-- The `area_km2` local of `_hypsometric_table` (lines 357-358). -/
def hypsoAreaKm2 (elev : List ℚ) (ta te : ℚ) (num_clases : ℕ) (method : String)
    (geoCosLat : Option ℚ) : List ℚ :=
  ((hypsoCounts elev num_clases method).map
      (fun c : ℕ => (c : ℚ) * pixelAreaOf ta te geoCosLat)).map
    (fun a => a / 1000000)

/-- The `total_km2` local of `_hypsometric_table` (line 359). -/
def hypsoTotal (elev : List ℚ) (ta te : ℚ) (num_clases : ℕ) (method : String)
    (geoCosLat : Option ℚ) : ℚ :=
  (hypsoAreaKm2 elev ta te num_clases method geoCosLat).sum

/-- The row construction of `_hypsometric_table` (lines 369-386), for class
index `i`. -/
def hypsoRowAt (elev : List ℚ) (ta te : ℚ) (num_clases : ℕ) (method : String)
    (geoCosLat : Option ℚ) (i : ℕ) : HypsRow :=
  let edges := hypsoEdges elev num_clases method
  let area_m2 := (hypsoCounts elev num_clases method).map
    (fun c : ℕ => (c : ℚ) * pixelAreaOf ta te geoCosLat)
  let area_km2 := hypsoAreaKm2 elev ta te num_clases method geoCosLat
  let total_km2 := hypsoTotal elev ta te num_clases method geoCosLat
  let cum_down := cumsum area_km2
  let cum_up := (cumsum area_km2.reverse).reverse
  { nClase := i + 1,
    limInf := edges.getD i 0,
    limSup := edges.getD (i + 1) 0,
    altMedia := (edges.getD i 0 + edges.getD (i + 1) 0) / 2,
    areaM2 := area_m2.getD i 0,
    areaKm2 := area_km2.getD i 0,
    cumDownKm2 := cum_down.getD i 0,
    cumUpKm2 := cum_up.getD i 0,
    cumDownPct := cum_down.getD i 0 / total_km2 * 100,
    cumUpPct := cum_up.getD i 0 / total_km2 * 100,
    pctClase := area_km2.getD i 0 / total_km2 * 100 }

/-- `_hypsometric_table` (hypsometric_curve.py lines 330-392).  The input
`elev` is the clipped elevation sample (already NaN-free, as rationals);
`ta`, `te` are the affine transform's pixel sizes; `geoCosLat` is
`some (cos lat_center)` when the DEM CRS is geographic and a polygon is
supplied, else `none`; `method` is the UI scheme string.  An empty input or a
zero total area returns the empty table; otherwise the rows are built and the
two cumulative percentages are pinned to exactly 100 (lines 389-391). -/
def _hypsometric_table (elev : List ℚ) (ta te : ℚ) (num_clases : ℕ)
    (method : String) (geoCosLat : Option ℚ) : List HypsRow :=
  if elev = [] then []
  else if hypsoTotal elev ta te num_clases method geoCosLat = 0 then []
  else
    pinFirstUp (pinLastDown
      ((List.range (hypsoCounts elev num_clases method).length).map
        (hypsoRowAt elev ta te num_clases method geoCosLat)))

/-- `_hypsometric_integral` (hypsometric_curve.py lines 414-423). -/
def _hypsometric_integral (elev : List ℚ) : Option ℚ :=
  match elev with
  | [] => none
  | _ =>
    let z_min := minOf elev
    let z_max := maxOf elev
    let z_mean := elev.sum / elev.length
    if z_max = z_min then none
    else some ((z_mean - z_min) / (z_max - z_min))

/-! ### Supporting lemmas about `minOf` / `maxOf` and sorted lists -/

theorem foldl_min_le_init : ∀ (l : List ℚ) (a : ℚ), l.foldl min a ≤ a := by
  intro l
  induction l with
  | nil => intro a; exact le_refl a
  | cons x xs ih =>
    intro a
    calc (x :: xs).foldl min a = xs.foldl min (min a x) := rfl
    _ ≤ min a x := ih (min a x)
    _ ≤ a := min_le_left a x

theorem foldl_min_le_mem : ∀ (l : List ℚ) (a x : ℚ), x ∈ l → l.foldl min a ≤ x := by
  intro l
  induction l with
  | nil => intro a x hx; cases hx
  | cons y ys ih =>
    intro a x hx
    rcases List.mem_cons.mp hx with h | h
    · subst h
      calc (x :: ys).foldl min a = ys.foldl min (min a x) := rfl
      _ ≤ min a x := foldl_min_le_init ys (min a x)
      _ ≤ x := min_le_right a x
    · exact ih (min a y) x h

theorem foldl_min_mem : ∀ (l : List ℚ) (a : ℚ), l.foldl min a = a ∨ l.foldl min a ∈ l := by
  intro l
  induction l with
  | nil => intro a; exact Or.inl rfl
  | cons x xs ih =>
    intro a
    rcases ih (min a x) with h | h
    · rcases min_choice a x with hc | hc
      · exact Or.inl (by simpa [hc] using h)
      · exact Or.inr (by simp [List.mem_cons]; left; simpa [hc] using h)
    · exact Or.inr (List.mem_cons.mpr (Or.inr h))

theorem minOf_le {l : List ℚ} {x : ℚ} (hx : x ∈ l) : minOf l ≤ x := by
  cases l with
  | nil => cases hx
  | cons y ys =>
    rcases List.mem_cons.mp hx with h | h
    · subst h
      exact foldl_min_le_init ys x
    · exact foldl_min_le_mem ys y x h

theorem minOf_mem {l : List ℚ} (hl : l ≠ []) : minOf l ∈ l := by
  cases l with
  | nil => exact absurd rfl hl
  | cons y ys =>
    rcases foldl_min_mem ys y with h | h
    · exact List.mem_cons.mpr (Or.inl (by simpa [minOf] using h))
    · exact List.mem_cons.mpr (Or.inr (by simpa [minOf] using h))

theorem init_le_foldl_max : ∀ (l : List ℚ) (a : ℚ), a ≤ l.foldl max a := by
  intro l
  induction l with
  | nil => intro a; exact le_refl a
  | cons x xs ih =>
    intro a
    calc a ≤ max a x := le_max_left a x
    _ ≤ xs.foldl max (max a x) := ih (max a x)
    _ = (x :: xs).foldl max a := rfl

theorem mem_le_foldl_max : ∀ (l : List ℚ) (a x : ℚ), x ∈ l → x ≤ l.foldl max a := by
  intro l
  induction l with
  | nil => intro a x hx; cases hx
  | cons y ys ih =>
    intro a x hx
    rcases List.mem_cons.mp hx with h | h
    · subst h
      calc x ≤ max a x := le_max_right a x
      _ ≤ ys.foldl max (max a x) := init_le_foldl_max ys (max a x)
      _ = (x :: ys).foldl max a := rfl
    · exact ih (max a y) x h

theorem foldl_max_mem : ∀ (l : List ℚ) (a : ℚ), l.foldl max a = a ∨ l.foldl max a ∈ l := by
  intro l
  induction l with
  | nil => intro a; exact Or.inl rfl
  | cons x xs ih =>
    intro a
    rcases ih (max a x) with h | h
    · rcases max_choice a x with hc | hc
      · exact Or.inl (by simpa [hc] using h)
      · exact Or.inr (by simp [List.mem_cons]; left; simpa [hc] using h)
    · exact Or.inr (List.mem_cons.mpr (Or.inr h))

theorem le_maxOf {l : List ℚ} {x : ℚ} (hx : x ∈ l) : x ≤ maxOf l := by
  cases l with
  | nil => cases hx
  | cons y ys =>
    rcases List.mem_cons.mp hx with h | h
    · subst h
      exact init_le_foldl_max ys x
    · exact mem_le_foldl_max ys y x h

theorem maxOf_mem {l : List ℚ} (hl : l ≠ []) : maxOf l ∈ l := by
  cases l with
  | nil => exact absurd rfl hl
  | cons y ys =>
    rcases foldl_max_mem ys y with h | h
    · exact List.mem_cons.mpr (Or.inl (by simpa [maxOf] using h))
    · exact List.mem_cons.mpr (Or.inr (by simpa [maxOf] using h))

theorem sorted_getD_zero_le {l : List ℚ} (hs : l.Sorted (· ≤ ·)) {x : ℚ} (hx : x ∈ l) :
    l.getD 0 0 ≤ x := by
  cases l with
  | nil => cases hx
  | cons a t =>
    rcases List.mem_cons.mp hx with h | h
    · subst h; exact le_refl x
    · exact (List.sorted_cons.mp hs).1 x h

theorem sorted_le_getD_last {l : List ℚ} (hs : l.Sorted (· ≤ ·)) {x : ℚ} (hx : x ∈ l) :
    x ≤ l.getD (l.length - 1) 0 := by
  induction l with
  | nil => cases hx
  | cons a t ih =>
    cases t with
    | nil =>
      rcases List.mem_cons.mp hx with h | h
      · subst h; exact le_refl x
      · cases h
    | cons b u =>
      have htail : (a :: b :: u).getD ((a :: b :: u).length - 1) 0
          = (b :: u).getD ((b :: u).length - 1) 0 := by
        simp [List.length_cons]
      rw [htail]
      rcases List.mem_cons.mp hx with h | h
      · subst h
        have hmem : (b :: u).getD ((b :: u).length - 1) 0 ∈ b :: u := by
          rw [List.getD_eq_getElem (b :: u) 0 (by simp)]
          exact List.getElem_mem _
        exact (List.sorted_cons.mp hs).1 _ hmem
      · exact ih (List.sorted_cons.mp hs).2 h

/-- On a sorted edge list of length at least two, every value between the
first and last edge falls into some histogram bin (`np.histogram` semantics:
right-open bins, right-closed last bin). -/
theorem exists_bin : ∀ (edges : List ℚ) (x : ℚ), edges.Sorted (· ≤ ·) →
    2 ≤ edges.length → edges.getD 0 0 ≤ x → x ≤ edges.getD (edges.length - 1) 0 →
    ∃ i, i < edges.length - 1 ∧ edges.getD i 0 ≤ x ∧
      (x < edges.getD (i + 1) 0 ∨ (i = edges.length - 2 ∧ x ≤ edges.getD (i + 1) 0)) := by
  intro edges
  induction edges with
  | nil => intro x _ h2; simp at h2
  | cons a t ih =>
    intro x hs h2 hlo hhi
    cases t with
    | nil => simp at h2
    | cons b u =>
      cases u with
      | nil =>
        refine ⟨0, by simp, hlo, Or.inr ⟨rfl, ?_⟩⟩
        simpa using hhi
      | cons c v =>
        by_cases hxb : x < b
        · exact ⟨0, by simp, hlo, Or.inl (by simpa using hxb)⟩
        · have hble : b ≤ x := le_of_not_lt hxb
          have htail : x ≤ (b :: c :: v).getD ((b :: c :: v).length - 1) 0 := by
            have : (a :: b :: c :: v).getD ((a :: b :: c :: v).length - 1) 0
                = (b :: c :: v).getD ((b :: c :: v).length - 1) 0 := by
              simp [List.length_cons]
            rwa [this] at hhi
          obtain ⟨i, hilen, hpred⟩ := ih x (List.sorted_cons.mp hs).2 (by simp) hble htail
          refine ⟨i + 1, by simpa using Nat.succ_lt_succ hilen, ?_, ?_⟩
          · simpa using hpred.1
          · rcases hpred.2 with h | ⟨hi2, hle⟩
            · exact Or.inl (by simpa using h)
            · refine Or.inr ⟨?_, by simpa using hle⟩
              simp only [List.length_cons] at hi2 ⊢
              omega

/-! ### Edge-list bounds for each binning scheme -/

theorem arcgisLoop_mem : ∀ (n : ℕ) (zmax cl : ℤ), (zmax + 1 - cl).toNat = n →
    cl ≤ zmax → zmax ∈ arcgisLoop zmax cl := by
  intro n
  induction n using Nat.strong_induction_on with
  | _ n ih =>
    intro zmax cl hn h
    rw [arcgisLoop, dif_pos h]
    by_cases hu : min (cl + 99) zmax = zmax
    · simp [hu]
    · have hlt : min (cl + 99) zmax + 1 ≤ zmax := by omega
      have hsmall : (zmax + 1 - (min (cl + 99) zmax + 1)).toNat < n := by omega
      exact List.mem_cons.mpr
        (Or.inr (ih _ hsmall zmax (min (cl + 99) zmax + 1) rfl hlt))

theorem arcgis_bins_lower (zmin zmax : ℚ) : ∃ e ∈ _arcgis_bins zmin zmax, e ≤ zmin := by
  refine ⟨((⌊zmin⌋ : ℤ) : ℚ), ?_, Int.floor_le zmin⟩
  simp only [_arcgis_bins]
  split <;> simp

theorem arcgis_bins_upper (zmin zmax : ℚ) : ∃ e ∈ _arcgis_bins zmin zmax, zmax ≤ e := by
  refine ⟨((⌈zmax⌉ : ℤ) : ℚ), ?_, Int.le_ceil zmax⟩
  simp only [_arcgis_bins]
  split
  next h => simp
  next h =>
    have hloop : (⌈zmax⌉ : ℤ) ∈ arcgisLoop ⌈zmax⌉ ((Int.fdiv ⌊zmin⌋ 100) * 100 + 99 + 1) :=
      arcgisLoop_mem _ _ _ rfl (by omega)
    simp only [List.mem_map, List.mem_cons]
    exact ⟨⌈zmax⌉, Or.inr (Or.inr hloop), rfl⟩

theorem arcgis_bins_length (zmin zmax : ℚ) : 2 ≤ (_arcgis_bins zmin zmax).length := by
  simp only [_arcgis_bins]
  split <;> simp

theorem npLinspace_length (a b : ℚ) (num : ℕ) (h : 2 ≤ num) :
    (npLinspace a b num).length = num := by
  unfold npLinspace
  rw [if_neg (by omega), if_neg (by omega)]
  rw [List.length_map, List.length_range]

theorem npLinspace_mem_left (a b : ℚ) (num : ℕ) (h : 2 ≤ num) : a ∈ npLinspace a b num := by
  unfold npLinspace
  rw [if_neg (by omega), if_neg (by omega)]
  apply List.mem_map.mpr
  refine ⟨0, ?_, ?_⟩
  · exact List.mem_range.mpr (by omega)
  · simp

theorem npLinspace_mem_right (a b : ℚ) (num : ℕ) (h : 2 ≤ num) : b ∈ npLinspace a b num := by
  unfold npLinspace
  rw [if_neg (by omega), if_neg (by omega)]
  apply List.mem_map.mpr
  refine ⟨num - 1, ?_, ?_⟩
  · exact List.mem_range.mpr (by omega)
  · have hring : ((num : ℚ) - 1) ≠ 0 := by
      have : (2 : ℚ) ≤ (num : ℚ) := by exact_mod_cast h
      intro hc
      nlinarith
    have hcast : ((num - 1 : ℕ) : ℚ) = (num : ℚ) - 1 := by
      have h1 : 1 ≤ num := by omega
      push_cast [h1]
      ring
    rw [hcast]
    field_simp

theorem insertionSort_ne_nil {l : List ℚ} (hl : l ≠ []) :
    l.insertionSort (· ≤ ·) ≠ [] := by
  intro hc
  apply hl
  have hlen := (List.perm_insertionSort (α := ℚ) (· ≤ ·) l).length_eq
  rw [hc] at hlen
  exact List.length_eq_zero.mp hlen.symm

theorem npQuantile_zero_eq (l : List ℚ) (hl : l ≠ []) :
    npQuantile l 0 = (l.insertionSort (· ≤ ·)).getD 0 0 := by
  have hsne := insertionSort_ne_nil hl
  unfold npQuantile
  rw [if_neg hsne]
  norm_num

theorem npQuantile_zero_le (l : List ℚ) (hl : l ≠ []) : npQuantile l 0 ≤ minOf l := by
  rw [npQuantile_zero_eq l hl]
  have hmin : minOf l ∈ l.insertionSort (· ≤ ·) :=
    (List.perm_insertionSort (α := ℚ) (· ≤ ·) l).mem_iff.mpr (minOf_mem hl)
  exact sorted_getD_zero_le (List.sorted_insertionSort _ l) hmin

theorem npQuantile_one_eq (l : List ℚ) (hl : l ≠ []) :
    npQuantile l 1 = (l.insertionSort (· ≤ ·)).getD ((l.insertionSort (· ≤ ·)).length - 1) 0 := by
  have hsne := insertionSort_ne_nil hl
  unfold npQuantile
  rw [if_neg hsne]
  have hn : 1 ≤ (l.insertionSort (· ≤ ·)).length := by
    cases hq : l.insertionSort (· ≤ ·) with
    | nil => exact absurd hq hsne
    | cons a t => simp
  simp only [one_mul]
  have hfloor : ⌊((l.insertionSort (· ≤ ·)).length : ℚ) - 1⌋
      = ((l.insertionSort (· ≤ ·)).length : ℤ) - 1 := by
    rw [show (((l.insertionSort (· ≤ ·)).length : ℚ) - 1)
        = ((((l.insertionSort (· ≤ ·)).length : ℤ) - 1 : ℤ) : ℚ) by push_cast; ring]
    exact Int.floor_intCast _
  rw [hfloor]
  have htoNat : (((l.insertionSort (· ≤ ·)).length : ℤ) - 1).toNat
      = (l.insertionSort (· ≤ ·)).length - 1 := by omega
  rw [htoNat]
  have hminEq : min ((l.insertionSort (· ≤ ·)).length - 1 + 1)
      ((l.insertionSort (· ≤ ·)).length - 1) = (l.insertionSort (· ≤ ·)).length - 1 := by
    omega
  rw [hminEq]
  have hcast : ((((l.insertionSort (· ≤ ·)).length : ℤ) - 1 : ℤ) : ℚ)
      = ((l.insertionSort (· ≤ ·)).length : ℚ) - 1 := by push_cast; ring
  rw [hcast]
  ring

theorem le_npQuantile_one (l : List ℚ) (hl : l ≠ []) : maxOf l ≤ npQuantile l 1 := by
  rw [npQuantile_one_eq l hl]
  have hmax : maxOf l ∈ l.insertionSort (· ≤ ·) :=
    (List.perm_insertionSort (α := ℚ) (· ≤ ·) l).mem_iff.mpr (maxOf_mem hl)
  exact sorted_le_getD_last (List.sorted_insertionSort _ l) hmax

theorem npUnique_mem {x : ℚ} {l : List ℚ} (h : x ∈ l) : x ∈ npUnique l := by
  unfold npUnique
  rw [List.mem_dedup]
  exact (List.perm_insertionSort (α := ℚ) (· ≤ ·) l).mem_iff.mpr h

/-! ### Bounds on `hypsoEdges`, for any method string -/

theorem hypsoEdges_sorted (elev : List ℚ) (nc : ℕ) (method : String) :
    (hypsoEdges elev nc method).Sorted (· ≤ ·) := by
  unfold hypsoEdges
  exact List.sorted_insertionSort _ _

/-- Transfer length and element bounds through the final `np.sort` step. -/
theorem sorted_edges_spec (l0 : List ℚ) (x y : ℚ) (hlen : 2 ≤ l0.length)
    (hlo : ∃ e ∈ l0, e ≤ x) (hhi : ∃ e ∈ l0, y ≤ e) :
    2 ≤ (l0.insertionSort (· ≤ ·)).length ∧
    (∃ e ∈ l0.insertionSort (· ≤ ·), e ≤ x) ∧
    (∃ e ∈ l0.insertionSort (· ≤ ·), y ≤ e) := by
  have hperm := List.perm_insertionSort (α := ℚ) (· ≤ ·) l0
  obtain ⟨e1, he1, hle1⟩ := hlo
  obtain ⟨e2, he2, hle2⟩ := hhi
  exact ⟨by rw [hperm.length_eq]; exact hlen,
    ⟨e1, hperm.mem_iff.mpr he1, hle1⟩,
    ⟨e2, hperm.mem_iff.mpr he2, hle2⟩⟩

theorem hypsoEdges_spec (elev : List ℚ) (nc : ℕ) (method : String)
    (helev : elev ≠ []) (hnc : 1 ≤ nc) :
    2 ≤ (hypsoEdges elev nc method).length ∧
    (∃ e ∈ hypsoEdges elev nc method, e ≤ minOf elev) ∧
    (∃ e ∈ hypsoEdges elev nc method, maxOf elev ≤ e) := by
  have hnum : 2 ≤ nc + 1 := by omega
  by_cases h1 : method.startsWith "arcgis" = true
  · have hE : hypsoEdges elev nc method
        = (_arcgis_bins (minOf elev) (maxOf elev)).insertionSort (· ≤ ·) := by
      unfold hypsoEdges
      rw [if_pos h1]
    rw [hE]
    exact sorted_edges_spec _ _ _ (arcgis_bins_length _ _)
      (arcgis_bins_lower _ _) (arcgis_bins_upper _ _)
  · by_cases h2 : method = "cuantiles"
    · by_cases h3 :
          (npUnique ((npLinspace 0 1 (nc + 1)).map (npQuantile elev))).length - 1 < nc
      · have hE : hypsoEdges elev nc method
            = (npLinspace (minOf elev) (maxOf elev) (nc + 1)).insertionSort (· ≤ ·) := by
          unfold hypsoEdges
          rw [if_neg h1, if_pos h2, if_pos h3]
        rw [hE]
        refine sorted_edges_spec _ _ _ (by rw [npLinspace_length _ _ _ hnum]; exact hnum) ?_ ?_
        · exact ⟨minOf elev, npLinspace_mem_left _ _ _ hnum, le_refl _⟩
        · exact ⟨maxOf elev, npLinspace_mem_right _ _ _ hnum, le_refl _⟩
      · have hE : hypsoEdges elev nc method
            = (npUnique ((npLinspace 0 1 (nc + 1)).map (npQuantile elev))).insertionSort
                (· ≤ ·) := by
          unfold hypsoEdges
          rw [if_neg h1, if_pos h2, if_neg h3]
        rw [hE]
        refine sorted_edges_spec _ _ _ (by omega) ?_ ?_
        · refine ⟨npQuantile elev 0, ?_, npQuantile_zero_le elev helev⟩
          exact npUnique_mem (List.mem_map.mpr ⟨0, npLinspace_mem_left 0 1 _ hnum, rfl⟩)
        · refine ⟨npQuantile elev 1, ?_, le_npQuantile_one elev helev⟩
          exact npUnique_mem (List.mem_map.mpr ⟨1, npLinspace_mem_right 0 1 _ hnum, rfl⟩)
    · have hE : hypsoEdges elev nc method
          = (npLinspace (minOf elev) (maxOf elev) (nc + 1)).insertionSort (· ≤ ·) := by
        unfold hypsoEdges
        rw [if_neg h1, if_neg h2]
      rw [hE]
      refine sorted_edges_spec _ _ _ (by rw [npLinspace_length _ _ _ hnum]; exact hnum) ?_ ?_
      · exact ⟨minOf elev, npLinspace_mem_left _ _ _ hnum, le_refl _⟩
      · exact ⟨maxOf elev, npLinspace_mem_right _ _ _ hnum, le_refl _⟩

/-! ### Histogram counts and the total area -/

theorem histCounts_length (edges elev : List ℚ) :
    (histCounts edges elev).length = edges.length - 1 := by
  unfold histCounts
  rw [List.length_map, List.length_range]

theorem counts_sum_pos (edges elev : List ℚ) (x : ℚ) (hx : x ∈ elev)
    (hs : edges.Sorted (· ≤ ·)) (h2 : 2 ≤ edges.length)
    (hlo : edges.getD 0 0 ≤ x) (hhi : x ≤ edges.getD (edges.length - 1) 0) :
    0 < (histCounts edges elev).sum := by
  obtain ⟨i, hi, hple, hpred⟩ := exists_bin edges x hs h2 hlo hhi
  have hmem : elev.countP (fun y =>
      decide (edges.getD i 0 ≤ y) &&
        (decide (y < edges.getD (i + 1) 0) ||
          (decide (i = edges.length - 2) && decide (y ≤ edges.getD (i + 1) 0))))
      ∈ histCounts edges elev := by
    unfold histCounts
    exact List.mem_map.mpr ⟨i, List.mem_range.mpr hi, rfl⟩
  have hcount : 0 < elev.countP (fun y =>
      decide (edges.getD i 0 ≤ y) &&
        (decide (y < edges.getD (i + 1) 0) ||
          (decide (i = edges.length - 2) && decide (y ≤ edges.getD (i + 1) 0)))) := by
    rw [List.countP_pos_iff]
    refine ⟨x, hx, ?_⟩
    simp only [Bool.and_eq_true, decide_eq_true_eq, Bool.or_eq_true]
    refine ⟨hple, ?_⟩
    rcases hpred with h | ⟨ha, hb⟩
    · exact Or.inl h
    · exact Or.inr ⟨by simpa using ha, by simpa using hb⟩
  calc 0 < _ := hcount
  _ ≤ (histCounts edges elev).sum := List.le_sum_of_mem hmem

theorem sum_area_formula (counts : List ℕ) (pa : ℚ) :
    ((counts.map (fun c : ℕ => (c : ℚ) * pa)).map (fun a => a / 1000000)).sum
      = (counts.sum : ℚ) * pa / 1000000 := by
  induction counts with
  | nil => simp
  | cons c cs ih =>
    simp only [List.map_cons, List.sum_cons, ih]
    push_cast
    ring

theorem hypsoTotal_eq (elev : List ℚ) (ta te : ℚ) (nc : ℕ) (method : String)
    (geoCos : Option ℚ) :
    hypsoTotal elev ta te nc method geoCos
      = ((hypsoCounts elev nc method).sum : ℚ) * pixelAreaOf ta te geoCos / 1000000 := by
  unfold hypsoTotal hypsoAreaKm2
  exact sum_area_formula _ _

/-! ### The pinned rows -/

theorem pinLastDown_ne_nil {l : List HypsRow} (h : l ≠ []) : pinLastDown l ≠ [] := by
  cases l with
  | nil => exact absurd rfl h
  | cons r rest =>
    cases rest with
    | nil => simp [pinLastDown]
    | cons s rest' => simp [pinLastDown]

theorem pinFirstUp_ne_nil {l : List HypsRow} (h : l ≠ []) : pinFirstUp l ≠ [] := by
  cases l with
  | nil => exact absurd rfl h
  | cons r rest => simp [pinFirstUp]

theorem pinLastDown_getLast (l : List HypsRow) (h : l ≠ []) :
    ((pinLastDown l).getLast?).map HypsRow.cumDownPct = some 100 := by
  induction l with
  | nil => exact absurd rfl h
  | cons r rest ih =>
    cases rest with
    | nil => simp [pinLastDown]
    | cons s rest' =>
      have ihne := ih (by simp)
      obtain ⟨hd, tl, heq⟩ :=
        List.exists_cons_of_ne_nil (pinLastDown_ne_nil (l := s :: rest') (by simp))
      show ((r :: pinLastDown (s :: rest')).getLast?).map HypsRow.cumDownPct = some 100
      rw [heq, List.getLast?_cons_cons]
      rw [heq] at ihne
      exact ihne

theorem pinFirstUp_getLast (l : List HypsRow) (h : l ≠ []) :
    ((pinFirstUp l).getLast?).map HypsRow.cumDownPct
      = (l.getLast?).map HypsRow.cumDownPct := by
  cases l with
  | nil => exact absurd rfl h
  | cons r rest =>
    cases rest with
    | nil => simp [pinFirstUp]
    | cons s rest' =>
      show (({ r with cumUpPct := 100 } :: s :: rest').getLast?).map HypsRow.cumDownPct
        = ((r :: s :: rest').getLast?).map HypsRow.cumDownPct
      rw [List.getLast?_cons_cons, List.getLast?_cons_cons]

theorem pinFirstUp_head (l : List HypsRow) (h : l ≠ []) :
    ((pinFirstUp l).head?).map HypsRow.cumUpPct = some 100 := by
  cases l with
  | nil => exact absurd rfl h
  | cons r rest => simp [pinFirstUp]

/-! ### Claim C8 -/

theorem _hypsometric_table_of_total_ne (elev : List ℚ) (ta te : ℚ) (nc : ℕ)
    (method : String) (geoCos : Option ℚ) (h1 : elev ≠ [])
    (htne : hypsoTotal elev ta te nc method geoCos ≠ 0) :
    _hypsometric_table elev ta te nc method geoCos
      = pinFirstUp (pinLastDown
          ((List.range (hypsoCounts elev nc method).length).map
            (hypsoRowAt elev ta te nc method geoCos))) := by
  unfold _hypsometric_table
  rw [if_neg h1, if_neg htne]

/-- Claim C8: on every non-empty clipped elevation sample (with at least one
class requested and a positive per-pixel area), the hypsometric table is
non-empty, the ascending (from-bottom) cumulative-area percentage of its last
row equals exactly 100, and the descending (from-top) cumulative-area
percentage of its first row equals exactly 100. -/
theorem C8_hypsometric_pinned (elev : List ℚ) (ta te : ℚ) (nc : ℕ) (method : String)
    (geoCos : Option ℚ) (h1 : elev ≠ []) (h2 : 1 ≤ nc)
    (h3 : 0 < pixelAreaOf ta te geoCos) :
    _hypsometric_table elev ta te nc method geoCos ≠ [] ∧
    ((_hypsometric_table elev ta te nc method geoCos).getLast?).map HypsRow.cumDownPct
      = some 100 ∧
    ((_hypsometric_table elev ta te nc method geoCos).head?).map HypsRow.cumUpPct
      = some 100 := by
  obtain ⟨hlen2, ⟨e1, he1, he1le⟩, ⟨e2, he2, he2ge⟩⟩ := hypsoEdges_spec elev nc method h1 h2
  have hsorted : (hypsoEdges elev nc method).Sorted (· ≤ ·) := hypsoEdges_sorted elev nc method
  have hxmem : minOf elev ∈ elev := minOf_mem h1
  have hlo : (hypsoEdges elev nc method).getD 0 0 ≤ minOf elev :=
    le_trans (sorted_getD_zero_le hsorted he1) he1le
  have hhi : minOf elev
      ≤ (hypsoEdges elev nc method).getD ((hypsoEdges elev nc method).length - 1) 0 :=
    le_trans (le_trans (minOf_le (maxOf_mem h1)) he2ge) (sorted_le_getD_last hsorted he2)
  have hcsum : 0 < (hypsoCounts elev nc method).sum :=
    counts_sum_pos (hypsoEdges elev nc method) elev (minOf elev) hxmem hsorted hlen2 hlo hhi
  have htot : 0 < hypsoTotal elev ta te nc method geoCos := by
    rw [hypsoTotal_eq]
    apply div_pos
    · exact mul_pos (by exact_mod_cast hcsum) h3
    · norm_num
  have htne : hypsoTotal elev ta te nc method geoCos ≠ 0 := ne_of_gt htot
  rw [_hypsometric_table_of_total_ne elev ta te nc method geoCos h1 htne]
  have hrowsne : (List.range (hypsoCounts elev nc method).length).map
      (hypsoRowAt elev ta te nc method geoCos) ≠ [] := by
    have hclen : 1 ≤ (hypsoCounts elev nc method).length := by
      unfold hypsoCounts
      rw [histCounts_length]
      omega
    intro hc
    have hlc := congrArg List.length hc
    rw [List.length_map, List.length_range] at hlc
    simp only [List.length_nil] at hlc
    omega
  refine ⟨pinFirstUp_ne_nil (pinLastDown_ne_nil hrowsne), ?_, ?_⟩
  · rw [pinFirstUp_getLast _ (pinLastDown_ne_nil hrowsne)]
    exact pinLastDown_getLast _ hrowsne
  · exact pinFirstUp_head _ (pinLastDown_ne_nil hrowsne)

/-- Witness for C8: a concrete three-pixel elevation sample with unit pixel
size under the ArcGIS scheme; the hypotheses evaluate and the theorem applies. -/
theorem C8_hypsometric_pinned_witness :
    ([ (10 : ℚ), 150, 260 ] ≠ []) ∧
    (1 ≤ 12) ∧
    (0 < pixelAreaOf 1 1 none) ∧
    (_hypsometric_table [10, 150, 260] 1 1 12 "arcgis (100 m)" none ≠ [] ∧
     ((_hypsometric_table [10, 150, 260] 1 1 12 "arcgis (100 m)" none).getLast?).map
        HypsRow.cumDownPct = some 100 ∧
     ((_hypsometric_table [10, 150, 260] 1 1 12 "arcgis (100 m)" none).head?).map
        HypsRow.cumUpPct = some 100) :=
  ⟨by simp, by norm_num, by norm_num [pixelAreaOf],
    C8_hypsometric_pinned [10, 150, 260] 1 1 12 "arcgis (100 m)" none
      (by simp) (by norm_num) (by norm_num [pixelAreaOf])⟩

/-! ## Embedding of `src/app/morphometry.py` -/

/-- `ENDPOINT_CLUSTER_TOL` (morphometry.py line 13). -/
def ENDPOINT_CLUSTER_TOL : ℚ := 25

/-- `TARGET_SINUOSITY` (morphometry.py line 14). -/
def TARGET_SINUOSITY : ℚ := 1.03

/-- `ASSUME_GEO_CRS` (morphometry.py line 17). -/
def ASSUME_GEO_CRS : ℤ := 4326

/-- A coordinate reference system, reduced to what `compute` inspects: whether
it is geographic (degree-based) and its EPSG code. -/
structure CRSModel where
  isGeographic : Bool
  epsg : ℤ
deriving DecidableEq

/-- `_ensure_gdf_crs` (morphometry.py lines 22-28): a missing CRS is assumed
to be geographic WGS84 (EPSG:4326), without reprojecting. -/
def _ensure_gdf_crs (crs : Option CRSModel) : CRSModel :=
  crs.getD ⟨true, ASSUME_GEO_CRS⟩

/-- Python `int()`: truncation toward zero. -/
def pyInt (q : ℚ) : ℤ :=
  if 0 ≤ q then ⌊q⌋ else -⌊-q⌋

/-- `_get_utm_epsg` (morphometry.py lines 30-36), given the geographic
centroid coordinates of the (CRS-ensured) GeoDataFrame. -/
def _get_utm_epsg (lon lat : ℚ) : ℤ :=
  let zone := pyInt ((lon + 180) / 6) + 1
  (if 0 ≤ lat then 32600 else 32700) + zone

/-! ### Stream-network pipeline -/

/-- One exploded geometry row: its coordinate sequence (`[]` = empty
geometry).  Multi-part rows are modelled as already exploded into single
parts. -/
abbrev RawGeom : Type := List Pt

/-- Deduplication keeping the first occurrence of each element
(`drop_duplicates` on the WKB column, which compares geometries bytewise =
structurally). -/
def dedupFirstAux (seen : List RawGeom) : List RawGeom → List RawGeom
  | [] => []
  | x :: xs =>
    if x ∈ seen then dedupFirstAux seen xs
    else x :: dedupFirstAux (x :: seen) xs

/-- `_explode_lines` (morphometry.py lines 53-58): drop bit-identical
duplicates, then drop empty geometries. -/
def _explode_lines (rows : List RawGeom) : List RawGeom :=
  (dedupFirstAux [] rows).filter (fun g => !g.isEmpty)

/-- An atomic noded line segment as produced by shapely's
`unary_union`/`linemerge`: its first and last coordinate and its geometric
length.  The length of a (possibly curved) LineString is Euclidean and is
computed by shapely, so it enters the embedding as data; the source only
reads `coords[0]`, `coords[-1]` and `length` of each segment. -/
structure Seg where
  p1 : Pt
  p2 : Pt
  len : ℚ
deriving DecidableEq

/-- `_node_streams` (morphometry.py lines 60-81): on a non-empty input,
node the rows with `unary_union` (the external noding oracle `U`) and collect
exactly the resulting LineStrings of positive length. -/
def _node_streams (U : List RawGeom → List Seg) (rows : List RawGeom) : List Seg :=
  if rows = [] then []
  else (U rows).filter (fun s => decide (0 < s.len))

/-- A running-centroid cluster: centre coordinates and member count. -/
abbrev Cluster : Type := ℚ × ℚ × ℕ

/-- The inner linear scan of `_cluster_endpoints`: the first existing cluster
whose centre is within squared tolerance of `p`, with its index. -/
def findCluster (p : Pt) (tol2 : ℚ) : List Cluster → ℕ → Option (ℕ × Cluster)
  | [], _ => none
  | c :: cs, i =>
    if (p.1 - c.1) ^ 2 + (p.2 - c.2.1) ^ 2 ≤ tol2 then some (i, c)
    else findCluster p tol2 cs (i + 1)

/-- Python dict assignment `mapping[(x, y)] = idx`: overwrite in place if the
key exists, else append. -/
def updPt (m : List (Pt × ℕ)) (p : Pt) (i : ℕ) : List (Pt × ℕ) :=
  if m.any (fun e => decide (e.1 = p)) then
    m.map (fun e => if e.1 = p then (p, i) else e)
  else m ++ [(p, i)]

/-- One iteration of the `for (x, y) in points` loop of `_cluster_endpoints`
(morphometry.py lines 87-102): join the first cluster within tolerance,
moving its centre to the weighted mean, or open a new cluster. -/
def clusterStep (tol2 : ℚ) (st : List Cluster × List (Pt × ℕ)) (p : Pt) :
    List Cluster × List (Pt × ℕ) :=
  match findCluster p tol2 st.1 0 with
  | some (idx, (cx, cy, count)) =>
    let newCount := count + 1
    let nx := cx + (p.1 - cx) / (newCount : ℚ)
    let ny := cy + (p.2 - cy) / (newCount : ℚ)
    (st.1.set idx (nx, ny, newCount), updPt st.2 p idx)
  | none =>
    (st.1 ++ [(p.1, p.2, 1)], updPt st.2 p st.1.length)

/-- `_cluster_endpoints` (morphometry.py lines 83-104): returns the final
point-to-cluster mapping and the representative centre of each cluster. -/
def _cluster_endpoints (points : List Pt) (cluster_tol : ℚ) :
    List (Pt × ℕ) × List (ℕ × Pt) :=
  let tol2 := cluster_tol ^ 2
  let st := points.foldl (clusterStep tol2) ([], [])
  (st.2, st.1.enum.map (fun e => (e.1, (e.2.1, e.2.2.1))))

/-- Association-list lookup on the endpoint mapping. -/
def lookupPt : List (Pt × ℕ) → Pt → Option ℕ
  | [], _ => none
  | e :: rest, p => if e.1 = p then some e.2 else lookupPt rest p

/-- A directed weighted edge of the stream graph. -/
abbrev Edge : Type := ℕ × ℕ × ℚ

/-- `_build_graph` (morphometry.py lines 106-125): cluster all segment
endpoints, then add one symmetric edge pair per segment between the clustered
endpoint nodes, dropping self-loops.  The insertion-ordered `defaultdict`
adjacency is represented by the ordered directed edge list. -/
def _build_graph (segments : List Seg) (endpoint_cluster_tol : ℚ) :
    List Edge × List (ℕ × Pt) :=
  let endpoints := segments.foldr (fun s acc => s.p1 :: s.p2 :: acc) []
  let mr := _cluster_endpoints endpoints endpoint_cluster_tol
  let edges := segments.foldr (fun s acc =>
    let n1 := (lookupPt mr.1 s.p1).getD 0
    let n2 := (lookupPt mr.1 s.p2).getD 0
    if n1 = n2 then acc else (n1, n2, s.len) :: (n2, n1, s.len) :: acc) []
  (edges, mr.2)

/-- The adjacency list `graph[u]`, in edge-insertion order. -/
def adjOf (E : List Edge) (u : ℕ) : List (ℕ × ℚ) :=
  E.filterMap (fun e => if e.1 = u then some (e.2.1, e.2.2) else none)

/-- Association-list lookup for the `dist` dictionary. -/
def lookupA : List (ℕ × ℚ) → ℕ → Option ℚ
  | [], _ => none
  | e :: rest, k => if e.1 = k then some e.2 else lookupA rest k

/-- Python dict assignment `dist[v] = nd`: in-place update preserving
insertion order, or append for a new key. -/
def updateA (dist : List (ℕ × ℚ)) (k : ℕ) (v : ℚ) : List (ℕ × ℚ) :=
  if (lookupA dist k).isSome then dist.map (fun e => if e.1 = k then (k, v) else e)
  else dist ++ [(k, v)]

/-- The `heapq` tuple order on `(priority, node)` entries. -/
def pqLeB (a b : ℚ × ℕ) : Bool :=
  decide (a.1 < b.1) || (decide (a.1 = b.1) && decide (a.2 ≤ b.2))

/-- The least entry of the heap (what `heapq.heappop` returns). -/
def pqMin : List (ℚ × ℕ) → Option (ℚ × ℕ)
  | [] => none
  | e :: rest => some (rest.foldl (fun best x => if pqLeB x best then x else best) e)

/-- `heapq.heappop`: remove and return the least entry. -/
def popMinPQ (pq : List (ℚ × ℕ)) : Option ((ℚ × ℕ) × List (ℚ × ℕ)) :=
  match pqMin pq with
  | none => none
  | some m => some (m, pq.erase m)

/-- The `for v, w in graph[u]` relaxation loop of `_dijkstra` (morphometry.py
lines 134-138): `nd = d + w`; on improvement, update `dist` and push. -/
def relaxList : List (ℕ × ℚ) → ℚ → List (ℚ × ℕ) → List (ℕ × ℚ) →
    List (ℚ × ℕ) × List (ℕ × ℚ)
  | [], _, pq, dist => (pq, dist)
  | (v, w) :: rest, d, pq, dist =>
    let nd := d + w
    match lookupA dist v with
    | none => relaxList rest d (pq ++ [(nd, v)]) (updateA dist v nd)
    | some dv =>
      if nd < dv then relaxList rest d (pq ++ [(nd, v)]) (updateA dist v nd)
      else relaxList rest d pq dist

/-- The `while pq` loop of `_dijkstra` (morphometry.py lines 130-138), with a
fuel parameter for termination; `_dijkstra` below supplies fuel that provably
exhausts the heap (each node is freshly popped at most once and each directed
edge pushes at most once, see `dijkstraLoop_runs_out`).  A stale entry
(`d > dist[u]`) is skipped; a missing `dist[u]` entry cannot occur (Python
would raise `KeyError`) and is treated as fresh. -/
def dijkstraLoop (E : List Edge) : ℕ → List (ℚ × ℕ) → List (ℕ × ℚ) → List (ℕ × ℚ)
  | 0, _, dist => dist
  | fuel + 1, pq, dist =>
    match popMinPQ pq with
    | none => dist
    | some ((d, u), pq') =>
      match lookupA dist u with
      | some du =>
        if du < d then dijkstraLoop E fuel pq' dist
        else
          let pd := relaxList (adjOf E u) d pq' dist
          dijkstraLoop E fuel pd.1 pd.2
      | none =>
        let pd := relaxList (adjOf E u) d pq' dist
        dijkstraLoop E fuel pd.1 pd.2

/-- `max(dist.items(), key=lambda kv: kv[1])[0]`: the first key attaining the
maximal value, in dictionary insertion order. -/
def maxByVal : List (ℕ × ℚ) → ℕ
  | [] => 0
  | e :: rest => (rest.foldl (fun best x => if best.2 < x.2 then x else best) e).1

/-- `_dijkstra` (morphometry.py lines 127-140): run the heap loop from
`start` and return the distance dictionary together with the farthest node. -/
def _dijkstra (E : List Edge) (start : ℕ) : List (ℕ × ℚ) × ℕ :=
  let dist := dijkstraLoop E (E.length + 2) [(0, start)] [(start, 0)]
  (dist, maxByVal dist)

/-- Lines 151-158 of `_network_longest_path_km`: build the graph, bail out
with NaN if it has no edges, else double-sweep and convert to kilometres.
`next(iter(graph.keys()))` is the first inserted key, i.e. the source of the
first directed edge. -/
def longestFromSegs (segments : List Seg) : Option ℚ :=
  if (_build_graph segments ENDPOINT_CLUSTER_TOL).1 = [] then none
  else
    let E := (_build_graph segments ENDPOINT_CLUSTER_TOL).1
    let d1 := _dijkstra E (E.headD (0, 0, 0)).1
    let d2 := _dijkstra E d1.2
    some (((lookupA d2.1 d2.2).getD 0) / 1000)

/-- `_network_longest_path_km` (morphometry.py lines 142-158).  `U` is the
external `unary_union`/`linemerge` noding oracle (see `_node_streams`). -/
def _network_longest_path_km (U : List RawGeom → List Seg)
    (streams : Option (List RawGeom)) : Option ℚ :=
  match streams with
  | none => none
  | some rows =>
    if rows = [] then none
    else
      if _explode_lines rows = [] then none
      else
        if _node_streams U (_explode_lines rows) = [] then none
        else longestFromSegs (_node_streams U (_explode_lines rows))

/-! ### Classifications and display rounding -/

/-- `_classify_cuenca` (morphometry.py lines 241-247). -/
def _classify_cuenca (area_km2 : ℚ) : String :=
  if area_km2 < 25 then "Microcuenca"
  else if area_km2 < 250 then "Pequeña"
  else if area_km2 < 500 then "Intermedia-Pequeña"
  else if area_km2 < 2500 then "Intermedia-Grande"
  else if area_km2 ≤ 5000 then "Grande"
  else "Muy Grande"

/-- `_classify_sinuosity` (morphometry.py lines 255-260). -/
def _classify_sinuosity (s : ℚ) : String :=
  if s < 1.2 then "Rectilíneo"
  else if s < 1.5 then "Transicional"
  else if s < 1.7 then "Regular"
  else if s < 2.1 then "Irregular"
  else "Tortuoso"

/-- `_classify_densidad` (morphometry.py lines 262-266). -/
def _classify_densidad (den : ℚ) : String :=
  if den < 1 then "Baja"
  else if den < 2 then "Moderada"
  else if den < 3 then "Alta"
  else "Muy Alta"

/-- `_classify_forma_cuenca` (morphometry.py lines 268-278); `none` is the
NaN input/output. -/
def _classify_forma_cuenca (f : Option ℚ) : Option String :=
  match f with
  | none => none
  | some v =>
    some (if v < 0.22 then "Muy Alargada"
      else if v < 0.30 then "Alargada"
      else if v < 0.37 then "Ligeramente Alargada"
      else if v < 0.45 then "Ni alargada, ni achatada"
      else if v < 0.60 then "Ligeramente Achatada"
      else if v < 0.80 then "Achatada"
      else if v < 1.20 then "Muy Achatada"
      else "Redonda")

/-- `_shape_factor` (morphometry.py lines 238-239): `area / length**2 if
length_km else np.nan`.  A zero length is falsy in Python and yields NaN; a
NaN length propagates to NaN. -/
def _shape_factor (area_km2 : ℚ) (length_km : Option ℚ) : Option ℚ :=
  match length_km with
  | none => none
  | some L => if L = 0 then none else some (area_km2 / L ^ 2)

/-- Round-half-to-even on exact rationals (the rounding mode of Python's
`round`). -/
def roundHalfEven (q : ℚ) : ℤ :=
  let f := ⌊q⌋
  let r := q - (f : ℚ)
  if r < 1 / 2 then f
  else if 1 / 2 < r then f + 1
  else if Even f then f else f + 1

/-- Python `round(q, ndigits)` idealised over exact rationals. -/
def pyRound (ndigits : ℕ) (q : ℚ) : ℚ :=
  ((roundHalfEven (q * 10 ^ ndigits) : ℤ) : ℚ) / 10 ^ ndigits

/-! ### The `compute` routine (morphometry.py lines 281-371)

The geometry-level quantities produced by shapely/numpy on the (possibly
reprojected) layers — polygon area, simplified perimeter, PCA basin length,
per-row stream geometry and total stream length — are functions of the CRS in
which the layer is held when the quantity is evaluated; they enter the
embedding as CRS-indexed data in `WatershedIn`/`StreamsIn`.  The Gravelius
compactness index `_compactness` (lines 235-236) divides by
`2 * (π * area) ** 0.5`; its value is irrational and is not recorded in the
result model, but its Python `ZeroDivisionError` at zero area is. -/

/-- The watershed input layer, with its geometry-derived quantities indexed by
the CRS in which they are evaluated.  `lon`/`lat` is the geographic centroid
used by `_get_utm_epsg`. -/
structure WatershedIn where
  crs : Option CRSModel
  lon : ℚ
  lat : ℚ
  area_km2 : CRSModel → ℚ
  perim_km : CRSModel → ℚ
  basinLen_km : CRSModel → Option ℚ

/-- The optional stream input layer. -/
structure StreamsIn where
  crs : Option CRSModel
  rows : CRSModel → List RawGeom
  totalLen_m : CRSModel → ℚ
  count : ℕ

/-- A Python exception escaping `compute`. -/
inductive PyErr where
  | zeroDivision
deriving DecidableEq

/-- The inputs of `compute`: watershed, optional streams, the elevation
statistics `(cota_min, cota_max, delta_h)` extracted from the auto-selected
DEM (`none` when no DEM is found or extraction fails, lines 299-306), and the
noding oracle `U`. -/
structure ComputeIn where
  ws : WatershedIn
  streams : Option StreamsIn
  demStats : Option (ℚ × ℚ × ℚ)
  U : List RawGeom → List Seg

/-- The result mapping of `compute` (lines 346-371), with display rounding
applied as in the source.  The compactness index and its classification are
omitted (irrational, see above); `slopeRatio` is the common subexpression
`delta_h / (longitud_cuenca * 1000)` from which both slope outputs are
computed, and the reported percentage field is `slopePct`. -/
structure MorphoResult where
  area : ℚ
  areaHa : ℚ
  perim : ℚ
  clasifArea : String
  longitudCuenca : Option ℚ
  factorForma : Option ℚ
  formaCuenca : Option String
  longitudCPL : Option ℚ
  longitudCP : Option ℚ
  sinuosidad : Option ℚ
  clasifSinuosidad : Option String
  totalCauces : Option ℚ
  densidadDren : Option ℚ
  clasifDensidad : Option String
  cotaMin : Option ℚ
  cotaMax : Option ℚ
  deltaH : Option ℚ
  numDren : Option ℕ
  slopeRatio : Option ℚ
  slopePct : Option ℚ
deriving DecidableEq

/-- Line 289: the watershed CRS after `_ensure_gdf_crs`. -/
def wsCrs0 (inp : ComputeIn) : CRSModel := _ensure_gdf_crs inp.ws.crs

/-- The UTM CRS chosen on line 310 from the original watershed centroid. -/
def utmCRS (inp : ComputeIn) : CRSModel := ⟨false, _get_utm_epsg inp.ws.lon inp.ws.lat⟩

/-- Lines 309-311: the CRS in which the watershed polygon is held when the
plane metrics are computed. -/
def wsMetricCRS (inp : ComputeIn) : CRSModel :=
  if (wsCrs0 inp).isGeographic then utmCRS inp else wsCrs0 inp

/-- Lines 291-292 and 312-313: the CRS in which a given stream layer is held
when its metrics are computed — reprojected to UTM only when the watershed is
geographic AND the stream layer is geographic. -/
def strMetricCRSval (inp : ComputeIn) (s : StreamsIn) : CRSModel :=
  let c := _ensure_gdf_crs s.crs
  if (wsCrs0 inp).isGeographic && c.isGeographic then utmCRS inp else c

/-- The stream metric CRS, when a stream layer is present. -/
def strMetricCRS (inp : ComputeIn) : Option CRSModel :=
  inp.streams.map (strMetricCRSval inp)

/-- Line 316: `area = _area_km2(poly)`, on the reprojected watershed. -/
def areaOf (inp : ComputeIn) : ℚ := inp.ws.area_km2 (wsMetricCRS inp)

/-- Line 317: `perim = _perimeter_km(poly)`. -/
def perimOf (inp : ComputeIn) : ℚ := inp.ws.perim_km (wsMetricCRS inp)

/-- Line 320: `longitud_cuenca = _pca_length(poly)` (NaN = `none`). -/
def basinLenOf (inp : ComputeIn) : Option ℚ := inp.ws.basinLen_km (wsMetricCRS inp)

/-- Line 321: the main-channel length from the stream network, `none` when no
stream layer was supplied or the network yields no graph. -/
def cpOf (inp : ComputeIn) : Option ℚ :=
  match inp.streams with
  | none => none
  | some s => _network_longest_path_km inp.U (some (s.rows (strMetricCRSval inp s)))

/-- Line 360: total stream length in km. -/
def totalCaucesOf (inp : ComputeIn) : Option ℚ :=
  inp.streams.map (fun s => s.totalLen_m (strMetricCRSval inp s) / 1000)

/-- Lines 328-331: drainage density, guarded by `area > 0`. -/
def densidadOf (inp : ComputeIn) : Option ℚ :=
  match inp.streams with
  | none => none
  | some s =>
    if 0 < areaOf inp then some (s.totalLen_m (strMetricCRSval inp s) / 1000 / areaOf inp)
    else none

/-- Lines 322-323: `longitud_cp_l = longitud_cp / TARGET_SINUOSITY` and
`sinuosidad = longitud_cp / longitud_cp_l`; the division raises
`ZeroDivisionError` when `longitud_cp_l` is (non-NaN) zero, i.e. when the
channel length is zero. -/
def sinRes (inp : ComputeIn) : Except PyErr (Option ℚ) :=
  match cpOf inp with
  | none => .ok none
  | some cp =>
    if cp / TARGET_SINUOSITY = 0 then .error .zeroDivision
    else .ok (some (cp / (cp / TARGET_SINUOSITY)))

/-- Lines 334-338: the slope ratio `delta_h / (longitud_cuenca * 1000)`,
computed only when both `delta_h` and `longitud_cuenca` are non-NaN; a zero
basin length raises `ZeroDivisionError`. -/
def slopeRes (inp : ComputeIn) : Except PyErr (Option ℚ) :=
  match inp.demStats, basinLenOf inp with
  | some (_, _, dh), some L =>
    if L * 1000 = 0 then .error .zeroDivision else .ok (some (dh / (L * 1000)))
  | _, _ => .ok none

/-- The result record built on lines 346-371, given the computed sinuosity
and slope ratio. -/
def mkResult (inp : ComputeIn) (sin? slopeRatio? : Option ℚ) : MorphoResult :=
  { area := pyRound 3 (areaOf inp),
    areaHa := pyRound 2 (areaOf inp * 100),
    perim := pyRound 3 (perimOf inp),
    clasifArea := _classify_cuenca (areaOf inp),
    longitudCuenca := (basinLenOf inp).map (pyRound 3),
    factorForma := (_shape_factor (areaOf inp) (basinLenOf inp)).map (pyRound 3),
    formaCuenca := _classify_forma_cuenca (_shape_factor (areaOf inp) (basinLenOf inp)),
    longitudCPL := (cpOf inp).map (fun v => pyRound 3 (v / TARGET_SINUOSITY)),
    longitudCP := (cpOf inp).map (pyRound 3),
    sinuosidad := sin?.map (pyRound 3),
    clasifSinuosidad := sin?.map _classify_sinuosity,
    totalCauces := (totalCaucesOf inp).map (pyRound 3),
    densidadDren := (densidadOf inp).map (pyRound 3),
    clasifDensidad := (densidadOf inp).map _classify_densidad,
    cotaMin := inp.demStats.map (fun t => pyRound 2 t.1),
    cotaMax := inp.demStats.map (fun t => pyRound 2 t.2.1),
    deltaH := inp.demStats.map (fun t => pyRound 2 t.2.2),
    numDren := inp.streams.map (fun s => s.count),
    slopeRatio := slopeRatio?,
    slopePct := slopeRatio?.map (fun r => pyRound 3 (r * 100)) }

/-- `compute` (morphometry.py lines 281-371).  The compactness division on
line 318 raises `ZeroDivisionError` when the (float) area is zero — that is
the first statement that can raise; the sinuosity division (line 323) comes
before the slope division (line 335). -/
def compute (inp : ComputeIn) : Except PyErr MorphoResult :=
  if areaOf inp = 0 then .error .zeroDivision
  else
    match sinRes inp with
    | .error e => .error e
    | .ok s? =>
      match slopeRes inp with
      | .error e => .error e
      | .ok r? => .ok (mkResult inp s? r?)

/-- The reported `"Pendiente media (°)"` value before rounding:
`np.degrees(np.arctan(ratio))` applied to the recorded slope ratio.  The
arctangent is transcendental, hence this accessor is stated over the reals. -/
noncomputable def slopeDegOf (r : MorphoResult) : Option ℝ :=
  r.slopeRatio.map (fun q => Real.arctan (q : ℝ) * (180 / Real.pi))

/-! ### Structural lemmas about `compute` -/

theorem compute_ok_elim {inp : ComputeIn} {r : MorphoResult}
    (hok : compute inp = .ok r) :
    areaOf inp ≠ 0 ∧ ∃ s? r?, sinRes inp = .ok s? ∧ slopeRes inp = .ok r? ∧
      r = mkResult inp s? r? := by
  unfold compute at hok
  by_cases ha : areaOf inp = 0
  · rw [if_pos ha] at hok
    cases hok
  · rw [if_neg ha] at hok
    cases hs : sinRes inp with
    | error e => rw [hs] at hok; cases hok
    | ok s? =>
      rw [hs] at hok
      cases hr : slopeRes inp with
      | error e => rw [hr] at hok; cases hok
      | ok r? =>
        rw [hr] at hok
        exact ⟨ha, s?, r?, rfl, rfl, (Except.ok.inj hok).symm⟩

theorem compute_error_at_zero_area {inp : ComputeIn} (ha : areaOf inp = 0) :
    compute inp = .error PyErr.zeroDivision := by
  unfold compute
  rw [if_pos ha]

theorem sinRes_ok_spec {inp : ComputeIn} {s? : Option ℚ}
    (h : sinRes inp = .ok s?) :
    (s? = none ∧ cpOf inp = none) ∨
    (∃ cp, cpOf inp = some cp ∧ cp ≠ 0 ∧ s? = some TARGET_SINUOSITY) := by
  unfold sinRes at h
  cases hc : cpOf inp with
  | none =>
    rw [hc] at h
    exact Or.inl ⟨(Except.ok.inj h).symm, rfl⟩
  | some cp =>
    rw [hc] at h
    have h' : (if cp / TARGET_SINUOSITY = 0 then (Except.error PyErr.zeroDivision : Except PyErr (Option ℚ))
        else .ok (some (cp / (cp / TARGET_SINUOSITY)))) = .ok s? := h
    by_cases hz : cp / TARGET_SINUOSITY = 0
    · rw [if_pos hz] at h'
      cases h'
    · rw [if_neg hz] at h'
      have hts : TARGET_SINUOSITY ≠ 0 := by norm_num [TARGET_SINUOSITY]
      have hcp : cp ≠ 0 := by
        intro hc0
        exact hz (by rw [hc0]; simp)
      have hval : cp / (cp / TARGET_SINUOSITY) = TARGET_SINUOSITY := by
        field_simp
      refine Or.inr ⟨cp, rfl, hcp, ?_⟩
      rw [← Except.ok.inj h', hval]

/-! ### Claim C9 -/

/-- Claim C9: whenever `compute` succeeds and reports a (non-NaN) sinuosity
factor, that factor is exactly the constant `TARGET_SINUOSITY = 1.03`
(because the straight-line length is defined as the channel length divided by
that same constant), and the sinuosity classification is `"Rectilíneo"`. -/
theorem C9_sinuosity_constant (inp : ComputeIn) (r : MorphoResult) (s : ℚ)
    (hok : compute inp = .ok r) (hs : r.sinuosidad = some s) :
    s = TARGET_SINUOSITY ∧ r.clasifSinuosidad = some "Rectilíneo" := by
  obtain ⟨ha, s?, r?, hsin, hslope, hr⟩ := compute_ok_elim hok
  subst hr
  rcases sinRes_ok_spec hsin with ⟨h1, _⟩ | ⟨cp, hcp, hcp0, h1⟩
  · rw [h1] at hs
    simp [mkResult] at hs
  · rw [h1] at hs ⊢
    simp only [mkResult, Option.map_some'] at hs ⊢
    have hround : pyRound 3 TARGET_SINUOSITY = TARGET_SINUOSITY := by
      norm_num [pyRound, roundHalfEven, TARGET_SINUOSITY]
    have hclass : _classify_sinuosity TARGET_SINUOSITY = "Rectilíneo" := by
      norm_num [_classify_sinuosity, TARGET_SINUOSITY]
    refine ⟨?_, by rw [hclass]⟩
    have := Option.some.inj hs
    rw [← this, hround]

/-- A concrete projected watershed (no reprojection) used by the C9 and C1
witnesses/counterexamples: constant area 50 km², perimeter 30 km, PCA basin
length 2 km. -/
def c9ws : WatershedIn :=
  ⟨some ⟨false, 32718⟩, 0, 0, fun _ => 50, fun _ => 30, fun _ => some 2⟩

/-- A concrete projected stream layer: one 5000 m straight segment. -/
def c9str : StreamsIn :=
  ⟨some ⟨false, 32718⟩, fun _ => [[(0, 0), (5000, 0)]], fun _ => 5000, 1⟩

/-- The concrete `compute` input for the C9/C1 evaluations: elevation range
100 m, one stream segment of length 5000 m noded to itself. -/
def c9In : ComputeIn :=
  ⟨c9ws, some c9str, some (100, 200, 100), fun _ => [⟨(0, 0), (5000, 0), 5000⟩]⟩

/-- The result `compute` produces on `c9In`, as a literal record. -/
def c9Res : MorphoResult :=
  ⟨50, 5000, 30, "Pequeña", some 2, some (25 / 2), some "Redonda", some (2427 / 500),
   some 5, some (103 / 100), some "Rectilíneo", some 5, some (1 / 10), some "Baja",
   some 100, some 200, some 100, some 1, some (1 / 20), some 5⟩

theorem c9_cp : cpOf c9In = some 5 := by
  norm_num [cpOf, c9In, c9str, c9ws, strMetricCRSval, wsCrs0, _ensure_gdf_crs,
    _network_longest_path_km, _explode_lines, dedupFirstAux, _node_streams,
    longestFromSegs, _build_graph, _cluster_endpoints, clusterStep, findCluster, updPt,
    lookupPt, _dijkstra, dijkstraLoop, popMinPQ, pqMin, pqLeB, relaxList, lookupA, updateA,
    adjOf, maxByVal, ENDPOINT_CLUSTER_TOL, List.erase, beq_iff_eq, Prod.mk.injEq, Prod.ext_iff]
  intro h
  exact absurd h (List.cons_ne_nil _ _)

theorem c9_basin : basinLenOf c9In = some 2 := by
  norm_num [basinLenOf, c9In, c9ws, wsMetricCRS, wsCrs0, _ensure_gdf_crs]

theorem c9_compute : compute c9In = .ok c9Res := by
  have hcp := c9_cp
  have harea : areaOf c9In = 50 := by
    norm_num [areaOf, c9In, c9ws, wsMetricCRS, wsCrs0, _ensure_gdf_crs]
  have hperim : perimOf c9In = 30 := by
    norm_num [perimOf, c9In, c9ws, wsMetricCRS, wsCrs0, _ensure_gdf_crs]
  have hbasin := c9_basin
  have htotc : totalCaucesOf c9In = some 5 := by
    norm_num [totalCaucesOf, c9In, c9str, c9ws, strMetricCRSval, wsCrs0, _ensure_gdf_crs]
  have hden : densidadOf c9In = some (1 / 10) := by
    norm_num [densidadOf, c9In, c9str, c9ws, strMetricCRSval, wsCrs0, _ensure_gdf_crs,
      areaOf, wsMetricCRS]
  have hdem : c9In.demStats = some (100, 200, 100) := rfl
  have hstrc : c9In.streams.map (fun s => s.count) = some 1 := rfl
  have hsin : sinRes c9In = .ok (some (103 / 100)) := by
    unfold sinRes
    rw [hcp]
    norm_num [TARGET_SINUOSITY]
  have hslope : slopeRes c9In = .ok (some (1 / 20)) := by
    unfold slopeRes
    norm_num [c9In, c9ws, basinLenOf, wsMetricCRS, wsCrs0, _ensure_gdf_crs]
  unfold compute
  rw [hsin, hslope, if_neg (by rw [harea]; norm_num)]
  simp only [mkResult, hcp, harea, hperim, hbasin, htotc, hden, hdem, hstrc]
  norm_num [c9Res, _classify_cuenca, _classify_sinuosity, _classify_densidad,
    _classify_forma_cuenca, _shape_factor, pyRound, roundHalfEven, TARGET_SINUOSITY,
    Int.even_iff]
  have hfr : Int.fract ((500000 : ℚ) / 103) < 1 / 2 := by
    have hf : Int.fract ((500000 : ℚ) / 103) = 500000 / 103 - 4854 := by
      rw [Int.fract]
      norm_num [Int.floor_eq_iff]
    rw [hf]
    norm_num
  rw [if_pos hfr]
  norm_num

/-- Witness for C9: the concrete input `c9In` (stream of length 5 km) passes
the hypotheses of the theorem, and the reported sinuosity is the constant. -/
theorem C9_sinuosity_constant_witness :
    (103 / 100 : ℚ) = TARGET_SINUOSITY ∧ c9Res.clasifSinuosidad = some "Rectilíneo" :=
  C9_sinuosity_constant c9In c9Res (103 / 100) c9_compute rfl

/-! ### Claim C3 -/

theorem cpOf_none {inp : ComputeIn} (h : inp.streams = none) : cpOf inp = none := by
  unfold cpOf
  rw [h]

theorem sinRes_of_cp_none {inp : ComputeIn} (h : cpOf inp = none) :
    sinRes inp = .ok none := by
  unfold sinRes
  rw [h]

theorem slopeRes_of_dem_none {inp : ComputeIn} (h : inp.demStats = none) :
    slopeRes inp = .ok none := by
  unfold slopeRes
  rw [h]

/-- Claim C3 counterexample: a zero-area watershed makes `compute` abort with
the `ZeroDivisionError` raised by the compactness division
`perim / (2 * (π * area) ** 0.5)`, instead of returning a partial result. -/
theorem C3_counterexample :
    compute ⟨⟨some ⟨false, 32718⟩, 0, 0, fun _ => 0, fun _ => 0, fun _ => none⟩,
        none, none, fun _ => []⟩
      = Except.error PyErr.zeroDivision := by
  apply compute_error_at_zero_area
  norm_num [areaOf, wsMetricCRS, wsCrs0, _ensure_gdf_crs]

/-- Claim C3 (amended): a missing stream network or a missing elevation
raster yields NaN in exactly the dependent fields while every independently
computable field is still populated, and `compute` does not abort in those
cases; a zero-area watershed, however, aborts the whole computation with a
`ZeroDivisionError` (the compactness index divides by `2·√(π·area)`). -/
theorem C3_partial_results_amended :
    (∀ inp : ComputeIn, areaOf inp = 0 → compute inp = .error PyErr.zeroDivision) ∧
    (∀ (inp : ComputeIn) (r : MorphoResult), compute inp = .ok r →
      (inp.streams = none →
        r.longitudCP = none ∧ r.longitudCPL = none ∧ r.sinuosidad = none ∧
        r.clasifSinuosidad = none ∧ r.totalCauces = none ∧ r.densidadDren = none ∧
        r.clasifDensidad = none ∧ r.numDren = none) ∧
      (inp.demStats = none →
        r.cotaMin = none ∧ r.cotaMax = none ∧ r.deltaH = none ∧
        r.slopeRatio = none ∧ r.slopePct = none) ∧
      (∀ mn mx dh, inp.demStats = some (mn, mx, dh) →
        r.cotaMin = some (pyRound 2 mn) ∧ r.cotaMax = some (pyRound 2 mx) ∧
        r.deltaH = some (pyRound 2 dh)) ∧
      (∀ L, basinLenOf inp = some L → r.longitudCuenca = some (pyRound 3 L)) ∧
      (∀ s, inp.streams = some s → r.numDren = some s.count ∧
        r.totalCauces = some (pyRound 3 (s.totalLen_m (strMetricCRSval inp s) / 1000))) ∧
      (∀ cp, cpOf inp = some cp → r.longitudCP = some (pyRound 3 cp)) ∧
      r.area = pyRound 3 (areaOf inp) ∧ r.perim = pyRound 3 (perimOf inp)) := by
  constructor
  · exact fun inp ha => compute_error_at_zero_area ha
  · intro inp r hok
    obtain ⟨ha, s?, r?, hsin, hslope, hr⟩ := compute_ok_elim hok
    subst hr
    refine ⟨?_, ?_, ?_, ?_, ?_, ?_, rfl, rfl⟩
    · intro hs
      have hcp := cpOf_none hs
      have hs? : s? = none := by
        have := (sinRes_of_cp_none hcp).symm.trans hsin
        exact (Except.ok.inj this).symm
      subst hs?
      simp [mkResult, hcp, hs, totalCaucesOf, densidadOf]
    · intro hd
      have hr? : r? = none := by
        have := (slopeRes_of_dem_none hd).symm.trans hslope
        exact (Except.ok.inj this).symm
      subst hr?
      simp [mkResult, hd]
    · intro mn mx dh hd
      simp [mkResult, hd]
    · intro L hb
      simp [mkResult, hb]
    · intro s hs
      simp [mkResult, hs, totalCaucesOf]
    · intro cp hcp
      simp [mkResult, hcp]

/-- The C3 witness input: streams absent, DEM present, positive area. -/
def c3bIn : ComputeIn := ⟨c9ws, none, some (100, 200, 100), fun _ => []⟩

/-- The result `compute` produces on `c3bIn`: all stream-dependent fields are
NaN, every other field populated. -/
def c3bRes : MorphoResult :=
  ⟨50, 5000, 30, "Pequeña", some 2, some (25 / 2), some "Redonda", none, none, none,
   none, none, none, none, some 100, some 200, some 100, none, some (1 / 20), some 5⟩

theorem c3b_compute : compute c3bIn = .ok c3bRes := by
  have hcp : cpOf c3bIn = none := cpOf_none rfl
  have hsin : sinRes c3bIn = .ok none := sinRes_of_cp_none hcp
  have harea : areaOf c3bIn = 50 := by
    norm_num [areaOf, c3bIn, c9ws, wsMetricCRS, wsCrs0, _ensure_gdf_crs]
  have hperim : perimOf c3bIn = 30 := by
    norm_num [perimOf, c3bIn, c9ws, wsMetricCRS, wsCrs0, _ensure_gdf_crs]
  have hbasin : basinLenOf c3bIn = some 2 := by
    norm_num [basinLenOf, c3bIn, c9ws, wsMetricCRS, wsCrs0, _ensure_gdf_crs]
  have hslope : slopeRes c3bIn = .ok (some (1 / 20)) := by
    unfold slopeRes
    norm_num [c3bIn, c9ws, basinLenOf, wsMetricCRS, wsCrs0, _ensure_gdf_crs]
  unfold compute
  rw [hsin, hslope, if_neg (by rw [harea]; norm_num)]
  simp only [mkResult, hcp, harea, hperim, hbasin]
  norm_num [c3bRes, c3bIn, totalCaucesOf, densidadOf, _classify_cuenca,
    _classify_forma_cuenca, _shape_factor, pyRound, roundHalfEven]

/-- Witness for the amended C3 theorem at the concrete input `c3bIn`
(streams absent, DEM present): the stream-dependent fields are NaN and the
elevation fields are populated. -/
theorem C3_partial_results_witness :
    (c3bRes.longitudCP = none ∧ c3bRes.longitudCPL = none ∧ c3bRes.sinuosidad = none ∧
     c3bRes.clasifSinuosidad = none ∧ c3bRes.totalCauces = none ∧
     c3bRes.densidadDren = none ∧ c3bRes.clasifDensidad = none ∧ c3bRes.numDren = none) ∧
    (c3bRes.cotaMin = some (pyRound 2 100) ∧ c3bRes.cotaMax = some (pyRound 2 200) ∧
     c3bRes.deltaH = some (pyRound 2 100)) :=
  ⟨(C3_partial_results_amended.2 c3bIn c3bRes c3b_compute).1 rfl,
   (C3_partial_results_amended.2 c3bIn c3bRes c3b_compute).2.2.1 100 200 100 rfl⟩

/-! ### Claim C2 -/

/-- A geographic stream layer whose total length is a degree figure (`1/20`)
in its own CRS and a metre figure (`5000`) in any projected CRS. -/
def c2str : StreamsIn :=
  ⟨some ⟨true, 4326⟩, fun _ => [], fun c => if c.isGeographic then 1 / 20 else 5000, 3⟩

/-- Projected watershed paired with the geographic stream layer `c2str`. -/
def c2In : ComputeIn := ⟨c9ws, some c2str, none, fun _ => []⟩

/-- The result of `compute` on `c2In`: the total stream length is computed
from the geographic (degree) figure. -/
def c2Res : MorphoResult :=
  ⟨50, 5000, 30, "Pequeña", some 2, some (25 / 2), some "Redonda", none, none, none,
   none, some 0, some 0, some "Baja", none, none, none, some 3, none, none⟩

theorem c2_compute : compute c2In = .ok c2Res := by
  have hcp : cpOf c2In = none := by
    norm_num [cpOf, c2In, c2str, _network_longest_path_km]
  have hsin : sinRes c2In = .ok none := sinRes_of_cp_none hcp
  have hslope : slopeRes c2In = .ok none := slopeRes_of_dem_none rfl
  have harea : areaOf c2In = 50 := by
    norm_num [areaOf, c2In, c9ws, wsMetricCRS, wsCrs0, _ensure_gdf_crs]
  have hperim : perimOf c2In = 30 := by
    norm_num [perimOf, c2In, c9ws, wsMetricCRS, wsCrs0, _ensure_gdf_crs]
  have hbasin : basinLenOf c2In = some 2 := by
    norm_num [basinLenOf, c2In, c9ws, wsMetricCRS, wsCrs0, _ensure_gdf_crs]
  have htotc : totalCaucesOf c2In = some (1 / 20000) := by
    norm_num [totalCaucesOf, c2In, c2str, c9ws, strMetricCRSval, wsCrs0, _ensure_gdf_crs]
  have hden : densidadOf c2In = some (1 / 1000000) := by
    norm_num [densidadOf, c2In, c2str, c9ws, strMetricCRSval, wsCrs0, _ensure_gdf_crs,
      areaOf, wsMetricCRS]
  have hdem : c2In.demStats = none := rfl
  have hstrc : c2In.streams.map (fun s => s.count) = some 3 := rfl
  unfold compute
  rw [hsin, hslope, if_neg (by rw [harea]; norm_num)]
  simp only [mkResult, hcp, harea, hperim, hbasin, htotc, hden, hdem, hstrc]
  norm_num [c2Res, c2In, _classify_cuenca, _classify_forma_cuenca, _classify_densidad,
    _shape_factor, pyRound, roundHalfEven]

/-- Claim C2 counterexample: with a projected watershed and a geographic
stream network, the stream network is never reprojected — its metrics are
evaluated in the geographic degree CRS, and the reported total stream length
is the degree-based figure rather than the metric one. -/
theorem C2_counterexample :
    (strMetricCRS c2In).map CRSModel.isGeographic = some true ∧
    (_ensure_gdf_crs c2str.crs).isGeographic = true ∧
    (wsCrs0 c2In).isGeographic = false ∧
    compute c2In = Except.ok c2Res ∧
    c2Res.totalCauces = some (pyRound 3 (c2str.totalLen_m ⟨true, 4326⟩ / 1000)) ∧
    c2Res.totalCauces ≠ some (pyRound 3 (c2str.totalLen_m (utmCRS c2In) / 1000)) := by
  refine ⟨rfl, rfl, rfl, c2_compute, ?_, ?_⟩
  · show some (0 : ℚ) = some (pyRound 3 ((1 / 20 : ℚ) / 1000))
    norm_num [pyRound, roundHalfEven]
  · show some (0 : ℚ) ≠ some (pyRound 3 ((5000 : ℚ) / 1000))
    norm_num [pyRound, roundHalfEven, utmCRS]

/-- Claim C2 (amended): the watershed is reprojected to the UTM zone derived
from its centroid longitude exactly when its (CRS-ensured) layer is
geographic; the stream network is reprojected to that UTM zone only when both
the watershed and the stream layers are geographic, and otherwise keeps its
own CRS; all reported polygon metrics are evaluated in the watershed's metric
CRS and all stream metrics in the stream layer's metric CRS. -/
theorem C2_reprojection_amended :
    ∀ inp : ComputeIn,
      ((wsCrs0 inp).isGeographic = true →
        wsMetricCRS inp = utmCRS inp ∧ (utmCRS inp).isGeographic = false ∧
        (utmCRS inp).epsg = _get_utm_epsg inp.ws.lon inp.ws.lat) ∧
      ((wsCrs0 inp).isGeographic = false → wsMetricCRS inp = wsCrs0 inp) ∧
      (∀ s, inp.streams = some s →
        (((wsCrs0 inp).isGeographic && (_ensure_gdf_crs s.crs).isGeographic) = true →
          strMetricCRSval inp s = utmCRS inp) ∧
        (((wsCrs0 inp).isGeographic && (_ensure_gdf_crs s.crs).isGeographic) = false →
          strMetricCRSval inp s = _ensure_gdf_crs s.crs)) ∧
      (∀ r, compute inp = .ok r →
        r.area = pyRound 3 (inp.ws.area_km2 (wsMetricCRS inp)) ∧
        r.perim = pyRound 3 (inp.ws.perim_km (wsMetricCRS inp)) ∧
        (∀ s, inp.streams = some s →
          r.totalCauces = some (pyRound 3 (s.totalLen_m (strMetricCRSval inp s) / 1000)))) := by
  intro inp
  refine ⟨?_, ?_, ?_, ?_⟩
  · intro hg
    exact ⟨by unfold wsMetricCRS; rw [hg]; simp, rfl, rfl⟩
  · intro hg
    unfold wsMetricCRS
    rw [hg]
    simp
  · intro s hs
    constructor
    · intro hb
      show (if ((wsCrs0 inp).isGeographic && (_ensure_gdf_crs s.crs).isGeographic) = true
          then utmCRS inp else _ensure_gdf_crs s.crs) = utmCRS inp
      rw [if_pos hb]
    · intro hb
      show (if ((wsCrs0 inp).isGeographic && (_ensure_gdf_crs s.crs).isGeographic) = true
          then utmCRS inp else _ensure_gdf_crs s.crs) = _ensure_gdf_crs s.crs
      rw [if_neg (by simp [hb])]
  · intro r hok
    obtain ⟨ha, s?, r?, hsin, hslope, hr⟩ := compute_ok_elim hok
    subst hr
    refine ⟨rfl, rfl, ?_⟩
    intro s hs
    simp [mkResult, totalCaucesOf, hs]

/-- A geographic watershed (missing CRS assumed WGS84) at centroid
(-74, 5). -/
def c2bIn : ComputeIn :=
  ⟨⟨none, -74, 5, fun _ => 50, fun _ => 30, fun _ => none⟩, none, none, fun _ => []⟩

/-- Witness for the amended C2 theorem: on the geographic watershed `c2bIn`
the metrics CRS is the UTM zone 18N CRS derived from the centroid. -/
theorem C2_reprojection_witness :
    wsMetricCRS c2bIn = utmCRS c2bIn ∧ (utmCRS c2bIn).isGeographic = false ∧
    (utmCRS c2bIn).epsg = _get_utm_epsg c2bIn.ws.lon c2bIn.ws.lat :=
  (C2_reprojection_amended c2bIn).1 rfl

/-! ### Claim C1 -/

/-- Claim C1 counterexample: on `c9In` the elevation difference is 100 m, the
main-channel length is 5 km, yet the reported average slope is 5 % — the
value computed from the 2 km PCA basin length — and not the 2 % that the
claim's formula (elevationDiff / mainChannelLength-in-metres · 100)
requires. -/
theorem C1_counterexample :
    compute c9In = Except.ok c9Res ∧ c9Res.deltaH = some 100 ∧
    c9Res.longitudCP = some 5 ∧ c9Res.slopePct = some 5 ∧
    pyRound 3 ((100 : ℚ) / (5 * 1000) * 100) = 2 ∧ (5 : ℚ) ≠ 2 := by
  refine ⟨c9_compute, rfl, rfl, rfl, ?_, by norm_num⟩
  norm_num [pyRound, roundHalfEven]

/-- Claim C1 (amended): when the elevation difference and the PCA basin
length are both defined, the reported average slope percentage is
`delta_h / (basinLength · 1000) · 100` — the *basin* (PCA) length, not the
main-channel length — and the reported slope in degrees is the arctangent of
that same ratio (converted to degrees). -/
theorem C1_slope_amended :
    ∀ (inp : ComputeIn) (r : MorphoResult) (mn mx dh L : ℚ),
      compute inp = .ok r → inp.demStats = some (mn, mx, dh) →
      basinLenOf inp = some L →
      r.slopeRatio = some (dh / (L * 1000)) ∧
      r.slopePct = some (pyRound 3 (dh / (L * 1000) * 100)) ∧
      slopeDegOf r = some (Real.arctan ((dh / (L * 1000) : ℚ) : ℝ) * (180 / Real.pi)) := by
  intro inp r mn mx dh L hok hd hb
  obtain ⟨ha, s?, r?, hsin, hslope, hr⟩ := compute_ok_elim hok
  subst hr
  have hsl : slopeRes inp = if L * 1000 = 0 then .error .zeroDivision
      else .ok (some (dh / (L * 1000))) := by
    unfold slopeRes
    rw [hd, hb]
  by_cases hz : L * 1000 = 0
  · rw [if_pos hz] at hsl
    rw [hsl] at hslope
    cases hslope
  · rw [if_neg hz] at hsl
    have hr? : r? = some (dh / (L * 1000)) := (Except.ok.inj (hsl.symm.trans hslope)).symm
    subst hr?
    exact ⟨by simp [mkResult], by simp [mkResult], by simp [slopeDegOf, mkResult]⟩

/-- Witness for the amended C1 theorem at the concrete input `c9In` (elevation
difference 100 m, basin length 2 km): the slope ratio is 100/2000 and the
percentage 5. -/
theorem C1_slope_witness :
    c9Res.slopeRatio = some ((100 : ℚ) / (2 * 1000)) ∧
    c9Res.slopePct = some (pyRound 3 ((100 : ℚ) / (2 * 1000) * 100)) ∧
    slopeDegOf c9Res
      = some (Real.arctan (((100 : ℚ) / (2 * 1000) : ℚ) : ℝ) * (180 / Real.pi)) :=
  C1_slope_amended c9In c9Res 100 200 100 2 c9_compute rfl c9_basin

/-! ### Claim C6 -/

theorem filter_eq_nil_of_forall {α : Type} (p : α → Bool) (l : List α)
    (h : ∀ a ∈ l, p a = false) : l.filter p = [] := by
  induction l with
  | nil => rfl
  | cons x xs ih =>
    rw [List.filter_cons, if_neg (by simp [h x (List.mem_cons_self x xs)])]
    exact ih (fun a ha => h a (List.mem_cons_of_mem _ ha))

theorem dedupFirstAux_subset : ∀ (seen : List RawGeom) (l : List RawGeom),
    dedupFirstAux seen l ⊆ l := by
  intro seen l
  induction l generalizing seen with
  | nil => simp [dedupFirstAux]
  | cons x xs ih =>
    simp only [dedupFirstAux]
    by_cases hx : x ∈ seen
    · rw [if_pos hx]
      exact (ih seen).trans (fun _ hy => List.mem_cons_of_mem x hy)
    · rw [if_neg hx]
      exact List.cons_subset_cons x (ih (x :: seen))

theorem explode_lines_all_empty {rows : List RawGeom} (h : ∀ g ∈ rows, g = []) :
    _explode_lines rows = [] := by
  unfold _explode_lines
  refine filter_eq_nil_of_forall _ _ ?_
  intro g hg
  have : g = [] := h g (dedupFirstAux_subset [] rows hg)
  subst this
  rfl

theorem node_streams_nonpos {U : List RawGeom → List Seg} {rows : List RawGeom}
    (h : ∀ s ∈ U rows, s.len ≤ 0) : _node_streams U rows = [] := by
  unfold _node_streams
  by_cases hr : rows = []
  · rw [if_pos hr]
  · rw [if_neg hr]
    refine filter_eq_nil_of_forall _ _ ?_
    intro s hs
    simpa using not_lt.mpr (h s hs)

theorem longestFromSegs_of_no_edges {segs : List Seg}
    (h : (_build_graph segs ENDPOINT_CLUSTER_TOL).1 = []) :
    longestFromSegs segs = none := by
  unfold longestFromSegs
  rw [if_pos h]

theorem net_some_eq (U : List RawGeom → List Seg) (rows : List RawGeom) :
    _network_longest_path_km U (some rows) =
      if rows = [] then none
      else if _explode_lines rows = [] then none
      else if _node_streams U (_explode_lines rows) = [] then none
      else longestFromSegs (_node_streams U (_explode_lines rows)) := rfl

/-- The endpoint list collected by `_build_graph` (morphometry.py line 109). -/
def endpointsOf (segs : List Seg) : List Pt :=
  segs.foldr (fun s acc => s.p1 :: s.p2 :: acc) []

/-- The clustered node index `_build_graph` assigns to an endpoint. -/
def nodeOf (segs : List Seg) (p : Pt) : ℕ :=
  (lookupPt (_cluster_endpoints (endpointsOf segs) ENDPOINT_CLUSTER_TOL).1 p).getD 0

theorem edges_foldr_nil (m : List (Pt × ℕ)) (segs : List Seg)
    (h : ∀ s ∈ segs, (lookupPt m s.p1).getD 0 = (lookupPt m s.p2).getD 0) :
    segs.foldr (fun s acc =>
      let n1 := (lookupPt m s.p1).getD 0
      let n2 := (lookupPt m s.p2).getD 0
      if n1 = n2 then acc else (n1, n2, s.len) :: (n2, n1, s.len) :: acc) [] = [] := by
  induction segs with
  | nil => rfl
  | cons s rest ih =>
    simp only [List.foldr_cons]
    rw [if_pos (h s (List.mem_cons_self _ _))]
    exact ih (fun t ht => h t (List.mem_cons_of_mem _ ht))

/-- Claim C6: `_network_longest_path_km` returns NaN (`none`) — and never
raises — when the stream layer is absent, the row list is empty, every row is
an empty geometry, the noded network has only non-positive-length pieces, or
the built graph has no edges; and the graph has no edges whenever the two
clustered endpoints of every segment coincide. -/
theorem C6_no_edges_nan :
    (∀ U, _network_longest_path_km U none = none) ∧
    (∀ U, _network_longest_path_km U (some []) = none) ∧
    (∀ U rows, (∀ g ∈ rows, g = []) → _network_longest_path_km U (some rows) = none) ∧
    (∀ U rows, (∀ s ∈ U (_explode_lines rows), s.len ≤ 0) →
      _network_longest_path_km U (some rows) = none) ∧
    (∀ U rows,
      (_build_graph (_node_streams U (_explode_lines rows)) ENDPOINT_CLUSTER_TOL).1 = [] →
      _network_longest_path_km U (some rows) = none) ∧
    (∀ segs : List Seg, (∀ s ∈ segs, nodeOf segs s.p1 = nodeOf segs s.p2) →
      (_build_graph segs ENDPOINT_CLUSTER_TOL).1 = []) := by
  refine ⟨fun U => rfl, fun U => rfl, ?_, ?_, ?_, ?_⟩
  · intro U rows h
    rw [net_some_eq]
    by_cases hr : rows = []
    · rw [if_pos hr]
    · rw [if_neg hr, if_pos (explode_lines_all_empty h)]
  · intro U rows h
    rw [net_some_eq]
    by_cases hr : rows = []
    · rw [if_pos hr]
    · rw [if_neg hr]
      by_cases hex : _explode_lines rows = []
      · rw [if_pos hex]
      · rw [if_neg hex, if_pos (node_streams_nonpos h)]
  · intro U rows h
    rw [net_some_eq]
    by_cases hr : rows = []
    · rw [if_pos hr]
    · rw [if_neg hr]
      by_cases hex : _explode_lines rows = []
      · rw [if_pos hex]
      · rw [if_neg hex]
        by_cases hns : _node_streams U (_explode_lines rows) = []
        · rw [if_pos hns]
        · rw [if_neg hns]
          exact longestFromSegs_of_no_edges h
  · intro segs h
    show segs.foldr (fun s acc =>
      let n1 := (lookupPt (_cluster_endpoints (endpointsOf segs)
        ENDPOINT_CLUSTER_TOL).1 s.p1).getD 0
      let n2 := (lookupPt (_cluster_endpoints (endpointsOf segs)
        ENDPOINT_CLUSTER_TOL).1 s.p2).getD 0
      if n1 = n2 then acc else (n1, n2, s.len) :: (n2, n1, s.len) :: acc) [] = []
    exact edges_foldr_nil _ segs (fun s hs => h s hs)

/-- Witness for C6: a row list holding one empty geometry yields NaN, and a
single segment whose endpoints (0,0) and (1,0) cluster together (tolerance
25 m) yields a graph with no edges. -/
theorem C6_no_edges_witness :
    _network_longest_path_km (fun _ => []) (some [[]]) = none ∧
    (_build_graph [Seg.mk (0, 0) (1, 0) 5] ENDPOINT_CLUSTER_TOL).1 = [] :=
  ⟨C6_no_edges_nan.2.2.1 (fun _ => []) [[]] (by intro g hg; simpa using hg),
   C6_no_edges_nan.2.2.2.2.2 [Seg.mk (0, 0) (1, 0) 5] (by
     intro s hs
     simp only [List.mem_singleton] at hs
     subst hs
     norm_num [nodeOf, endpointsOf, _cluster_endpoints, clusterStep, findCluster, updPt,
       lookupPt, ENDPOINT_CLUSTER_TOL])⟩

/-! ### C5 stage 1: walks, paths, reversal, extraction -/

/-- The successive target vertices of an edge list. -/
def targetsOf (es : List Edge) : List ℕ := es.map (fun e => e.2.1)

/-- The vertex sequence visited by an edge list started at `u`. -/
def walkSupport (u : ℕ) (es : List Edge) : List ℕ := u :: targetsOf es

/-- The final vertex reached from `u` along an edge list. -/
def endOf (u : ℕ) (es : List Edge) : ℕ := es.foldl (fun _ e => e.2.1) u

/-- `es` is a walk in `E` from `u` to `v`: consecutive edges of `E` chained
source-to-target. -/
def isWalk (E : List Edge) : ℕ → List Edge → ℕ → Bool
  | u, [], v => u == v
  | u, e :: es, v => decide (e ∈ E) && (e.1 == u) && isWalk E e.2.1 es v

/-- The total weight of an edge list. -/
def weightOf (es : List Edge) : ℚ := (es.map (fun e => e.2.2)).sum

/-- A walk is a (simple) path when it repeats no vertex. -/
def isPath (u : ℕ) (es : List Edge) : Prop := (walkSupport u es).Nodup

/-- The vertex list of the graph (each vertex is the source of some edge,
given symmetry). -/
def vertsOf (E : List Edge) : List ℕ := E.map (fun e => e.1)

/-- The edge list is symmetric. -/
def SymE (E : List Edge) : Prop := ∀ u v w, (u, v, w) ∈ E → (v, u, w) ∈ E

/-- All edge weights are positive. -/
def PosW (E : List Edge) : Prop := ∀ e ∈ E, (0 : ℚ) < e.2.2

/-- Any two vertices are joined by a walk. -/
def ConnectedE (E : List Edge) : Prop :=
  ∀ u ∈ vertsOf E, ∀ v ∈ vertsOf E, ∃ es, isWalk E u es v = true

/-- Between any two vertices there is at most one simple path. -/
def UniquePathE (E : List Edge) : Prop :=
  ∀ u v p q, isWalk E u p v = true → isPath u p →
    isWalk E u q v = true → isPath u q → p = q

/-- The tree hypotheses of claim C5: a non-empty symmetric positively
weighted connected network with unique simple paths. -/
def IsTreeNet (E : List Edge) : Prop :=
  E ≠ [] ∧ SymE E ∧ PosW E ∧ ConnectedE E ∧ UniquePathE E

theorem isWalk_nil_iff {E : List Edge} {u v : ℕ} :
    isWalk E u [] v = true ↔ u = v := by
  simp [isWalk]

theorem isWalk_cons_iff {E : List Edge} {u v : ℕ} {e : Edge} {es : List Edge} :
    isWalk E u (e :: es) v = true ↔
      e ∈ E ∧ e.1 = u ∧ isWalk E e.2.1 es v = true := by
  simp [isWalk, Bool.and_assoc, and_assoc]

theorem endOf_nil {u : ℕ} : endOf u [] = u := rfl

theorem endOf_cons {u : ℕ} {e : Edge} {es : List Edge} :
    endOf u (e :: es) = endOf e.2.1 es := rfl

theorem endOf_append {u : ℕ} {es₁ es₂ : List Edge} :
    endOf u (es₁ ++ es₂) = endOf (endOf u es₁) es₂ := by
  simp [endOf, List.foldl_append]

theorem isWalk_end {E : List Edge} :
    ∀ {es : List Edge} {u v : ℕ}, isWalk E u es v = true → v = endOf u es := by
  intro es
  induction es with
  | nil => intro u v h; exact ((isWalk_nil_iff.mp h)).symm
  | cons e es ih =>
    intro u v h
    obtain ⟨_, _, hw⟩ := isWalk_cons_iff.mp h
    rw [endOf_cons]
    exact ih hw

theorem isWalk_append_iff {E : List Edge} {es₁ es₂ : List Edge} {u v : ℕ} :
    isWalk E u (es₁ ++ es₂) v = true ↔
      isWalk E u es₁ (endOf u es₁) = true ∧
      isWalk E (endOf u es₁) es₂ v = true := by
  induction es₁ generalizing u with
  | nil => simp [isWalk_nil_iff, endOf_nil]
  | cons e es ih =>
    simp only [List.cons_append, isWalk_cons_iff, endOf_cons, ih, and_assoc]

theorem weight_append {es₁ es₂ : List Edge} :
    weightOf (es₁ ++ es₂) = weightOf es₁ + weightOf es₂ := by
  simp [weightOf]

theorem weight_nil : weightOf [] = 0 := rfl

theorem walk_edges_mem {E : List Edge} :
    ∀ {es : List Edge} {u v : ℕ}, isWalk E u es v = true → ∀ e ∈ es, e ∈ E := by
  intro es
  induction es with
  | nil => intro u v _ e he; cases he
  | cons f es ih =>
    intro u v h e he
    obtain ⟨hf, _, hw⟩ := isWalk_cons_iff.mp h
    rcases List.mem_cons.mp he with he | he
    · subst he; exact hf
    · exact ih hw e he

theorem weight_nonneg_of_mem {E : List Edge} (hP : PosW E) :
    ∀ {es : List Edge}, (∀ e ∈ es, e ∈ E) → 0 ≤ weightOf es := by
  intro es
  induction es with
  | nil => intro _; exact le_refl 0
  | cons e es ih =>
    intro h
    have h1 : (0 : ℚ) < e.2.2 := hP e (h e (List.mem_cons_self _ _))
    have h2 := ih (fun f hf => h f (List.mem_cons_of_mem _ hf))
    show 0 ≤ weightOf (e :: es)
    have : weightOf (e :: es) = e.2.2 + weightOf es := by simp [weightOf]
    rw [this]
    linarith

theorem weight_nonneg_of_walk {E : List Edge} (hP : PosW E) {es : List Edge}
    {u v : ℕ} (h : isWalk E u es v = true) : 0 ≤ weightOf es :=
  weight_nonneg_of_mem hP (walk_edges_mem h)

theorem targetsOf_append {es₁ es₂ : List Edge} :
    targetsOf (es₁ ++ es₂) = targetsOf es₁ ++ targetsOf es₂ := by
  simp [targetsOf]

theorem walkSupport_append {u : ℕ} {es₁ es₂ : List Edge} :
    walkSupport u (es₁ ++ es₂) = walkSupport u es₁ ++ targetsOf es₂ := by
  simp [walkSupport, targetsOf]

theorem walkSupport_cons {u : ℕ} {e : Edge} {es : List Edge} :
    walkSupport u (e :: es) = u :: walkSupport e.2.1 es := by
  simp [walkSupport, targetsOf]

/-- Position of the prefix end in the support: if the support splits as
`l₁ ++ x :: M`, then the walk prefix of length `l₁.length` ends at `x`. -/
theorem endOf_take_of_support_split {x : ℕ} :
    ∀ {l₁ M : List ℕ} {u : ℕ} {es : List Edge},
      walkSupport u es = l₁ ++ x :: M → endOf u (es.take l₁.length) = x := by
  intro l₁
  induction l₁ with
  | nil =>
    intro M u es h
    simp only [List.nil_append] at h
    have hu : u = x := by
      have hcong := congrArg (fun l => l.headD 0) h
      simpa [walkSupport] using hcong
    show endOf u (es.take 0) = x
    rw [List.take_zero]
    exact hu
  | cons a l₁ ih =>
    intro M u es h
    cases es with
    | nil =>
      exfalso
      have hlen := congrArg List.length h
      simp [walkSupport, targetsOf] at hlen
    | cons e es =>
      rw [walkSupport_cons] at h
      simp only [List.cons_append] at h
      have h' : walkSupport e.2.1 es = l₁ ++ x :: M := (List.cons.inj h).2
      show endOf u (e :: es.take l₁.length) = x
      rw [endOf_cons]
      exact ih h'

/-- A list that is not `Nodup` splits around a duplicated element. -/
theorem not_nodup_split {α : Type} [DecidableEq α] :
    ∀ {l : List α}, ¬ l.Nodup → ∃ (x : α) (l₁ l₂ l₃ : List α),
      l = l₁ ++ x :: l₂ ++ x :: l₃ := by
  intro l
  induction l with
  | nil => intro h; exact absurd List.nodup_nil h
  | cons a t ih =>
    intro h
    by_cases ha : a ∈ t
    · obtain ⟨s, t', hst⟩ := List.append_of_mem ha
      exact ⟨a, [], s, t', by rw [hst]; rfl⟩
    · have : ¬ t.Nodup := by
        intro hn
        exact h (List.nodup_cons.mpr ⟨ha, hn⟩)
      obtain ⟨x, l₁, l₂, l₃, hl⟩ := ih this
      exact ⟨x, a :: l₁, l₂, l₃, by rw [hl]; rfl⟩

/-- Auxiliary: walk-to-path extraction with an explicit length bound. -/
theorem exists_path_of_walk_aux {E : List Edge} (hP : PosW E) :
    ∀ (n : ℕ) {es : List Edge}, es.length ≤ n → ∀ {u v : ℕ},
      isWalk E u es v = true →
      ∃ ps, isWalk E u ps v = true ∧ isPath u ps ∧ weightOf ps ≤ weightOf es := by
  intro n
  induction n with
  | zero =>
    intro es hle u v hw
    have : es = [] := List.length_eq_zero.mp (Nat.le_zero.mp hle)
    subst this
    exact ⟨[], hw, by simp [isPath, walkSupport, targetsOf], le_refl _⟩
  | succ n ih =>
  intro es hle u v hw
  by_cases hnd : (walkSupport u es).Nodup
  · exact ⟨es, hw, hnd, le_refl _⟩
  · obtain ⟨x, l₁, l₂, l₃, hl⟩ := not_nodup_split hnd
    have hl1 : walkSupport u es = l₁ ++ x :: (l₂ ++ x :: l₃) := by
      rw [hl]; simp
    have hi : endOf u (es.take l₁.length) = x := endOf_take_of_support_split hl1
    have hl2 : walkSupport u es = (l₁ ++ x :: l₂) ++ x :: l₃ := by
      rw [hl]
    have hj' : endOf u (es.take (l₁ ++ x :: l₂).length) = x :=
      endOf_take_of_support_split hl2
    have hj : endOf u (es.take (l₁.length + l₂.length + 1)) = x := by
      have hlq : (l₁ ++ x :: l₂).length = l₁.length + l₂.length + 1 := by
        simp
        omega
      rwa [hlq] at hj'
    set i := l₁.length with hidef
    set j := l₁.length + l₂.length + 1 with hjdef
    have hlen : (walkSupport u es).length = es.length + 1 := by
      simp [walkSupport, targetsOf]
    have hjle : j ≤ es.length := by
      have hll := congrArg List.length hl
      simp [walkSupport, targetsOf] at hll
      omega
    -- split the walk at j
    have hsplit : es = es.take j ++ es.drop j := (List.take_append_drop j es).symm
    have hw' : isWalk E u (es.take j ++ es.drop j) v = true := by rw [← hsplit]; exact hw
    obtain ⟨hw1, hw2⟩ := isWalk_append_iff.mp hw'
    rw [hj] at hw2
    -- prefix of length i
    have hsplit2 : es.take j = es.take i ++ ((es.drop i).take (j - i)) := by
      conv_lhs => rw [show j = i + (j - i) by omega]
      rw [List.take_add]
    have hw1' : isWalk E u (es.take i ++ (es.drop i).take (j - i)) (endOf u (es.take j)) = true := by
      rw [← hsplit2]; exact hw1
    obtain ⟨hw3, hw4⟩ := isWalk_append_iff.mp hw1'
    have hnew : isWalk E u (es.take i ++ es.drop j) v = true := by
      rw [isWalk_append_iff]
      refine ⟨hw3, ?_⟩
      rw [hi]
      exact hw2
    have hlt : (es.take i ++ es.drop j).length ≤ n := by
      rw [List.length_append, List.length_take, List.length_drop]
      omega
    obtain ⟨ps, hpw, hpp, hple⟩ := ih hlt hnew
    refine ⟨ps, hpw, hpp, le_trans hple ?_⟩
    -- weight comparison
    have hmid : 0 ≤ weightOf ((es.drop i).take (j - i)) := by
      refine weight_nonneg_of_mem hP ?_
      intro e he
      refine walk_edges_mem hw e ?_
      exact List.drop_subset _ _ (List.take_subset _ _ he)
    have heq : weightOf es = weightOf (es.take i) + weightOf ((es.drop i).take (j - i))
        + weightOf (es.drop j) := by
      conv_lhs => rw [hsplit, hsplit2]
      rw [weight_append, weight_append]
    rw [weight_append, heq]
    linarith

/-- Every walk contains a simple path between the same endpoints of no
greater weight (weights positive). -/
theorem exists_path_of_walk {E : List Edge} (hP : PosW E) {es : List Edge}
    {u v : ℕ} (hw : isWalk E u es v = true) :
    ∃ ps, isWalk E u ps v = true ∧ isPath u ps ∧ weightOf ps ≤ weightOf es :=
  exists_path_of_walk_aux hP es.length (le_refl _) hw

/-- An edge reversed. -/
def flipE (e : Edge) : Edge := (e.2.1, e.1, e.2.2)

/-- A walk reversed: flip each edge and reverse the order. -/
def revWalk (es : List Edge) : List Edge := (es.map flipE).reverse

theorem weight_revWalk {es : List Edge} : weightOf (revWalk es) = weightOf es := by
  unfold weightOf revWalk
  rw [List.map_reverse, List.sum_reverse, List.map_map]
  rfl

theorem isWalk_revWalk {E : List Edge} (hS : SymE E) :
    ∀ {es : List Edge} {u v : ℕ}, isWalk E u es v = true →
      isWalk E v (revWalk es) u = true := by
  intro es
  induction es with
  | nil =>
    intro u v h
    rw [isWalk_nil_iff] at h
    subst h
    simp [revWalk, isWalk_nil_iff]
  | cons e es ih =>
    intro u v h
    obtain ⟨he, heu, hw⟩ := isWalk_cons_iff.mp h
    have hrev : isWalk E v (revWalk es) e.2.1 = true := ih hw
    have hrw : revWalk (e :: es) = (es.map flipE).reverse ++ [flipE e] := by
      simp [revWalk]
    rw [hrw, isWalk_append_iff]
    have hend : endOf v ((es.map flipE).reverse) = e.2.1 := (isWalk_end hrev).symm
    refine ⟨by rw [hend]; exact hrev, ?_⟩
    rw [hend]
    rw [isWalk_cons_iff]
    refine ⟨?_, rfl, by rw [isWalk_nil_iff]; exact heu⟩
    have : e = (e.1, e.2.1, e.2.2) := rfl
    rw [this] at he
    exact hS e.1 e.2.1 e.2.2 he

theorem walkSupport_revWalk {E : List Edge} :
    ∀ {es : List Edge} {u v : ℕ}, isWalk E u es v = true →
      walkSupport v (revWalk es) = (walkSupport u es).reverse := by
  intro es
  induction es with
  | nil =>
    intro u v h
    rw [isWalk_nil_iff] at h
    subst h
    simp [revWalk, walkSupport, targetsOf]
  | cons e es ih =>
    intro u v h
    obtain ⟨he, heu, hw⟩ := isWalk_cons_iff.mp h
    have hrec := ih hw
    have hrw : revWalk (e :: es) = (es.map flipE).reverse ++ [flipE e] := by
      simp [revWalk]
    rw [hrw, walkSupport_append]
    have hrec' : walkSupport v ((es.map flipE).reverse) = (walkSupport e.2.1 es).reverse := hrec
    rw [hrec']
    have h1 : targetsOf [flipE e] = [e.1] := rfl
    rw [h1, walkSupport_cons, heu]
    simp [walkSupport]

theorem isPath_revWalk {E : List Edge} {es : List Edge} {u v : ℕ}
    (hw : isWalk E u es v = true) (hp : isPath u es) : isPath v (revWalk es) := by
  unfold isPath
  rw [walkSupport_revWalk hw]
  exact List.nodup_reverse.mpr hp

/-- Every vertex on a walk starting at a vertex is a vertex. -/
theorem walk_support_verts {E : List Edge} (hS : SymE E) :
    ∀ {es : List Edge} {u v : ℕ}, isWalk E u es v = true → u ∈ vertsOf E →
      ∀ x ∈ walkSupport u es, x ∈ vertsOf E := by
  intro es
  induction es with
  | nil =>
    intro u v h hu x hx
    simp [walkSupport, targetsOf] at hx
    subst hx
    exact hu
  | cons e es ih =>
    intro u v h hu x hx
    obtain ⟨he, heu, hw⟩ := isWalk_cons_iff.mp h
    rw [walkSupport_cons] at hx
    rcases List.mem_cons.mp hx with hx | hx
    · subst hx; exact hu
    · refine ih hw ?_ x hx
      have : e = (e.1, e.2.1, e.2.2) := rfl
      rw [this] at he
      have hrev := hS e.1 e.2.1 e.2.2 he
      exact List.mem_map.mpr ⟨(e.2.1, e.1, e.2.2), hrev, rfl⟩

/-- The end of a walk from a vertex is a vertex. -/
theorem walk_end_verts {E : List Edge} (hS : SymE E) {es : List Edge} {u v : ℕ}
    (h : isWalk E u es v = true) (hu : u ∈ vertsOf E) : v ∈ vertsOf E := by
  refine walk_support_verts hS h hu v ?_
  have := isWalk_end h
  subst this
  cases es with
  | nil => simp [walkSupport, targetsOf, endOf]
  | cons e es =>
    rw [walkSupport_cons, endOf_cons]
    refine List.mem_cons_of_mem _ ?_
    clear h hu hS
    induction es generalizing e with
    | nil => simp [walkSupport, targetsOf, endOf]
    | cons f es ih =>
      rw [walkSupport_cons, endOf_cons]
      exact List.mem_cons_of_mem _ (ih f)

/-! ### C5 stage 2: dictionary, heap and argmax lemmas -/

theorem lookupA_eq_none_iff {dist : List (ℕ × ℚ)} {k : ℕ} :
    lookupA dist k = none ↔ ∀ e ∈ dist, e.1 ≠ k := by
  induction dist with
  | nil => simp [lookupA]
  | cons e rest ih =>
    by_cases he : e.1 = k
    · simp [lookupA, he]
    · simp [lookupA, he, ih]

theorem lookupA_some_mem {dist : List (ℕ × ℚ)} {k : ℕ} {v : ℚ} :
    lookupA dist k = some v → (k, v) ∈ dist := by
  induction dist with
  | nil => intro h; cases h
  | cons e rest ih =>
    intro h
    by_cases he : e.1 = k
    · rw [lookupA, if_pos he] at h
      have hv : e.2 = v := Option.some.inj h
      have : e = (k, v) := by
        obtain ⟨a, b⟩ := e
        simp only at he hv
        rw [he, hv]
      rw [← this]
      exact List.mem_cons_self _ _
    · rw [lookupA, if_neg he] at h
      exact List.mem_cons_of_mem _ (ih h)

theorem lookupA_isSome_of_mem {dist : List (ℕ × ℚ)} {k : ℕ} {v : ℚ}
    (h : (k, v) ∈ dist) : (lookupA dist k).isSome := by
  induction dist with
  | nil => cases h
  | cons e rest ih =>
    by_cases he : e.1 = k
    · rw [lookupA, if_pos he]; rfl
    · rw [lookupA, if_neg he]
      rcases List.mem_cons.mp h with h | h
      · exact absurd (congrArg Prod.fst h.symm) he
      · exact ih h

theorem lookupA_of_mem_nodup {dist : List (ℕ × ℚ)}
    (hnd : (dist.map Prod.fst).Nodup) {k : ℕ} {v : ℚ} (h : (k, v) ∈ dist) :
    lookupA dist k = some v := by
  induction dist with
  | nil => cases h
  | cons e rest ih =>
    rw [List.map_cons, List.nodup_cons] at hnd
    rcases List.mem_cons.mp h with h | h
    · rw [← h]
      rw [lookupA, if_pos rfl]
    · have hne : e.1 ≠ k := by
        intro hek
        exact hnd.1 (hek ▸ List.mem_map.mpr ⟨(k, v), h, rfl⟩)
      rw [lookupA, if_neg hne]
      exact ih hnd.2 h

theorem lookupA_updateA_self {dist : List (ℕ × ℚ)} {k : ℕ} {v : ℚ} :
    lookupA (updateA dist k v) k = some v := by
  unfold updateA
  by_cases hs : (lookupA dist k).isSome
  · rw [if_pos hs]
    induction dist with
    | nil => simp [lookupA] at hs
    | cons e rest ih =>
      by_cases he : e.1 = k
      · simp only [List.map_cons, if_pos he]
        rw [lookupA, if_pos rfl]
      · rw [lookupA, if_neg he] at hs
        simp only [List.map_cons, if_neg he]
        rw [lookupA, if_neg he]
        exact ih hs
  · rw [if_neg hs]
    have hnone : lookupA dist k = none := by
      cases hl : lookupA dist k
      · rfl
      · rw [hl] at hs; simp at hs
    induction dist with
    | nil => rw [List.nil_append, lookupA, if_pos rfl]
    | cons e rest ih =>
      have hne : e.1 ≠ k := (lookupA_eq_none_iff.mp hnone) e (List.mem_cons_self _ _)
      rw [List.cons_append, lookupA, if_neg hne]
      refine ih ?_ ?_
      · rw [lookupA, if_neg hne] at hs
        exact hs
      · rw [lookupA, if_neg hne] at hnone
        exact hnone

theorem lookupA_append_single_ne {l : List (ℕ × ℚ)} {k k' : ℕ} {v : ℚ}
    (h : k' ≠ k) : lookupA (l ++ [(k, v)]) k' = lookupA l k' := by
  induction l with
  | nil =>
    have h1 : ¬ ((k, v) : ℕ × ℚ).1 = k' := fun hh => h hh.symm
    show lookupA [(k, v)] k' = none
    rw [lookupA, if_neg h1]
    rfl
  | cons e rest ih =>
    rw [List.cons_append, lookupA, lookupA]
    by_cases he : e.1 = k'
    · rw [if_pos he, if_pos he]
    · rw [if_neg he, if_neg he]
      exact ih

theorem lookupA_updateA_ne {dist : List (ℕ × ℚ)} {k k' : ℕ} {v : ℚ}
    (h : k' ≠ k) : lookupA (updateA dist k v) k' = lookupA dist k' := by
  unfold updateA
  by_cases hs : (lookupA dist k).isSome
  · rw [if_pos hs]
    clear hs
    induction dist with
    | nil => rfl
    | cons e rest ih =>
      rw [List.map_cons]
      by_cases hek : e.1 = k
      · have h1 : ¬ (if e.1 = k then ((k, v) : ℕ × ℚ) else e).1 = k' := by
          rw [if_pos hek]
          exact fun hh => h hh.symm
        have h2 : ¬ e.1 = k' := by
          rw [hek]
          exact fun hh => h hh.symm
        rw [lookupA, if_neg h1, lookupA, if_neg h2]
        exact ih
      · have heq : (if e.1 = k then ((k, v) : ℕ × ℚ) else e) = e := if_neg hek
        rw [heq, lookupA, lookupA]
        by_cases he' : e.1 = k'
        · rw [if_pos he', if_pos he']
        · rw [if_neg he', if_neg he']
          exact ih
  · rw [if_neg hs]
    exact lookupA_append_single_ne h

theorem keys_map_update (k : ℕ) (v : ℚ) : ∀ (l : List (ℕ × ℚ)),
    (l.map (fun e => if e.1 = k then (k, v) else e)).map Prod.fst = l.map Prod.fst := by
  intro l
  induction l with
  | nil => rfl
  | cons e rest ih =>
    simp only [List.map_cons]
    by_cases he : e.1 = k
    · rw [if_pos he, ih]
      show k :: _ = e.1 :: _
      rw [he]
    · rw [if_neg he, ih]

theorem keys_updateA_some {dist : List (ℕ × ℚ)} {k : ℕ} {v : ℚ}
    (hs : (lookupA dist k).isSome) :
    (updateA dist k v).map Prod.fst = dist.map Prod.fst := by
  unfold updateA
  rw [if_pos hs]
  exact keys_map_update k v dist

theorem keys_updateA_none {dist : List (ℕ × ℚ)} {k : ℕ} {v : ℚ}
    (hn : lookupA dist k = none) :
    (updateA dist k v).map Prod.fst = dist.map Prod.fst ++ [k] := by
  unfold updateA
  rw [if_neg (by rw [hn]; simp)]
  simp

theorem keys_nodup_updateA {dist : List (ℕ × ℚ)} {k : ℕ} {v : ℚ}
    (hnd : (dist.map Prod.fst).Nodup) :
    ((updateA dist k v).map Prod.fst).Nodup := by
  by_cases hs : (lookupA dist k).isSome
  · rw [keys_updateA_some hs]
    exact hnd
  · have hnone : lookupA dist k = none := Option.not_isSome_iff_eq_none.mp hs
    rw [keys_updateA_none hnone, List.nodup_append]
    refine ⟨hnd, List.nodup_singleton k, ?_⟩
    intro a ha hb
    simp only [List.mem_singleton] at hb
    subst hb
    obtain ⟨e, he, hek⟩ := List.mem_map.mp ha
    exact (lookupA_eq_none_iff.mp hnone) e he hek

theorem pqLeB_fst {a b : ℚ × ℕ} (h : pqLeB a b = true) : a.1 ≤ b.1 := by
  unfold pqLeB at h
  rcases Bool.or_eq_true_iff.mp h with h | h
  · exact le_of_lt (of_decide_eq_true h)
  · rcases Bool.and_eq_true_iff.mp h with ⟨h1, _⟩
    exact le_of_eq (of_decide_eq_true h1)

theorem pqLeB_false_fst {a b : ℚ × ℕ} (h : pqLeB a b = false) : b.1 ≤ a.1 := by
  unfold pqLeB at h
  rcases Bool.or_eq_false_iff.mp h with ⟨h1, _⟩
  exact le_of_not_lt (of_decide_eq_false h1)

theorem foldl_pqmin_mem : ∀ (rest : List (ℚ × ℕ)) (e : ℚ × ℕ),
    (rest.foldl (fun best x => if pqLeB x best then x else best) e) ∈ e :: rest := by
  intro rest
  induction rest with
  | nil => intro e; exact List.mem_cons_self _ _
  | cons y rest ih =>
    intro e
    rw [List.foldl_cons]
    by_cases hy : pqLeB y e = true
    · rw [if_pos hy]
      rcases List.mem_cons.mp (ih y) with h | h
      · rw [h]; exact List.mem_cons_of_mem _ (List.mem_cons_self _ _)
      · exact List.mem_cons_of_mem _ (List.mem_cons_of_mem _ h)
    · rw [if_neg hy]
      rcases List.mem_cons.mp (ih e) with h | h
      · rw [h]; exact List.mem_cons_self _ _
      · exact List.mem_cons_of_mem _ (List.mem_cons_of_mem _ h)

theorem foldl_pqmin_le : ∀ (rest : List (ℚ × ℕ)) (e : ℚ × ℕ),
    ∀ x ∈ e :: rest,
      (rest.foldl (fun best x => if pqLeB x best then x else best) e).1 ≤ x.1 := by
  intro rest
  induction rest with
  | nil =>
    intro e x hx
    rcases List.mem_cons.mp hx with h | h
    · rw [h]
      exact le_refl _
    · cases h
  | cons y rest ih =>
    intro e x hx
    rw [List.foldl_cons]
    have hstep : (if pqLeB y e = true then y else e).1 ≤ e.1 ∧
        (if pqLeB y e = true then y else e).1 ≤ y.1 := by
      by_cases hy : pqLeB y e = true
      · rw [if_pos hy]
        exact ⟨pqLeB_fst hy, le_refl _⟩
      · rw [if_neg hy]
        exact ⟨le_refl _, pqLeB_false_fst (Bool.eq_false_iff.mpr hy)⟩
    rcases List.mem_cons.mp hx with h | h
    · rw [h]
      calc _ ≤ (if pqLeB y e = true then y else e).1 :=
            ih _ _ (List.mem_cons_self _ _)
        _ ≤ e.1 := hstep.1
    · rcases List.mem_cons.mp h with h' | h'
      · rw [h']
        calc _ ≤ (if pqLeB y e = true then y else e).1 :=
              ih _ _ (List.mem_cons_self _ _)
          _ ≤ y.1 := hstep.2
      · exact ih _ _ (List.mem_cons_of_mem _ h')

theorem pqMin_mem {pq : List (ℚ × ℕ)} {m : ℚ × ℕ} (h : pqMin pq = some m) :
    m ∈ pq := by
  cases pq with
  | nil => cases h
  | cons e rest =>
    rw [pqMin] at h
    rw [← Option.some.inj h]
    exact foldl_pqmin_mem rest e

theorem pqMin_le {pq : List (ℚ × ℕ)} {m : ℚ × ℕ} (h : pqMin pq = some m) :
    ∀ x ∈ pq, m.1 ≤ x.1 := by
  cases pq with
  | nil => cases h
  | cons e rest =>
    rw [pqMin] at h
    rw [← Option.some.inj h]
    exact foldl_pqmin_le rest e

theorem pqMin_none_iff {pq : List (ℚ × ℕ)} : pqMin pq = none ↔ pq = [] := by
  cases pq with
  | nil => simp [pqMin]
  | cons e rest => simp [pqMin]

theorem maxByVal_spec {dist : List (ℕ × ℚ)} (h : dist ≠ []) :
    ∃ dm, (maxByVal dist, dm) ∈ dist ∧ ∀ kv ∈ dist, kv.2 ≤ dm := by
  cases dist with
  | nil => exact absurd rfl h
  | cons e rest =>
    rw [maxByVal]
    clear h
    refine ⟨(rest.foldl (fun best x => if best.2 < x.2 then x else best) e).2, ?_, ?_⟩
    · induction rest generalizing e with
      | nil => exact List.mem_cons_self _ _
      | cons y rest ih =>
        rw [List.foldl_cons]
        by_cases hy : e.2 < y.2
        · rw [if_pos hy]
          rcases List.mem_cons.mp (ih y) with hh | hh
          · rw [hh]
            exact List.mem_cons_of_mem _ (List.mem_cons_self _ _)
          · exact List.mem_cons_of_mem _ (List.mem_cons_of_mem _ hh)
        · rw [if_neg hy]
          rcases List.mem_cons.mp (ih e) with hh | hh
          · rw [hh]
            exact List.mem_cons_self _ _
          · exact List.mem_cons_of_mem _ (List.mem_cons_of_mem _ hh)
    · induction rest generalizing e with
      | nil =>
        intro kv hkv
        rcases List.mem_cons.mp hkv with hh | hh
        · rw [hh]
          exact le_refl _
        · cases hh
      | cons y rest ih =>
        intro kv hkv
        rw [List.foldl_cons]
        have hstep : e.2 ≤ (if e.2 < y.2 then y else e).2 ∧
            y.2 ≤ (if e.2 < y.2 then y else e).2 := by
          by_cases hy : e.2 < y.2
          · rw [if_pos hy]
            exact ⟨le_of_lt hy, le_refl _⟩
          · rw [if_neg hy]
            exact ⟨le_refl _, le_of_not_lt hy⟩
        rcases List.mem_cons.mp hkv with hh | hh
        · rw [hh]
          calc e.2 ≤ (if e.2 < y.2 then y else e).2 := hstep.1
            _ ≤ _ := ih _ _ (List.mem_cons_self _ _)
        · rcases List.mem_cons.mp hh with hh' | hh'
          · rw [hh']
            calc y.2 ≤ (if e.2 < y.2 then y else e).2 := hstep.2
              _ ≤ _ := ih _ _ (List.mem_cons_self _ _)
          · exact ih _ _ (List.mem_cons_of_mem _ hh')

/-! ### C5 stage 2b: the Dijkstra loop invariant -/

/-- The invariant holding while the popped entry `(d, u)` is being relaxed:
`P` is the set of settled nodes, `d` the current lower bound of the heap. -/
structure RState (E : List Edge) (s u : ℕ) (d : ℚ) (P : List ℕ)
    (pq : List (ℚ × ℕ)) (dist : List (ℕ × ℚ)) : Prop where
  sound : ∀ x dx, lookupA dist x = some dx →
    ∃ es, isWalk E s es x = true ∧ weightOf es = dx
  pq_sound : ∀ b x, (b, x) ∈ pq →
    ∃ es, isWalk E s es x = true ∧ weightOf es = b
  pq_lb : ∀ b x, (b, x) ∈ pq → d ≤ b
  pq_dist : ∀ b x, (b, x) ∈ pq → ∃ dx, lookupA dist x = some dx ∧ dx ≤ b
  pq_nodup : pq.Nodup
  keys_nodup : (dist.map Prod.fst).Nodup
  s_mem : ∃ d0, lookupA dist s = some d0 ∧ d0 ≤ 0
  proc : ∀ p ∈ P, ∃ dp, lookupA dist p = some dp ∧ dp ≤ d ∧
    (∀ b, (b, p) ∈ pq → dp < b) ∧
    (∀ x wx, (p, x, wx) ∈ E → ∃ dx, lookupA dist x = some dx ∧ dx ≤ dp + wx)
  fresh : ∀ x dx, lookupA dist x = some dx → x ∉ P → x ≠ u → (dx, x) ∈ pq
  u_dist : lookupA dist u = some d
  u_stale : ∀ b, (b, u) ∈ pq → d < b
  u_notP : u ∉ P

/-- One relaxation that updates `dist[v]` to `d + w` preserves the
invariant. -/
theorem rstate_update {E : List Edge} {s u : ℕ} {d : ℚ} {P : List ℕ}
    {pq : List (ℚ × ℕ)} {dist : List (ℕ × ℚ)} {v : ℕ} {w : ℚ}
    (hP : PosW E) (hwu : ∃ es, isWalk E s es u = true ∧ weightOf es = d)
    (hR : RState E s u d P pq dist)
    (he : (u, v, w) ∈ E)
    (hcond : ∀ dv, lookupA dist v = some dv → d + w < dv) :
    RState E s u d P (pq ++ [(d + w, v)]) (updateA dist v (d + w)) := by
  obtain ⟨es₀, hes₀, hwes₀⟩ := hwu
  have hw0 : (0 : ℚ) < w := hP (u, v, w) he
  have hd0 : 0 ≤ d := hwes₀ ▸ weight_nonneg_of_walk hP hes₀
  have hvu : v ≠ u := by
    intro hvu
    subst hvu
    have := hcond d hR.u_dist
    linarith
  have hvP : v ∉ P := by
    intro hvP
    obtain ⟨dp, hdp, hdpd, _, _⟩ := hR.proc v hvP
    have := hcond dp hdp
    linarith
  have hwalkv : ∃ es, isWalk E s es v = true ∧ weightOf es = d + w := by
    refine ⟨es₀ ++ [(u, v, w)], ?_, ?_⟩
    · rw [isWalk_append_iff]
      have hend : endOf s es₀ = u := (isWalk_end hes₀).symm
      refine ⟨by rw [hend]; exact hes₀, ?_⟩
      rw [hend, isWalk_cons_iff]
      exact ⟨he, rfl, isWalk_nil_iff.mpr rfl⟩
    · rw [weight_append, hwes₀]
      have : weightOf [(u, v, w)] = w := by simp [weightOf]
      rw [this]
  refine ⟨?_, ?_, ?_, ?_, ?_, ?_, ?_, ?_, ?_, ?_, ?_, hR.u_notP⟩
  · intro x dx hx
    by_cases hxv : x = v
    · subst hxv
      rw [lookupA_updateA_self] at hx
      rw [← Option.some.inj hx]
      exact hwalkv
    · rw [lookupA_updateA_ne hxv] at hx
      exact hR.sound x dx hx
  · intro b x hbx
    rcases List.mem_append.mp hbx with hbx | hbx
    · exact hR.pq_sound b x hbx
    · simp only [List.mem_singleton, Prod.mk.injEq] at hbx
      rw [hbx.1, hbx.2]
      exact hwalkv
  · intro b x hbx
    rcases List.mem_append.mp hbx with hbx | hbx
    · exact hR.pq_lb b x hbx
    · simp only [List.mem_singleton, Prod.mk.injEq] at hbx
      rw [hbx.1]
      linarith
  · intro b x hbx
    rcases List.mem_append.mp hbx with hpq | hnew
    · by_cases hxv : x = v
      · obtain ⟨dx, hdx, hdxb⟩ := hR.pq_dist b x hpq
        rw [hxv] at hdx
        have := hcond dx hdx
        rw [hxv]
        exact ⟨d + w, lookupA_updateA_self, by linarith⟩
      · obtain ⟨dx, hdx, hdxb⟩ := hR.pq_dist b x hpq
        exact ⟨dx, by rw [lookupA_updateA_ne hxv]; exact hdx, hdxb⟩
    · simp only [List.mem_singleton, Prod.mk.injEq] at hnew
      rw [hnew.1, hnew.2]
      exact ⟨d + w, lookupA_updateA_self, le_refl _⟩
  · rw [List.nodup_append]
    refine ⟨hR.pq_nodup, List.nodup_singleton _, ?_⟩
    intro a ha hb
    simp only [List.mem_singleton] at hb
    subst hb
    obtain ⟨dx, hdx, hdxb⟩ := hR.pq_dist (d + w) v ha
    have := hcond dx hdx
    linarith
  · exact keys_nodup_updateA hR.keys_nodup
  · obtain ⟨d0, hl0, hd00⟩ := hR.s_mem
    by_cases hsv : s = v
    · subst hsv
      have := hcond d0 hl0
      exfalso
      linarith
    · exact ⟨d0, by rw [lookupA_updateA_ne hsv]; exact hl0, hd00⟩
  · intro p hp
    obtain ⟨dp, hdp, hdpd, hstale, hrel⟩ := hR.proc p hp
    have hpv : p ≠ v := fun hh => hvP (hh ▸ hp)
    refine ⟨dp, by rw [lookupA_updateA_ne hpv]; exact hdp, hdpd, ?_, ?_⟩
    · intro b hb
      rcases List.mem_append.mp hb with hb | hb
      · exact hstale b hb
      · simp only [List.mem_singleton, Prod.mk.injEq] at hb
        exact absurd hb.2 hpv
    · intro x wx hex
      obtain ⟨dx, hdx, hdxle⟩ := hrel x wx hex
      by_cases hxv : x = v
      · subst hxv
        have := hcond dx hdx
        exact ⟨d + w, lookupA_updateA_self, by linarith⟩
      · exact ⟨dx, by rw [lookupA_updateA_ne hxv]; exact hdx, hdxle⟩
  · intro x dx hx hxP hxu
    by_cases hxv : x = v
    · subst hxv
      rw [lookupA_updateA_self] at hx
      rw [← Option.some.inj hx]
      exact List.mem_append.mpr (Or.inr (List.mem_singleton.mpr rfl))
    · rw [lookupA_updateA_ne hxv] at hx
      exact List.mem_append.mpr (Or.inl (hR.fresh x dx hx hxP hxu))
  · rw [lookupA_updateA_ne hvu.symm]
    exact hR.u_dist
  · intro b hb
    rcases List.mem_append.mp hb with hb | hb
    · exact hR.u_stale b hb
    · simp only [List.mem_singleton, Prod.mk.injEq] at hb
      exact absurd hb.2.symm hvu

/-- The relaxation loop preserves the invariant, relaxes every listed edge,
adds at most one heap entry per edge, and only decreases distances. -/
theorem relaxList_pres {E : List Edge} {s u : ℕ} {d : ℚ} {P : List ℕ}
    (hP : PosW E) (hwu : ∃ es, isWalk E s es u = true ∧ weightOf es = d) :
    ∀ (adj : List (ℕ × ℚ)) (pq : List (ℚ × ℕ)) (dist : List (ℕ × ℚ)),
      RState E s u d P pq dist →
      (∀ vw ∈ adj, (u, vw.1, vw.2) ∈ E) →
      RState E s u d P (relaxList adj d pq dist).1 (relaxList adj d pq dist).2 ∧
      (∀ vw ∈ adj, ∃ dv, lookupA (relaxList adj d pq dist).2 vw.1 = some dv ∧
        dv ≤ d + vw.2) ∧
      (relaxList adj d pq dist).1.length ≤ pq.length + adj.length ∧
      (∀ x dx, lookupA dist x = some dx →
        ∃ dx', lookupA (relaxList adj d pq dist).2 x = some dx' ∧ dx' ≤ dx) := by
  intro adj
  induction adj with
  | nil =>
    intro pq dist hR hadj
    refine ⟨hR, ?_, ?_, ?_⟩
    · intro vw hvw; cases hvw
    · simp [relaxList]
    · intro x dx hx; exact ⟨dx, hx, le_refl _⟩
  | cons vw rest ih =>
    obtain ⟨v, w⟩ := vw
    intro pq dist hR hadj
    have he : (u, v, w) ∈ E := hadj (v, w) (List.mem_cons_self _ _)
    have hrest : ∀ x ∈ rest, (u, x.1, x.2) ∈ E :=
      fun x hx => hadj x (List.mem_cons_of_mem _ hx)
    cases hlv : lookupA dist v with
    | none =>
      have hstep : relaxList ((v, w) :: rest) d pq dist
          = relaxList rest d (pq ++ [(d + w, v)]) (updateA dist v (d + w)) := by
        simp only [relaxList, hlv]
      have hcond : ∀ dv, lookupA dist v = some dv → d + w < dv := by
        intro dv hdv
        rw [hlv] at hdv
        cases hdv
      have hR' := rstate_update hP hwu hR he hcond
      obtain ⟨hRfin, hrel, hlen, hmono⟩ := ih _ _ hR' hrest
      rw [hstep]
      refine ⟨hRfin, ?_, ?_, ?_⟩
      · intro vw' hvw'
        rcases List.mem_cons.mp hvw' with hvw' | hvw'
        · subst hvw'
          obtain ⟨dx', hdx', hle'⟩ := hmono v (d + w) lookupA_updateA_self
          exact ⟨dx', hdx', hle'⟩
        · exact hrel vw' hvw'
      · calc (relaxList rest d (pq ++ [(d + w, v)]) (updateA dist v (d + w))).1.length
            ≤ (pq ++ [(d + w, v)]).length + rest.length := hlen
          _ = pq.length + ((v, w) :: rest).length := by simp; omega
      · intro x dx hx
        by_cases hxv : x = v
        · subst hxv
          rw [hlv] at hx
          cases hx
        · have hx' : lookupA (updateA dist v (d + w)) x = some dx := by
            rw [lookupA_updateA_ne hxv]
            exact hx
          exact hmono x dx hx'
    | some dv =>
      by_cases hlt : d + w < dv
      · have hstep : relaxList ((v, w) :: rest) d pq dist
            = relaxList rest d (pq ++ [(d + w, v)]) (updateA dist v (d + w)) := by
          simp only [relaxList, hlv]
          rw [if_pos hlt]
        have hcond : ∀ dv', lookupA dist v = some dv' → d + w < dv' := by
          intro dv' hdv'
          have : dv = dv' := Option.some.inj (hlv.symm.trans hdv')
          rw [← this]
          exact hlt
        have hR' := rstate_update hP hwu hR he hcond
        obtain ⟨hRfin, hrel, hlen, hmono⟩ := ih _ _ hR' hrest
        rw [hstep]
        refine ⟨hRfin, ?_, ?_, ?_⟩
        · intro vw' hvw'
          rcases List.mem_cons.mp hvw' with hvw' | hvw'
          · subst hvw'
            obtain ⟨dx', hdx', hle'⟩ := hmono v (d + w) lookupA_updateA_self
            exact ⟨dx', hdx', hle'⟩
          · exact hrel vw' hvw'
        · calc (relaxList rest d (pq ++ [(d + w, v)]) (updateA dist v (d + w))).1.length
              ≤ (pq ++ [(d + w, v)]).length + rest.length := hlen
            _ = pq.length + ((v, w) :: rest).length := by simp; omega
        · intro x dx hx
          by_cases hxv : x = v
          · subst hxv
            have hdxdv : dx = dv := Option.some.inj (hx.symm.trans hlv)
            have hx' : lookupA (updateA dist x (d + w)) x = some (d + w) :=
              lookupA_updateA_self
            obtain ⟨dx', hdx', hle'⟩ := hmono x (d + w) hx'
            exact ⟨dx', hdx', by rw [hdxdv]; linarith⟩
          · have hx' : lookupA (updateA dist v (d + w)) x = some dx := by
              rw [lookupA_updateA_ne hxv]
              exact hx
            exact hmono x dx hx'
      · have hstep : relaxList ((v, w) :: rest) d pq dist
            = relaxList rest d pq dist := by
          simp only [relaxList, hlv]
          rw [if_neg hlt]
        obtain ⟨hRfin, hrel, hlen, hmono⟩ := ih _ _ hR hrest
        rw [hstep]
        refine ⟨hRfin, ?_, ?_, ?_⟩
        · intro vw' hvw'
          rcases List.mem_cons.mp hvw' with hvw' | hvw'
          · subst hvw'
            obtain ⟨dx', hdx', hle'⟩ := hmono v dv hlv
            refine ⟨dx', hdx', ?_⟩
            have := le_of_not_lt hlt
            linarith
          · exact hrel vw' hvw'
        · calc (relaxList rest d pq dist).1.length
              ≤ pq.length + rest.length := hlen
            _ ≤ pq.length + ((v, w) :: rest).length := by simp
        · exact hmono

theorem popMinPQ_eq_none {pq : List (ℚ × ℕ)} (h : popMinPQ pq = none) :
    pq = [] := by
  unfold popMinPQ at h
  cases hq : pqMin pq with
  | none => exact pqMin_none_iff.mp hq
  | some m => rw [hq] at h; cases h

theorem popMinPQ_eq_some {pq pq' : List (ℚ × ℕ)} {m : ℚ × ℕ}
    (h : popMinPQ pq = some (m, pq')) :
    pqMin pq = some m ∧ pq' = pq.erase m := by
  unfold popMinPQ at h
  cases hq : pqMin pq with
  | none => rw [hq] at h; cases h
  | some m' =>
    rw [hq] at h
    have h2 := Option.some.inj h
    obtain ⟨hm, hpq⟩ := Prod.ext_iff.mp h2
    simp only at hm hpq
    rw [hm] at hpq
    exact ⟨by rw [hm], hpq.symm⟩

theorem adjOf_mem_iff {E : List Edge} {u : ℕ} {vw : ℕ × ℚ} :
    vw ∈ adjOf E u ↔ (u, vw.1, vw.2) ∈ E := by
  unfold adjOf
  rw [List.mem_filterMap]
  constructor
  · rintro ⟨e, he, hcond⟩
    by_cases heu : e.1 = u
    · rw [if_pos heu] at hcond
      have h2 := Option.some.inj hcond
      have : e = (u, vw.1, vw.2) := by
        obtain ⟨e1, e2, e3⟩ := e
        simp only at heu h2
        rw [heu.symm]
        obtain ⟨ha, hb⟩ := Prod.ext_iff.mp h2
        simp only at ha hb
        rw [← ha, ← hb]
      rw [← this]
      exact he
    · rw [if_neg heu] at hcond
      cases hcond
  · intro he
    exact ⟨(u, vw.1, vw.2), he, by rw [if_pos rfl]⟩

theorem filter_split_P {E : List Edge} {P : List ℕ} {u : ℕ} (hu : u ∉ P) :
    (E.filter (fun e => decide (e.1 ∉ P))).length
      = (E.filter (fun e => decide (e.1 ∉ u :: P))).length + (adjOf E u).length := by
  induction E with
  | nil => rfl
  | cons e E ih =>
    have hadj : adjOf (e :: E) u
        = if e.1 = u then (e.2.1, e.2.2) :: adjOf E u else adjOf E u := by
      unfold adjOf
      rw [List.filterMap_cons]
      by_cases heu : e.1 = u
      · rw [if_pos heu, if_pos heu]
      · rw [if_neg heu, if_neg heu]
    rw [hadj, List.filter_cons, List.filter_cons]
    by_cases heu : e.1 = u
    · have h1 : decide (e.1 ∉ P) = true := decide_eq_true (heu ▸ hu)
      have h2 : decide (e.1 ∉ u :: P) = false := by
        apply decide_eq_false
        intro hc
        exact hc (heu ▸ List.mem_cons_self u P)
      rw [h1, h2, if_pos heu, if_pos rfl, if_neg (by simp)]
      simp only [List.length_cons]
      omega
    · have h2 : decide (e.1 ∉ u :: P) = decide (e.1 ∉ P) := by
        by_cases hP : e.1 ∈ P
        · have a1 : decide (e.1 ∉ P) = false := decide_eq_false (fun hc => hc hP)
          have a2 : decide (e.1 ∉ u :: P) = false :=
            decide_eq_false (fun hc => hc (List.mem_cons_of_mem _ hP))
          rw [a1, a2]
        · have a1 : decide (e.1 ∉ P) = true := decide_eq_true hP
          have a2 : decide (e.1 ∉ u :: P) = true := by
            apply decide_eq_true
            intro hc
            rcases List.mem_cons.mp hc with hc | hc
            · exact heu hc
            · exact hP hc
          rw [a1, a2]
      rw [h2, if_neg heu]
      cases h3 : decide (e.1 ∉ P)
      · rw [if_neg (by simp), if_neg (by simp)]
        exact ih
      · rw [if_pos rfl, if_pos rfl]
        simp only [List.length_cons]
        omega

/-- The `while pq` loop invariant of `_dijkstra`. -/
structure LInv (E : List Edge) (s : ℕ) (pq : List (ℚ × ℕ))
    (dist : List (ℕ × ℚ)) (P : List ℕ) (lb : ℚ) : Prop where
  sound : ∀ x dx, lookupA dist x = some dx →
    ∃ es, isWalk E s es x = true ∧ weightOf es = dx
  pq_sound : ∀ b x, (b, x) ∈ pq →
    ∃ es, isWalk E s es x = true ∧ weightOf es = b
  pq_lb : ∀ b x, (b, x) ∈ pq → lb ≤ b
  pq_dist : ∀ b x, (b, x) ∈ pq → ∃ dx, lookupA dist x = some dx ∧ dx ≤ b
  pq_nodup : pq.Nodup
  keys_nodup : (dist.map Prod.fst).Nodup
  s_mem : ∃ d0, lookupA dist s = some d0 ∧ d0 ≤ 0
  proc : ∀ p ∈ P, ∃ dp, lookupA dist p = some dp ∧ dp ≤ lb ∧
    (∀ b, (b, p) ∈ pq → dp < b) ∧
    (∀ x wx, (p, x, wx) ∈ E → ∃ dx, lookupA dist x = some dx ∧ dx ≤ dp + wx)
  fresh : ∀ x dx, lookupA dist x = some dx → x ∉ P → (dx, x) ∈ pq

/-- What holds of the distance dictionary when the loop has drained the
heap: entries are walk weights, the source has a non-positive entry, every
out-edge of an entered node is relaxed, and keys are unique. -/
def DPost (E : List Edge) (s : ℕ) (dist : List (ℕ × ℚ)) : Prop :=
  (∀ x dx, lookupA dist x = some dx →
    ∃ es, isWalk E s es x = true ∧ weightOf es = dx) ∧
  (∃ d0, lookupA dist s = some d0 ∧ d0 ≤ 0) ∧
  (∀ x dx, lookupA dist x = some dx → ∀ v w, (x, v, w) ∈ E →
    ∃ dv, lookupA dist v = some dv ∧ dv ≤ dx + w) ∧
  (dist.map Prod.fst).Nodup

/-- The Dijkstra loop, given enough fuel, drains the heap and establishes
the postcondition. -/
theorem dijkstraLoop_post {E : List Edge} {s : ℕ} (hP : PosW E) :
    ∀ (fuel : ℕ) (pq : List (ℚ × ℕ)) (dist : List (ℕ × ℚ)) (P : List ℕ) (lb : ℚ),
      LInv E s pq dist P lb →
      pq.length + (E.filter (fun e => decide (e.1 ∉ P))).length < fuel →
      DPost E s (dijkstraLoop E fuel pq dist) := by
  intro fuel
  induction fuel with
  | zero => intro pq dist P lb _ hm; omega
  | succ fuel ih =>
    intro pq dist P lb hI hm
    cases hpop : popMinPQ pq with
    | none =>
      have hpq : pq = [] := popMinPQ_eq_none hpop
      have hstep : dijkstraLoop E (fuel + 1) pq dist = dist := by
        simp only [dijkstraLoop, hpop]
      rw [hstep]
      subst hpq
      refine ⟨hI.sound, hI.s_mem, ?_, hI.keys_nodup⟩
      intro x dx hx v w he
      by_cases hxP : x ∈ P
      · obtain ⟨dp, hdp, _, _, hrel⟩ := hI.proc x hxP
        have hpd : dp = dx := Option.some.inj (hdp.symm.trans hx)
        obtain ⟨dv, hdv, hdvle⟩ := hrel v w he
        exact ⟨dv, hdv, by rw [← hpd]; exact hdvle⟩
      · exact absurd (hI.fresh x dx hx hxP) (List.not_mem_nil _)
    | some mp =>
      obtain ⟨⟨b, x⟩, pq'⟩ := mp
      obtain ⟨hmin, hpq'⟩ := popMinPQ_eq_some hpop
      subst hpq'
      have hmem : (b, x) ∈ pq := pqMin_mem hmin
      have hminle : ∀ y ∈ pq, b ≤ y.1 := pqMin_le hmin
      obtain ⟨dx0, hdx0, hdx0le⟩ := hI.pq_dist b x hmem
      have hlb_b : lb ≤ b := hI.pq_lb b x hmem
      have hpos : 0 < pq.length := by
        cases pq with
        | nil => cases hmem
        | cons _ _ => simp
      have hlen' : (pq.erase (b, x)).length + 1 = pq.length := by
        rw [List.length_erase_of_mem hmem]
        omega
      by_cases hstale : dx0 < b
      · have hstep : dijkstraLoop E (fuel + 1) pq dist
            = dijkstraLoop E fuel (pq.erase (b, x)) dist := by
          simp only [dijkstraLoop, hpop, hdx0]
          rw [if_pos hstale]
        rw [hstep]
        refine ih (pq.erase (b, x)) dist P b ⟨hI.sound, ?_, ?_, ?_, ?_,
          hI.keys_nodup, hI.s_mem, ?_, ?_⟩ ?_
        · exact fun b' x' h' => hI.pq_sound b' x' (List.erase_subset _ _ h')
        · exact fun b' x' h' => hminle (b', x') (List.erase_subset _ _ h')
        · exact fun b' x' h' => hI.pq_dist b' x' (List.erase_subset _ _ h')
        · exact hI.pq_nodup.erase _
        · intro p hp
          obtain ⟨dp, hdp, hdpl, hstl, hrel⟩ := hI.proc p hp
          exact ⟨dp, hdp, le_trans hdpl hlb_b,
            fun b' h' => hstl b' (List.erase_subset _ _ h'), hrel⟩
        · intro x' dx' hx' hx'P
          have hw := hI.fresh x' dx' hx' hx'P
          have hne : ((dx', x') : ℚ × ℕ) ≠ (b, x) := by
            intro hh
            obtain ⟨h1, h2⟩ := Prod.ext_iff.mp hh
            simp only at h1 h2
            subst h2
            have : dx' = dx0 := Option.some.inj (hx'.symm.trans hdx0)
            rw [h1] at this
            rw [← this] at hstale
            exact lt_irrefl _ hstale
          exact (List.mem_erase_of_ne hne).mpr hw
        · omega
      · have hbd : dx0 = b := le_antisymm hdx0le (le_of_not_lt hstale)
        have hxnotP : x ∉ P := by
          intro hxP
          obtain ⟨dp, hdp, _, hstl, _⟩ := hI.proc x hxP
          have hpd : dp = dx0 := Option.some.inj (hdp.symm.trans hdx0)
          have := hstl b hmem
          rw [hpd, hbd] at this
          exact lt_irrefl _ this
        have hwux : ∃ es, isWalk E s es x = true ∧ weightOf es = b :=
          hI.pq_sound b x hmem
        have hRS : RState E s x b P (pq.erase (b, x)) dist := by
          refine ⟨hI.sound,
            fun b' x' h' => hI.pq_sound b' x' (List.erase_subset _ _ h'),
            fun b' x' h' => hminle (b', x') (List.erase_subset _ _ h'),
            fun b' x' h' => hI.pq_dist b' x' (List.erase_subset _ _ h'),
            hI.pq_nodup.erase _, hI.keys_nodup, hI.s_mem, ?_, ?_, ?_, ?_, hxnotP⟩
          · intro p hp
            obtain ⟨dp, hdp, hdpl, hstl, hrel⟩ := hI.proc p hp
            exact ⟨dp, hdp, le_trans hdpl hlb_b,
              fun b' h' => hstl b' (List.erase_subset _ _ h'), hrel⟩
          · intro x' dx' hx' hx'P hx'x
            have hw := hI.fresh x' dx' hx' hx'P
            have hne : ((dx', x') : ℚ × ℕ) ≠ (b, x) := by
              intro hh
              exact hx'x (Prod.ext_iff.mp hh).2
            exact (List.mem_erase_of_ne hne).mpr hw
          · rw [← hbd]
            exact hdx0
          · intro b' h'
            have hin : (b', x) ∈ pq := List.erase_subset _ _ h'
            have hge : b ≤ b' := hminle (b', x) hin
            have hne : b' ≠ b := by
              intro hh
              subst hh
              have := (hI.pq_nodup.mem_erase_iff).mp h'
              exact this.1 rfl
            exact lt_of_le_of_ne hge (Ne.symm hne)
        have hadj : ∀ vw ∈ adjOf E x, (x, vw.1, vw.2) ∈ E :=
          fun vw hvw => adjOf_mem_iff.mp hvw
        obtain ⟨hRfin, hrel, hlenR, hmono⟩ :=
          relaxList_pres hP hwux (adjOf E x) (pq.erase (b, x)) dist hRS hadj
        have hstep : dijkstraLoop E (fuel + 1) pq dist
            = dijkstraLoop E fuel (relaxList (adjOf E x) b (pq.erase (b, x)) dist).1
                (relaxList (adjOf E x) b (pq.erase (b, x)) dist).2 := by
          simp only [dijkstraLoop, hpop, hdx0]
          rw [if_neg hstale]
        rw [hstep]
        refine ih _ _ (x :: P) b ⟨hRfin.sound, hRfin.pq_sound, hRfin.pq_lb,
          hRfin.pq_dist, hRfin.pq_nodup, hRfin.keys_nodup, hRfin.s_mem, ?_, ?_⟩ ?_
        · intro p hp
          rcases List.mem_cons.mp hp with hp | hp
          · subst hp
            refine ⟨b, hRfin.u_dist, le_refl _, hRfin.u_stale, ?_⟩
            intro x' wx he'
            have : ((x', wx) : ℕ × ℚ) ∈ adjOf E p := adjOf_mem_iff.mpr he'
            exact hrel (x', wx) this
          · obtain ⟨dp, hdp, hdpl, hstl, hrel'⟩ := hRfin.proc p hp
            exact ⟨dp, hdp, hdpl, hstl, hrel'⟩
        · intro x' dx' hx' hx'P
          have h1 : x' ∉ P := fun hh => hx'P (List.mem_cons_of_mem _ hh)
          have h2 : x' ≠ x := fun hh => hx'P (hh ▸ List.mem_cons_self _ _)
          exact hRfin.fresh x' dx' hx' h1 h2
        · have hsplit := filter_split_P (E := E) hxnotP
          omega

/-! ### C5 stage 2c: the distance map of `_dijkstra` -/

/-- The distance dictionary computed by `_dijkstra`. -/
def dijkstraDist (E : List Edge) (s : ℕ) : List (ℕ × ℚ) := (_dijkstra E s).1

/-- The distance value recorded for `v` by `_dijkstra` run from `s`. -/
def dval (E : List Edge) (s v : ℕ) : ℚ := (lookupA (dijkstraDist E s) v).getD 0

theorem dijkstra_post {E : List Edge} {s : ℕ} (hP : PosW E) :
    DPost E s (dijkstraDist E s) := by
  have hinit : LInv E s [(0, s)] [(s, 0)] [] 0 := by
    refine ⟨?_, ?_, ?_, ?_, ?_, ?_, ?_, ?_, ?_⟩
    · intro x dx hx
      by_cases hsx : s = x
      · subst hsx
        rw [lookupA, if_pos rfl] at hx
        refine ⟨[], isWalk_nil_iff.mpr rfl, ?_⟩
        rw [weight_nil]
        exact Option.some.inj hx
      · rw [lookupA, if_neg hsx] at hx
        cases hx
    · intro b x hbx
      simp only [List.mem_singleton, Prod.mk.injEq] at hbx
      refine ⟨[], isWalk_nil_iff.mpr hbx.2.symm, ?_⟩
      rw [weight_nil, hbx.1]
    · intro b x hbx
      simp only [List.mem_singleton, Prod.mk.injEq] at hbx
      rw [hbx.1]
    · intro b x hbx
      simp only [List.mem_singleton, Prod.mk.injEq] at hbx
      rw [hbx.1, hbx.2]
      exact ⟨0, by rw [lookupA, if_pos rfl], le_refl _⟩
    · exact List.nodup_singleton _
    · simp
    · exact ⟨0, by rw [lookupA, if_pos rfl], le_refl _⟩
    · intro p hp
      cases hp
    · intro x dx hx hxP
      by_cases hsx : s = x
      · subst hsx
        rw [lookupA, if_pos rfl] at hx
        have : dx = 0 := (Option.some.inj hx).symm
        rw [this]
        exact List.mem_singleton.mpr rfl
      · rw [lookupA, if_neg hsx] at hx
        cases hx
  have hmeas : ([(0, s)] : List (ℚ × ℕ)).length
      + (E.filter (fun e => decide (e.1 ∉ ([] : List ℕ)))).length < E.length + 2 := by
    have hf : (E.filter (fun e => decide (e.1 ∉ ([] : List ℕ)))).length ≤ E.length :=
      List.length_filter_le _ _
    simp only [List.length_singleton]
    omega
  exact dijkstraLoop_post hP (E.length + 2) [(0, s)] [(s, 0)] [] 0 hinit hmeas

theorem dpost_min {E : List Edge} {s : ℕ} {dist : List (ℕ × ℚ)}
    (h : DPost E s dist) :
    ∀ {es : List Edge} {x v : ℕ}, isWalk E x es v = true →
      ∀ dx, lookupA dist x = some dx →
        ∃ dv, lookupA dist v = some dv ∧ dv ≤ dx + weightOf es := by
  intro es
  induction es with
  | nil =>
    intro x v hw dx hdx
    rw [isWalk_nil_iff] at hw
    subst hw
    exact ⟨dx, hdx, by rw [weight_nil]; linarith⟩
  | cons e es ih =>
    intro x v hw dx hdx
    obtain ⟨he, hex, hw'⟩ := isWalk_cons_iff.mp hw
    have heq : e = (x, e.2.1, e.2.2) := by
      have : e = (e.1, e.2.1, e.2.2) := rfl
      rw [this, hex]
    have he' : (x, e.2.1, e.2.2) ∈ E := heq ▸ he
    obtain ⟨dm, hdm, hdmle⟩ := h.2.2.1 x dx hdx e.2.1 e.2.2 he'
    obtain ⟨dv, hdv, hdvle⟩ := ih hw' dm hdm
    refine ⟨dv, hdv, ?_⟩
    have hwc : weightOf (e :: es) = e.2.2 + weightOf es := by simp [weightOf]
    rw [hwc]
    linarith

theorem dpost_s_zero {E : List Edge} {s : ℕ} {dist : List (ℕ × ℚ)}
    (hP : PosW E) (h : DPost E s dist) : lookupA dist s = some 0 := by
  obtain ⟨d0, h0, hle⟩ := h.2.1
  obtain ⟨es, hw, hwe⟩ := h.1 s d0 h0
  have hge : 0 ≤ d0 := hwe ▸ weight_nonneg_of_walk hP hw
  have : d0 = 0 := le_antisymm hle hge
  rw [this] at h0
  exact h0

/-- The fundamental property of the `_dijkstra` distances on a tree network:
the recorded value is the weight of a simple path and is minimal among all
walk weights. -/
theorem dval_lookup {E : List Edge} (hT : IsTreeNet E) {s v : ℕ}
    (hs : s ∈ vertsOf E) (hv : v ∈ vertsOf E) :
    lookupA (dijkstraDist E s) v = some (dval E s v) ∧
    (∃ ps, isWalk E s ps v = true ∧ isPath s ps ∧ weightOf ps = dval E s v) ∧
    (∀ es, isWalk E s es v = true → dval E s v ≤ weightOf es) := by
  obtain ⟨hne, hS, hP, hC, hU⟩ := hT
  have hpost := dijkstra_post (E := E) (s := s) hP
  obtain ⟨es₀, hw₀⟩ := hC s hs v hv
  have hs0 : lookupA (dijkstraDist E s) s = some 0 := dpost_s_zero hP hpost
  obtain ⟨dv, hdv, hdvle⟩ := dpost_min hpost hw₀ 0 hs0
  have hdval : dval E s v = dv := by
    unfold dval
    rw [hdv]
    rfl
  have hmin : ∀ es, isWalk E s es v = true → dv ≤ weightOf es := by
    intro es hw
    obtain ⟨dv', hdv', hle'⟩ := dpost_min hpost hw 0 hs0
    have : dv' = dv := Option.some.inj (hdv'.symm.trans hdv)
    rw [← this]
    linarith
  obtain ⟨es₁, hw₁, hwe₁⟩ := hpost.1 v dv hdv
  obtain ⟨ps, hps, hpsp, hpsle⟩ := exists_path_of_walk hP hw₁
  have hpseq : weightOf ps = dv := le_antisymm (hwe₁ ▸ hpsle) (hmin ps hps)
  rw [hdval]
  exact ⟨hdv, ⟨ps, hps, hpsp, hpseq⟩, hmin⟩

theorem dval_nonneg {E : List Edge} (hT : IsTreeNet E) {s v : ℕ}
    (hs : s ∈ vertsOf E) (hv : v ∈ vertsOf E) : 0 ≤ dval E s v := by
  obtain ⟨_, ⟨ps, hps, _, hpse⟩, _⟩ := dval_lookup hT hs hv
  rw [← hpse]
  exact weight_nonneg_of_walk hT.2.2.1 hps

theorem dval_self {E : List Edge} (hT : IsTreeNet E) {s : ℕ} :
    dval E s s = 0 := by
  unfold dval
  rw [dpost_s_zero hT.2.2.1 (dijkstra_post hT.2.2.1)]
  rfl

theorem dval_symm {E : List Edge} (hT : IsTreeNet E) {s v : ℕ}
    (hs : s ∈ vertsOf E) (hv : v ∈ vertsOf E) : dval E s v = dval E v s := by
  have h1 : dval E s v ≤ dval E v s := by
    obtain ⟨_, ⟨q, hq, _, hqe⟩, _⟩ := dval_lookup hT hv hs
    obtain ⟨_, _, hmin⟩ := dval_lookup hT hs hv
    have hrev : isWalk E s (revWalk q) v = true := isWalk_revWalk hT.2.1 hq
    calc dval E s v ≤ weightOf (revWalk q) := hmin _ hrev
      _ = weightOf q := weight_revWalk
      _ = dval E v s := hqe
  have h2 : dval E v s ≤ dval E s v := by
    obtain ⟨_, ⟨q, hq, _, hqe⟩, _⟩ := dval_lookup hT hs hv
    obtain ⟨_, _, hmin⟩ := dval_lookup hT hv hs
    have hrev : isWalk E v (revWalk q) s = true := isWalk_revWalk hT.2.1 hq
    calc dval E v s ≤ weightOf (revWalk q) := hmin _ hrev
      _ = weightOf q := weight_revWalk
      _ = dval E s v := hqe
  exact le_antisymm h1 h2

theorem dval_triangle {E : List Edge} (hT : IsTreeNet E) {a b c : ℕ}
    (ha : a ∈ vertsOf E) (hb : b ∈ vertsOf E) (hc : c ∈ vertsOf E) :
    dval E a c ≤ dval E a b + dval E b c := by
  obtain ⟨_, ⟨p, hp, _, hpe⟩, _⟩ := dval_lookup hT ha hb
  obtain ⟨_, ⟨q, hq, _, hqe⟩, _⟩ := dval_lookup hT hb hc
  obtain ⟨_, _, hmin⟩ := dval_lookup hT ha hc
  have hend : endOf a p = b := (isWalk_end hp).symm
  have hcat : isWalk E a (p ++ q) c = true := by
    rw [isWalk_append_iff, hend]
    exact ⟨by rw [← hend] at hp ⊢; exact hp, hq⟩
  calc dval E a c ≤ weightOf (p ++ q) := hmin _ hcat
    _ = dval E a b + dval E b c := by rw [weight_append, hpe, hqe]

/-- On a tree, the distance between two vertices equals the weight of any
simple path joining them. -/
theorem dval_eq_path_weight {E : List Edge} (hT : IsTreeNet E) {u v : ℕ}
    (hu : u ∈ vertsOf E) {p : List Edge} (hw : isWalk E u p v = true)
    (hp : isPath u p) : dval E u v = weightOf p := by
  have hv : v ∈ vertsOf E := walk_end_verts hT.2.1 hw hu
  obtain ⟨_, ⟨ps, hps, hpsp, hpse⟩, _⟩ := dval_lookup hT hu hv
  have : ps = p := hT.2.2.2.2 u v ps p hps hpsp hw hp
  rw [← hpse, this]

/-- The farthest node returned by `_dijkstra` from a vertex of a tree. -/
theorem dijkstra_argmax {E : List Edge} (hT : IsTreeNet E) {s : ℕ}
    (hs : s ∈ vertsOf E) :
    (_dijkstra E s).2 ∈ vertsOf E ∧
    ∀ v ∈ vertsOf E, dval E s v ≤ dval E s ((_dijkstra E s).2) := by
  have hP := hT.2.2.1
  have hpost := dijkstra_post (E := E) (s := s) hP
  have hs0 : lookupA (dijkstraDist E s) s = some 0 := dpost_s_zero hP hpost
  have hne : dijkstraDist E s ≠ [] := by
    intro hh
    rw [hh] at hs0
    cases hs0
  obtain ⟨dm, hmem, hmax⟩ := maxByVal_spec hne
  have hA2 : (_dijkstra E s).2 = maxByVal (dijkstraDist E s) := rfl
  have hlA : lookupA (dijkstraDist E s) (maxByVal (dijkstraDist E s)) = some dm :=
    lookupA_of_mem_nodup hpost.2.2.2 hmem
  have hdvalA : dval E s (maxByVal (dijkstraDist E s)) = dm := by
    unfold dval
    rw [hlA]
    rfl
  obtain ⟨esA, hwA, _⟩ := hpost.1 _ dm hlA
  constructor
  · rw [hA2]
    exact walk_end_verts hT.2.1 hwA hs
  · intro v hv
    obtain ⟨hlv, _, _⟩ := dval_lookup hT hs hv
    have hvm : (v, dval E s v) ∈ dijkstraDist E s := lookupA_some_mem hlv
    have := hmax (v, dval E s v) hvm
    rw [hA2, hdvalA]
    exact this

/-! ### C5 stage 3: tree-metric lemmas and the double sweep -/

theorem endOf_mem_support : ∀ (es : List Edge) (u : ℕ),
    endOf u es ∈ walkSupport u es := by
  intro es
  induction es with
  | nil => intro u; simp [walkSupport, targetsOf, endOf]
  | cons e es ih =>
    intro u
    rw [walkSupport_cons, endOf_cons]
    exact List.mem_cons_of_mem _ (ih e.2.1)

theorem end_mem_support {E : List Edge} {es : List Edge} {u v : ℕ}
    (h : isWalk E u es v = true) : v ∈ walkSupport u es := by
  have hv := isWalk_end h
  subst hv
  exact endOf_mem_support es u

theorem targetsOf_take {es : List Edge} {n : ℕ} :
    targetsOf (es.take n) = (targetsOf es).take n := by
  simp [targetsOf, List.map_take]

theorem targetsOf_drop {es : List Edge} {n : ℕ} :
    targetsOf (es.drop n) = (targetsOf es).drop n := by
  simp [targetsOf, List.map_drop]

/-- Splitting a simple path at a support decomposition `l₁ ++ x :: M`:
both pieces are simple paths realising the distances. -/
theorem path_decomp {E : List Edge} (hT : IsTreeNet E) {u v x : ℕ}
    {q : List Edge} {l₁ M : List ℕ}
    (hu : u ∈ vertsOf E) (hw : isWalk E u q v = true) (hp : isPath u q)
    (hdec : walkSupport u q = l₁ ++ x :: M) :
    isWalk E u (q.take l₁.length) x = true ∧ isPath u (q.take l₁.length) ∧
    walkSupport u (q.take l₁.length) = l₁ ++ [x] ∧
    isWalk E x (q.drop l₁.length) v = true ∧ isPath x (q.drop l₁.length) ∧
    walkSupport x (q.drop l₁.length) = x :: M ∧
    dval E u x = weightOf (q.take l₁.length) ∧
    dval E x v = weightOf (q.drop l₁.length) ∧
    dval E u x + dval E x v = dval E u v := by
  have hi : endOf u (q.take l₁.length) = x := endOf_take_of_support_split hdec
  have hq12 : q.take l₁.length ++ q.drop l₁.length = q := List.take_append_drop _ _
  have hw' : isWalk E u (q.take l₁.length ++ q.drop l₁.length) v = true := by
    rw [hq12]
    exact hw
  obtain ⟨hw1, hw2⟩ := isWalk_append_iff.mp hw'
  rw [hi] at hw1 hw2
  have hassoc : l₁ ++ x :: M = (l₁ ++ [x]) ++ M := by simp
  have hlen1 : (l₁ ++ [x]).length = l₁.length + 1 := by simp
  have hsupt : walkSupport u (q.take l₁.length) = l₁ ++ [x] := by
    have h1 : walkSupport u (q.take l₁.length)
        = (walkSupport u q).take (l₁.length + 1) := by
      unfold walkSupport
      rw [targetsOf_take]
      rfl
    rw [h1, hdec, hassoc, ← hlen1]
    exact List.take_left _ _
  have hsupd : walkSupport x (q.drop l₁.length) = x :: M := by
    have h1 : (targetsOf q).drop l₁.length = M := by
      have h2 := congrArg (List.drop (l₁.length + 1)) hdec
      have h3 : (walkSupport u q).drop (l₁.length + 1)
          = (targetsOf q).drop l₁.length := rfl
      have h4 : (l₁ ++ x :: M).drop (l₁.length + 1) = M := by
        rw [hassoc, ← hlen1]
        exact List.drop_left _ _
      rw [h3, h4] at h2
      exact h2
    unfold walkSupport
    rw [targetsOf_drop, h1]
  have hnd1 : isPath u (q.take l₁.length) := by
    unfold isPath
    rw [hsupt]
    have hsub : List.Sublist (l₁ ++ [x]) (walkSupport u q) := by
      rw [hdec, hassoc]
      have h5 := List.take_sublist (l₁ ++ [x]).length ((l₁ ++ [x]) ++ M)
      rw [List.take_left] at h5
      exact h5
    exact List.Nodup.sublist hsub hp
  have hnd2 : isPath x (q.drop l₁.length) := by
    unfold isPath
    rw [hsupd]
    have hsub : List.Sublist (x :: M) (walkSupport u q) := by
      rw [hdec]
      have h5 := List.drop_sublist l₁.length (l₁ ++ x :: M)
      have hdr : (l₁ ++ x :: M).drop l₁.length = x :: M := List.drop_left _ _
      rw [hdr] at h5
      exact h5
    exact List.Nodup.sublist hsub hp
  have hxv : x ∈ vertsOf E := walk_end_verts hT.2.1 hw1 hu
  have hd1 : dval E u x = weightOf (q.take l₁.length) :=
    dval_eq_path_weight hT hu hw1 hnd1
  have hd2 : dval E x v = weightOf (q.drop l₁.length) :=
    dval_eq_path_weight hT hxv hw2 hnd2
  have hdq : dval E u v = weightOf q := dval_eq_path_weight hT hu hw hp
  refine ⟨hw1, hnd1, hsupt, hw2, hnd2, hsupd, hd1, hd2, ?_⟩
  rw [hd1, hd2, hdq]
  conv_rhs => rw [← hq12]
  rw [weight_append]

/-- First element of `l` lying in `T`, when one exists. -/
theorem first_common {T : List ℕ} : ∀ (l : List ℕ), (∃ z ∈ l, z ∈ T) →
    ∃ l₁ t l₂, l = l₁ ++ t :: l₂ ∧ t ∈ T ∧ ∀ z ∈ l₁, z ∉ T := by
  intro l
  induction l with
  | nil => rintro ⟨z, hz, _⟩; cases hz
  | cons a l ih =>
    rintro ⟨z, hz, hzT⟩
    by_cases haT : a ∈ T
    · exact ⟨[], a, l, rfl, haT, by intro z hz; cases hz⟩
    · have hex : ∃ z ∈ l, z ∈ T := by
        rcases List.mem_cons.mp hz with h | h
        · subst h; exact absurd hzT haT
        · exact ⟨z, h, hzT⟩
      obtain ⟨l₁, t, l₂, h1, h2, h3⟩ := ih hex
      refine ⟨a :: l₁, t, l₂, by rw [h1]; rfl, h2, ?_⟩
      intro z hz
      rcases List.mem_cons.mp hz with h | h
      · subst h; exact haT
      · exact h3 z h

/-- If `y` lies on the path at or after `x`, the distances add up. -/
theorem path_between {E : List Edge} (hT : IsTreeNet E) {u v x y : ℕ}
    {q : List Edge} {l₁ M : List ℕ}
    (hu : u ∈ vertsOf E) (hw : isWalk E u q v = true) (hp : isPath u q)
    (hdec : walkSupport u q = l₁ ++ x :: M) (hy : y ∈ x :: M) :
    dval E u y = dval E u x + dval E x y := by
  obtain ⟨hw1, _, _, hw2, hp2, hs2, _, _, hsum⟩ := path_decomp hT hu hw hp hdec
  have hxv : x ∈ vertsOf E := walk_end_verts hT.2.1 hw1 hu
  rw [← hs2] at hy
  obtain ⟨a, b, hab⟩ := List.append_of_mem hy
  obtain ⟨_, _, _, _, _, _, _, _, hsum2⟩ := path_decomp hT hxv hw2 hp2 hab
  have hymem : y ∈ walkSupport u q := by
    rw [hdec]
    refine List.mem_append_right _ ?_
    rw [← hs2]
    exact hy
  obtain ⟨a', b', hab'⟩ := List.append_of_mem hymem
  obtain ⟨_, _, _, _, _, _, _, _, hsum3⟩ := path_decomp hT hu hw hp hab'
  linarith

/-- Two support points of a simple path are at distance equal to the
difference of their distances from the start. -/
theorem path_two_points {E : List Edge} (hT : IsTreeNet E) {u v x y : ℕ}
    {q : List Edge}
    (hu : u ∈ vertsOf E) (hw : isWalk E u q v = true) (hp : isPath u q)
    (hx : x ∈ walkSupport u q) (hy : y ∈ walkSupport u q) :
    (dval E u x ≤ dval E u y ∧ dval E x y = dval E u y - dval E u x) ∨
    (dval E u y ≤ dval E u x ∧ dval E x y = dval E u x - dval E u y) := by
  have hS := hT.2.1
  have hxv : x ∈ vertsOf E := walk_support_verts hS hw hu x hx
  have hyv : y ∈ vertsOf E := walk_support_verts hS hw hu y hy
  obtain ⟨l₁, M, hdec⟩ := List.append_of_mem hx
  by_cases hyM : y ∈ x :: M
  · left
    have hbet := path_between hT hu hw hp hdec hyM
    have hnn : 0 ≤ dval E x y := dval_nonneg hT hxv hyv
    constructor
    · linarith
    · linarith
  · have hyl : y ∈ l₁ := by
      rw [hdec] at hy
      rcases List.mem_append.mp hy with h | h
      · exact h
      · exact absurd h hyM
    obtain ⟨a, b, hab⟩ := List.append_of_mem hyl
    have hdec' : walkSupport u q = a ++ y :: (b ++ x :: M) := by
      rw [hdec, hab]
      simp
    have hxin : x ∈ y :: (b ++ x :: M) := by
      refine List.mem_cons_of_mem _ ?_
      exact List.mem_append_right _ (List.mem_cons_self _ _)
    right
    have hbet := path_between hT hu hw hp hdec' hxin
    have hsymm : dval E y x = dval E x y := dval_symm hT hyv hxv
    have hnn : 0 ≤ dval E y x := dval_nonneg hT hyv hxv
    constructor
    · linarith
    · linarith

/-- The median: for any third vertex `s`, some vertex `t` on the `u`-`v`
path satisfies the two distance decompositions through `t`. -/
theorem median_on_path {E : List Edge} (hT : IsTreeNet E) {s u v : ℕ}
    {q : List Edge} (hs : s ∈ vertsOf E) (hu : u ∈ vertsOf E)
    (hw : isWalk E u q v = true) (hp : isPath u q) :
    ∃ t, t ∈ walkSupport u q ∧
      dval E s u = dval E s t + dval E t u ∧
      dval E s v = dval E s t + dval E t v := by
  obtain ⟨_, ⟨p, hpw, hpp, hpe⟩, _⟩ := dval_lookup hT hs hu
  have hcommon : ∃ z ∈ walkSupport s p, z ∈ walkSupport u q :=
    ⟨u, end_mem_support hpw, List.mem_cons_self _ _⟩
  obtain ⟨l₁, t, l₂, hsp, htq, hl₁⟩ := first_common _ hcommon
  obtain ⟨hpw1, hpp1, hps1, hpw2, hpp2, hps2, hpd1, hpd2, hpsum⟩ :=
    path_decomp hT hs hpw hpp hsp
  have htv : t ∈ vertsOf E := walk_end_verts hT.2.1 hpw1 hs
  obtain ⟨a, b, hqdec⟩ := List.append_of_mem htq
  obtain ⟨hqw1, hqp1, hqs1, hqw2, hqp2, hqs2, hqd1, hqd2, hqsum⟩ :=
    path_decomp hT hu hw hp hqdec
  refine ⟨t, htq, hpsum.symm, ?_⟩
  have hend : endOf s (p.take l₁.length) = t := endOf_take_of_support_split hsp
  have hglue : isWalk E s (p.take l₁.length ++ q.drop a.length) v = true := by
    rw [isWalk_append_iff, hend]
    exact ⟨hpw1, hqw2⟩
  have htargets : targetsOf (q.drop a.length) = b := by
    have h2 : t :: targetsOf (q.drop a.length) = t :: b := hqs2
    exact (List.cons.inj h2).2
  have hgluepath : isPath s (p.take l₁.length ++ q.drop a.length) := by
    unfold isPath
    rw [walkSupport_append, hps1, htargets, List.nodup_append]
    refine ⟨by rw [← hps1]; exact hpp1, ?_, ?_⟩
    · have hnd := hqp2
      unfold isPath at hnd
      rw [hqs2] at hnd
      exact (List.nodup_cons.mp hnd).2
    · intro z hz hzb
      rcases List.mem_append.mp hz with hzl | hzt
      · refine hl₁ z hzl ?_
        rw [hqdec]
        exact List.mem_append_right _ (List.mem_cons_of_mem _ hzb)
      · simp only [List.mem_singleton] at hzt
        subst hzt
        have hnd := hqp2
        unfold isPath at hnd
        rw [hqs2] at hnd
        exact (List.nodup_cons.mp hnd).1 hzb
  have hdglue : dval E s v = weightOf (p.take l₁.length ++ q.drop a.length) :=
    dval_eq_path_weight hT hs hglue hgluepath
  rw [hdglue, weight_append, ← hpd1, ← hqd2]

/-- The double-sweep inequality: if `A` is farthest from `s`, then for any
pair of vertices the distance is dominated by a distance from `A`. -/
theorem dval_pair_le {E : List Edge} (hT : IsTreeNet E) {s A : ℕ}
    (hs : s ∈ vertsOf E) (hA : A ∈ vertsOf E)
    (hfar : ∀ z ∈ vertsOf E, dval E s z ≤ dval E s A) :
    ∀ u ∈ vertsOf E, ∀ v ∈ vertsOf E,
      dval E u v ≤ max (dval E A u) (dval E A v) := by
  intro u hu v hv
  obtain ⟨_, ⟨q, hqw, hqp, hqe⟩, _⟩ := dval_lookup hT hu hv
  obtain ⟨t, htm, hst1, hst2⟩ := median_on_path hT hs hu hqw hqp
  obtain ⟨t', ht'm, hat1, hat2⟩ := median_on_path hT hA hu hqw hqp
  have hS := hT.2.1
  have htv : t ∈ vertsOf E := walk_support_verts hS hqw hu t htm
  have ht'v : t' ∈ vertsOf E := walk_support_verts hS hqw hu t' ht'm
  obtain ⟨a1, b1, hd1⟩ := List.append_of_mem htm
  obtain ⟨_, _, _, _, _, _, _, _, hsum1⟩ := path_decomp hT hu hqw hqp hd1
  obtain ⟨a2, b2, hd2⟩ := List.append_of_mem ht'm
  obtain ⟨_, _, _, _, _, _, _, _, hsum2⟩ := path_decomp hT hu hqw hqp hd2
  have htri1 : dval E s A ≤ dval E s t + dval E t A := dval_triangle hT hs htv hA
  have htri2 : dval E t A ≤ dval E t t' + dval E t' A := dval_triangle hT htv ht'v hA
  have hfu : dval E s u ≤ dval E s A := hfar u hu
  have hfv : dval E s v ≤ dval E s A := hfar v hv
  have hsym1 : dval E t u = dval E u t := dval_symm hT htv hu
  have hsym2 : dval E t' u = dval E u t' := dval_symm hT ht'v hu
  have hsym3 : dval E t' A = dval E A t' := dval_symm hT ht'v hA
  rcases path_two_points hT hu hqw hqp htm ht'm with ⟨hle, heq⟩ | ⟨hle, heq⟩
  · -- dval u t ≤ dval u t'; dval t t' = dval u t' - dval u t
    refine le_trans ?_ (le_max_left _ _)
    -- show dval u v ≤ dval A u
    linarith
  · -- dval u t' ≤ dval u t; dval t t' = dval u t - dval u t'
    refine le_trans ?_ (le_max_right _ _)
    linarith

/-- Core correctness of the double sweep on a tree network: the value
`dval E A B` of the second sweep is realised by a simple path and dominates
every simple path weight. -/
theorem double_sweep_core {E : List Edge} (hT : IsTreeNet E) {start : ℕ}
    (hstart : start ∈ vertsOf E) :
    ∃ es, isWalk E (_dijkstra E start).2 es (_dijkstra E (_dijkstra E start).2).2 = true ∧
      isPath (_dijkstra E start).2 es ∧
      weightOf es = dval E (_dijkstra E start).2 (_dijkstra E (_dijkstra E start).2).2 ∧
      (∀ u ps v, isWalk E u ps v = true → isPath u ps →
        weightOf ps ≤ weightOf es) := by
  obtain ⟨hAv, hAfar⟩ := dijkstra_argmax hT hstart
  obtain ⟨hBv, hBfar⟩ := dijkstra_argmax hT hAv
  obtain ⟨_, ⟨es, hesw, hesp, hese⟩, _⟩ := dval_lookup hT hAv hBv
  refine ⟨es, hesw, hesp, hese, ?_⟩
  intro u ps v hpw hpp
  cases ps with
  | nil =>
    rw [weight_nil, hese]
    exact dval_nonneg hT hAv hBv
  | cons e ps' =>
    have hu : u ∈ vertsOf E := by
      obtain ⟨he, heu, _⟩ := isWalk_cons_iff.mp hpw
      rw [← heu]
      exact List.mem_map.mpr ⟨e, he, rfl⟩
    have hv : v ∈ vertsOf E := walk_end_verts hT.2.1 hpw hu
    have h1 : dval E u v = weightOf (e :: ps') := dval_eq_path_weight hT hu hpw hpp
    have h2 : dval E u v ≤ max (dval E (_dijkstra E start).2 u)
        (dval E (_dijkstra E start).2 v) :=
      dval_pair_le hT hstart hAv hAfar u hu v hv
    have h3 := hBfar u hu
    have h4 := hBfar v hv
    rw [hese, ← h1]
    exact le_trans h2 (max_le h3 h4)

theorem head_src_mem {E : List Edge} (hne : E ≠ []) :
    (E.headD (0, 0, 0)).1 ∈ vertsOf E := by
  cases E with
  | nil => exact absurd rfl hne
  | cons e E' => exact List.mem_map.mpr ⟨e, List.mem_cons_self _ _, rfl⟩

/-- Claim C5: on a tree-shaped stream network (symmetric positive-weight
connected graph with unique simple paths), `longestFromSegs` — two Dijkstra
sweeps, first from the first inserted node, then from the farthest node found
— reports exactly the maximum simple-path weight of the network, in km. -/
theorem C5_double_sweep (segs : List Seg)
    (hT : IsTreeNet ((_build_graph segs ENDPOINT_CLUSTER_TOL).1)) :
    ∃ a es b,
      isWalk ((_build_graph segs ENDPOINT_CLUSTER_TOL).1) a es b = true ∧
      isPath a es ∧
      longestFromSegs segs = some (weightOf es / 1000) ∧
      (∀ u ps v, isWalk ((_build_graph segs ENDPOINT_CLUSTER_TOL).1) u ps v = true →
        isPath u ps → weightOf ps ≤ weightOf es) := by
  have hne := hT.1
  have hstart := head_src_mem hne
  obtain ⟨es, hw, hp, he, hmax⟩ := double_sweep_core hT hstart
  refine ⟨_, es, _, hw, hp, ?_, hmax⟩
  unfold longestFromSegs
  rw [if_neg hne, he]
  rfl

/-- One 5000 m straight segment: its graph is the two-node tree. -/
def c5segs : List Seg := [⟨(0, 0), (5000, 0), 5000⟩]

theorem c5_graph : (_build_graph c5segs ENDPOINT_CLUSTER_TOL).1
    = [(0, 1, 5000), (1, 0, 5000)] := by
  norm_num [c5segs, _build_graph, _cluster_endpoints, clusterStep, findCluster,
    updPt, lookupPt, ENDPOINT_CLUSTER_TOL, beq_iff_eq, Prod.mk.injEq, Prod.ext_iff]

theorem c5_tree : IsTreeNet ((_build_graph c5segs ENDPOINT_CLUSTER_TOL).1) := by
  rw [c5_graph]
  refine ⟨by simp, ?_, ?_, ?_, ?_⟩
  · intro u v w h
    simp only [List.mem_cons, List.not_mem_nil, or_false, Prod.mk.injEq] at h ⊢
    rcases h with ⟨h1, h2, h3⟩ | ⟨h1, h2, h3⟩
    · exact Or.inr ⟨h2, h1, h3⟩
    · exact Or.inl ⟨h2, h1, h3⟩
  · intro e he
    simp only [List.mem_cons, List.not_mem_nil, or_false] at he
    rcases he with rfl | rfl
    · norm_num
    · norm_num
  · intro u hu v hv
    simp only [vertsOf, List.map_cons, List.map_nil, List.mem_cons,
      List.not_mem_nil, or_false] at hu hv
    rcases hu with hu | hu <;> rcases hv with hv | hv <;> subst hu <;> subst hv
    · exact ⟨[], by norm_num [isWalk]⟩
    · exact ⟨[(0, 1, 5000)], by norm_num [isWalk]⟩
    · exact ⟨[(1, 0, 5000)], by norm_num [isWalk]⟩
    · exact ⟨[], by norm_num [isWalk]⟩
  · intro u v p q hwp hpp hwq hpq
    have hclass : ∀ (r : List Edge),
        isWalk [((0 : ℕ), (1 : ℕ), (5000 : ℚ)), (1, 0, 5000)] u r v = true →
        isPath u r →
        (r = [] ∧ u = v) ∨ (r = [(0, 1, 5000)] ∧ u = 0 ∧ v = 1) ∨
        (r = [(1, 0, 5000)] ∧ u = 1 ∧ v = 0) := by
      intro r hw hp
      cases r with
      | nil => exact Or.inl ⟨rfl, isWalk_nil_iff.mp hw⟩
      | cons e r' =>
        obtain ⟨he, heu, hw'⟩ := isWalk_cons_iff.mp hw
        simp only [List.mem_cons, List.not_mem_nil, or_false] at he
        rcases he with rfl | rfl
        · cases r' with
          | nil =>
            refine Or.inr (Or.inl ⟨rfl, heu.symm, ?_⟩)
            exact (isWalk_nil_iff.mp hw').symm
          | cons f r'' =>
            exfalso
            obtain ⟨hf, hfu, _⟩ := isWalk_cons_iff.mp hw'
            simp only [List.mem_cons, List.not_mem_nil, or_false] at hf
            rcases hf with rfl | rfl
            · exact absurd hfu (by decide)
            · rw [← heu] at hp
              simp [isPath, walkSupport, targetsOf] at hp
        · cases r' with
          | nil =>
            refine Or.inr (Or.inr ⟨rfl, heu.symm, ?_⟩)
            exact (isWalk_nil_iff.mp hw').symm
          | cons f r'' =>
            exfalso
            obtain ⟨hf, hfu, _⟩ := isWalk_cons_iff.mp hw'
            simp only [List.mem_cons, List.not_mem_nil, or_false] at hf
            rcases hf with rfl | rfl
            · rw [← heu] at hp
              simp [isPath, walkSupport, targetsOf] at hp
            · exact absurd hfu (by decide)
    rcases hclass p hwp hpp with ⟨hp1, hp2⟩ | ⟨hp1, hp2, hp3⟩ | ⟨hp1, hp2, hp3⟩ <;>
      rcases hclass q hwq hpq with ⟨hq1, hq2⟩ | ⟨hq1, hq2, hq3⟩ | ⟨hq1, hq2, hq3⟩ <;>
      first
        | (exfalso; omega)
        | (rw [hp1, hq1])

/-- Witness for C5: the single-segment network is the two-node tree and the
theorem's conclusion holds on it. -/
theorem C5_double_sweep_witness :
    ∃ a es b,
      isWalk ((_build_graph c5segs ENDPOINT_CLUSTER_TOL).1) a es b = true ∧
      isPath a es ∧
      longestFromSegs c5segs = some (weightOf es / 1000) ∧
      (∀ u ps v, isWalk ((_build_graph c5segs ENDPOINT_CLUSTER_TOL).1) u ps v = true →
        isPath u ps → weightOf ps ≤ weightOf es) :=
  C5_double_sweep c5segs c5_tree

end DelineatorRepo
